import Mathlib

/-!
# doc-i18n-tool: string processing, presentation collapse and tree walk

A shallow embedding of `src/doc-i18n-tool/doc-i18n-tool.c`.

* C strings are lists of bytes; the loops of `processString` stop at the
  first NUL byte (or at the end of the list, which stands for the
  terminating NUL).
* `stdout` is the list of bytes written so far.
* The `int` variable `new_len` of `processString` is a 32-bit machine
  integer: each addition to it goes through `wrapInt`.
* The state of a walk also holds a trace: the list of the calls of
  `processNode` made so far, each with the pointer, the node value and the
  line it was given.  Claims about which nodes are visited, and in which
  order, are stated on this trace.
* The document is a value of type `Node`; the document node itself is the
  top of the tree (as in libxml2, where the parent of the root element is
  the document).  A node pointer is the list of child indices that leads
  from the node up to the document node (innermost index first), so that
  `cur->parent` is the tail of the list; `NULL` is `none`.
-/

namespace DocI18n

/-! ## Bytes and formatted output -/

abbrev Byte := UInt8

/-- Bytes of an ASCII string literal. -/
def lit (s : String) : List Byte := s.toList.map (fun c => c.toNat.toUInt8)

/-- The bytes that the conversion `%s` prints for a character buffer: everything before the
first NUL. -/
def str (s : List Byte) : List Byte := s.takeWhile (fun c => c != 0)

/-- Decimal digits of a natural number. -/
def fmtNat (n : Nat) : List Byte := (Nat.toDigits 10 n).map (fun c => c.toNat.toUInt8)

/-- The bytes that the conversion `%d` prints. -/
def fmtInt : Int → List Byte
  | Int.ofNat n => fmtNat n
  | Int.negSucc n => 45 :: fmtNat (n + 1)

/-! ## Configuration (the option variables of the program) -/

/-- The global option variables read by the core, and the translation lookup `gettext`. -/
structure Config where
  output_pot_file : Bool
  alternate_file_name : Option (List Byte)
  gettext : List Byte → List Byte

/-- The table `presentation_elements` (without its NULL terminator). -/
def presentation_elements : List (List Byte) := [lit "accel"]

/-! ## processString -/

/-- The value an `int` holds after an addition whose exact result is `x`: the `int` of the
source is 32 bits wide, and a result outside its range (undefined in C) is taken as it wraps
in two's complement. -/
def wrapInt (x : Int) : Int := (x + 2 ^ 31) % 2 ^ 32 - 2 ^ 31

/-- First loop of `processString`: `ptr` runs over `value`, the `int` variable `new_len` is the
accumulator. -/
def lenLoop : List Byte → Int → Int
  | [], new_len => new_len
  | c :: ptr, new_len =>
    if c = 0 then new_len
    else if c = 10 then lenLoop ptr (wrapInt (new_len + 5))
    else if c = 34 then lenLoop ptr (wrapInt (new_len + 2))
    else lenLoop ptr (wrapInt (new_len + 1))

/-- Second loop of `processString`: `ptr` runs over `value`, `buf` holds the bytes written
through `ptr2` so far. -/
def fillLoop : List Byte → List Byte → List Byte
  | [], buf => buf
  | c :: ptr, buf =>
    if c = 0 then buf
    else if c = 10 then fillLoop ptr (buf ++ [92, 110, 34, 10, 34])
    else if c = 34 then fillLoop ptr (buf ++ [92, 34])
    else fillLoop ptr (buf ++ [c])

/-- The value of `new_len` after the first loop. -/
def new_len (value : List Byte) : Int := lenLoop value 0

/-- The value of the `int` expression `new_len + 1` in the size passed to `malloc`. -/
def alloc_len (value : List Byte) : Int := wrapInt (new_len value + 1)

/-- The buffer `new_line` after the second loop and the final `*ptr2 = 0`. -/
def new_line (value : List Byte) : List Byte := fillLoop value [] ++ [0]

/-- The file name printed in location comments: `alternate_file_name` when set, else the
file name passed in. -/
def locationName (cfg : Config) (filename : List Byte) : List Byte :=
  match cfg.alternate_file_name with
  | some a => a
  | none => filename

/-- Function `processString`: returns the return value (`none` for NULL) and the new contents of
`stdout`. -/
def processString (cfg : Config) (value filename : List Byte) (line_no : Int)
    (out : List Byte) : Option (List Byte) × List Byte :=
  if cfg.output_pot_file then
    let out1 := out ++ (lit "#: " ++ str (locationName cfg filename) ++ lit ":" ++
      fmtInt line_no ++ lit "\n")
    let out2 := out1 ++ (lit "msgid \"" ++ str (new_line value) ++ lit "\"\n")
    let out3 := out2 ++ lit "msgstr \"\"\n\n"
    (none, out3)
  else
    (some (cfg.gettext value), out)

/-- The escaping rule in the words of the specification, for one byte. -/
def escByte (c : Byte) : List Byte :=
  if c = 10 then [92, 110, 34, 10, 34]
  else if c = 34 then [92, 34]
  else [c]

/-- The escaping rule in the words of the specification: the in-order concatenation of the
images of the bytes. -/
def escapeSpec (s : List Byte) : List Byte := s.flatMap escByte

/-- One template entry in the words of the specification. -/
def entrySpec (name : List Byte) (n : Int) (s : List Byte) : List Byte :=
  lit "#: " ++ name ++ lit ":" ++ fmtInt n ++ lit "\n" ++
  lit "msgid \"" ++ escapeSpec s ++ lit "\"\n" ++
  lit "msgstr \"\"\n" ++ lit "\n"

/-! ## The document tree -/

/-- Node kinds (the values of `node->type` that the code distinguishes). -/
inductive NodeType where
  | element
  | text
  | entityRef
  | entityDecl
  | other
  deriving DecidableEq, Repr

/-- A node of the document tree: `type`, `name`, the text buffer `content`, the line number that
`(int) node->content` yields on an element, and the child list (`children`, linked by `next`). -/
inductive Node where
  | mk (type : NodeType) (name : List Byte) (content : List Byte) (line : Int)
      (children : List Node)
  deriving Repr

namespace Node

def type : Node → NodeType
  | mk t _ _ _ _ => t

def name : Node → List Byte
  | mk _ n _ _ _ => n

def content : Node → List Byte
  | mk _ _ c _ _ => c

def line : Node → Int
  | mk _ _ _ l _ => l

def children : Node → List Node
  | mk _ _ _ _ cs => cs

/-- Assignment to `node->content` of a text node. -/
def setContent : Node → List Byte → Node
  | mk t n _ l cs, c => mk t n c l cs

/-- Assignment to the child list of a node. -/
def setChildren : Node → List Node → Node
  | mk t n c l _, cs => mk t n c l cs

end Node

mutual
/-- Concatenation, in document order, of the contents of the Text nodes of a subtree. -/
def nodeText : Node → List Byte
  | Node.mk t _ c _ cs => (if t = NodeType.text then c else []) ++ nodesText cs
/-- Concatenation, in document order, of the contents of the Text nodes of a node list. -/
def nodesText : List Node → List Byte
  | [] => []
  | n :: ns => nodeText n ++ nodesText ns
end

/-- Modelled from the spec: `xmlNodeGetContent` is a libxml2 call; section 4.1 describes its
result on an element as the concatenation, in document order, of the text of all descendant
Text nodes. -/
def xmlNodeGetContent (node : Node) : List Byte := nodesText node.children

/-- Modelled from the spec: `xmlNewDocText` is a libxml2 call; it makes a new Text node that
holds a copy of the given content and has no children. -/
def xmlNewDocText (content : List Byte) : Node :=
  Node.mk NodeType.text (lit "text") content 0 []

/-! ## processNode -/

/-- Inner scan of `processNode`: `tst` runs over `presentation_elements` until an entry equal
to `name` is found; the result tells whether the scan stopped before the end of the table. -/
def scanTable (name : List Byte) : List (List Byte) → Bool
  | [] => false
  | t :: tst => if t = name then true else scanTable name tst

/-- Outer scan of `processNode`: the value of `pres` (as a Boolean) after the loop over the
children. -/
def scanChildren : List Node → Bool
  | [] => true
  | c :: children =>
    if c.type = NodeType.element then
      if scanTable c.name presentation_elements then scanChildren children else false
    else scanChildren children

/-- Function `processNode` on the node value: the new value of the node and the new contents of
`stdout`. -/
def processNode (cfg : Config) (filename : List Byte) (line : Int) (node : Node)
    (out : List Byte) : Node × List Byte :=
  if node.type = NodeType.text then
    match processString cfg node.content filename line out with
    | (some res, out1) => (node.setContent res, out1)
    | (none, out1) => (node, out1)
  else if node.type = NodeType.element then
    match node.children with
    | [] => (node, out)
    | _ :: _ =>
      if scanChildren node.children then
        (node.setChildren [xmlNewDocText (xmlNodeGetContent node)], out)
      else (node, out)
  else (node, out)

/-! ## Node pointers -/

/-- A pointer to a node: the child indices from the node up to the document node. -/
abbrev Ptr := List Nat

/-- Dereference a pointer in the document `d`. -/
def getNode (d : Node) : Ptr → Option Node
  | [] => some d
  | i :: p => (getNode d p).bind (fun n => n.children[i]?)

/-- Store a node value at a pointer. -/
def setNode (d : Node) : Ptr → Node → Node
  | [], n => n
  | i :: p, n =>
    match getNode d p with
    | some par => setNode d p (par.setChildren (par.children.set i n))
    | none => d

/-- Field `cur->children`: pointer to the first child, if any. -/
def childrenPtr (d : Node) (cur : Ptr) : Option Ptr :=
  match getNode d (0 :: cur) with
  | some _ => some (0 :: cur)
  | none => none

/-- Field `cur->next`: pointer to the next sibling, if any. -/
def nextPtr (d : Node) : Ptr → Option Ptr
  | [] => none
  | i :: p =>
    match getNode d ((i + 1) :: p) with
    | some _ => some ((i + 1) :: p)
    | none => none

/-- Field `cur->parent`. -/
def parentPtr : Ptr → Option Ptr
  | [] => none
  | _ :: p => some p

/-! ## processSubtree -/

/-- One call of `processNode`, as recorded in the trace of the walk: the pointer passed, the
node as it was when passed, and the line passed. -/
structure Visit where
  ptr : Ptr
  node : Node
  line : Int

/-- The state the walk acts on: the document, `stdout`, and the trace of `processNode` calls. -/
structure State where
  doc : Node
  out : List Byte
  log : List Visit

/-- Call `processNode (cur, filename, line)` on the document of the state. -/
def processNodeAt (cfg : Config) (filename : List Byte) (line : Int) (cur : Ptr)
    (st : State) : Option State :=
  match getNode st.doc cur with
  | none => none
  | some n =>
    let r := processNode cfg filename line n st.out
    some { doc := setNode st.doc cur r.1, out := r.2, log := st.log ++ [⟨cur, n, line⟩] }

/-- The do-while loop of `processSubtree` that climbs from `cur`; the result is the value of
`cur` when the loop is left.  Each round replaces `cur` by `cur->parent` (the tail of the
pointer, NULL above the document node), leaves the loop with `cur->next` when there is one, and
goes on unless `cur` is `node`. -/
def climb (d : Node) (node : Ptr) : Ptr → Option Ptr
  | [] => none
  | _ :: p =>
    match nextPtr d p with
    | some q => some q
    | none => if p = node then some p else climb d node p

/-- What the "skip to next node" part of the loop body does to `cur`. -/
inductive Advance where
  | ret
  | moveTo (cur : Option Ptr)

/-- The "skip to next node" part of the loop body of `processSubtree` (after the nested call). -/
def advance (d : Node) (node cur : Ptr) : Option Advance :=
  match getNode d cur with
  | none => none
  | some c =>
    if (childrenPtr d cur).isSome ∧ c.type ≠ NodeType.entityRef then
      some (Advance.moveTo (childrenPtr d cur))
    else if c.type = NodeType.entityDecl then some Advance.ret
    else if (nextPtr d cur).isSome then some (Advance.moveTo (nextPtr d cur))
    else some (Advance.moveTo (climb d node cur))

mutual
/-- Function `processSubtree`; `fuel` bounds the number of nested calls and loop iterations,
`none` is returned when it runs out (or when a pointer dangles). -/
def processSubtree (cfg : Config) (filename : List Byte) :
    Nat → Option Ptr → State → Option State
  | 0, _, _ => none
  | _ + 1, none, st => some st
  | fuel + 1, some node, st => walkLoop cfg filename fuel node 0 node st
/-- The while loop of `processSubtree`, entered with the loop variables `line` and `cur`. -/
def walkLoop (cfg : Config) (filename : List Byte) :
    Nat → Ptr → Int → Ptr → State → Option State
  | 0, _, _, _, _ => none
  | fuel + 1, node, line, cur, st =>
    match getNode st.doc node with
    | none => none
    | some nd =>
      let line1 := if nd.type = NodeType.element then nd.line else line
      match processNodeAt cfg filename line1 cur st with
      | none => none
      | some st1 =>
        match getNode st1.doc cur with
        | none => none
        | some c =>
          match (if c.type = NodeType.entityRef then
                  processSubtree cfg filename fuel (childrenPtr st1.doc cur) st1
                else some st1) with
          | none => none
          | some st2 =>
            match advance st2.doc node cur with
            | none => none
            | some Advance.ret => some st2
            | some (Advance.moveTo none) => some st2
            | some (Advance.moveTo (some cur1)) =>
              if cur1 = node then some st2
              else walkLoop cfg filename fuel node line1 cur1 st2
end

/-! ## processDocument -/

/-- Function `output_pot_header`: the new contents of `stdout`. -/
def output_pot_header (cfg : Config) (filename : List Byte) (out : List Byte) : List Byte :=
  let out1 := out ++ lit "# SOME DESCRIPTIVE TITLE\n"
  let out2 := out1 ++ lit "# Copyright (C) YEAR Free Software Foundation, Inc.\n"
  let out3 := out2 ++ lit "# FIRST AUTHOR <EMAIL@ADDRESS>, YEAR.\n"
  out3 ++ (lit "#\n# " ++ str (locationName cfg filename) ++ lit "\n\n")

/-- Loop of the libxml2 call `xmlDocGetRootElement`: the index of the first child of the
document that is an element. -/
def rootIndex : List Node → Nat → Option Nat
  | [], _ => none
  | c :: cs, i => if c.type = NodeType.element then some i else rootIndex cs (i + 1)

/-- Modelled from the spec: the root that section 4.3 hands to the walk is what the libxml2
call `xmlDocGetRootElement` returns, the first child of the document node that is an element,
or NULL when there is none. -/
def xmlDocGetRootElement (doc : Node) : Option Ptr :=
  (rootIndex doc.children 0).map (fun i => [i])

/-- Function `processDocument`; a NULL `doc` is `none`.  The result is `stdout`, the trace of
`processNode` calls and the document after the call. -/
def processDocument (cfg : Config) (fuel : Nat) (doc : Option Node) (filename : List Byte)
    (out : List Byte) : Option (List Byte × List Visit × Option Node) :=
  match doc with
  | none => some (out, [], none)
  | some d =>
    let out1 := if cfg.output_pot_file then output_pot_header cfg filename out else out
    match processSubtree cfg filename fuel (xmlDocGetRootElement d) ⟨d, out1, []⟩ with
    | none => none
    | some st => some (st.out, st.log, some st.doc)

/-! ## Specification-side definitions for the walk -/

/-- The header block in the words of the specification. -/
def headerSpec (name : List Byte) : List Byte :=
  lit "# SOME DESCRIPTIVE TITLE\n" ++
  lit "# Copyright (C) YEAR Free Software Foundation, Inc.\n" ++
  lit "# FIRST AUTHOR <EMAIL@ADDRESS>, YEAR.\n" ++
  lit "#\n" ++ lit "# " ++ name ++ lit "\n" ++ lit "\n"

/-- The entries that a trace of `processNode` calls stands for: one entry per call on a Text
node, in the order of the calls. -/
def entriesSpec (name : List Byte) (log : List Visit) : List Byte :=
  (log.filter (fun v => v.node.type = NodeType.text)).flatMap
    (fun v => entrySpec name v.line v.node.content)

/-! ## Sample documents -/

/-- A Text node. -/
def sampleText (s : String) : Node := Node.mk NodeType.text (lit "text") (lit s) 0 []

/-- An Element node. -/
def sampleElem (name : String) (line : Int) (cs : List Node) : Node :=
  Node.mk NodeType.element (lit name) [] line cs

/-- A document node with the given children. -/
def sampleDoc (cs : List Node) : Node := Node.mk NodeType.other [] [] 0 cs

/-- Template mode, no alternate file name. -/
def potConfig : Config := ⟨true, none, id⟩

/-- Translate mode with a lookup that brackets its argument. -/
def trConfig : Config := ⟨false, none, fun s => lit "[" ++ s ++ lit "]"⟩

/-- A book with a paragraph, an EntityDeclaration with a Text child, and a second paragraph. -/
def docDeclWithChild : Node :=
  sampleDoc [sampleElem "book" 1
    [Node.mk NodeType.entityDecl (lit "ent") [] 0 [sampleText "in"],
     sampleElem "para" 9 [sampleText "y"]]]

/-- A book with an EntityReference whose only child is an EntityDeclaration without children,
followed by a paragraph. -/
def docRefToDecl : Node :=
  sampleDoc [sampleElem "book" 1
    [Node.mk NodeType.entityRef (lit "ent") [] 0
       [Node.mk NodeType.entityDecl (lit "ent") [] 0 []],
     sampleElem "para" 9 [sampleText "y"]]]

/-- A book (line 1) with a section (line 5) holding a paragraph (line 6) with the text x. -/
def docNestedLines : Node :=
  sampleDoc [sampleElem "book" 1 [sampleElem "sect" 5 [sampleElem "para" 6 [sampleText "x"]]]]

/-- A book with a collapsible paragraph, an EntityReference with two Text children, and a
second paragraph. -/
def rootRefWithText : Node :=
  sampleElem "book" 1
    [sampleElem "para" 5 [sampleText "a ", sampleElem "accel" 5 [sampleText "K"]],
     Node.mk NodeType.entityRef (lit "ent") [] 0 [sampleText "in1", sampleText "in2"],
     sampleElem "para" 9 [sampleText "y"]]

/-- The document whose only child is `rootRefWithText`. -/
def docRefWithText : Node := sampleDoc [rootRefWithText]

/-- A book with an empty Text node, a section that holds an empty element and a
whitespace-only Text node, and a collapsible paragraph. -/
def docEmptyTexts : Node :=
  sampleDoc [sampleElem "book" 1
    [sampleText "", sampleElem "sect" 2 [sampleElem "hr" 3 [], sampleText " \n"],
     sampleElem "para" 4 [sampleText "Press ", sampleElem "accel" 4 [sampleText "K"]]]]

/-! ## Pre-order listing and the reference walk -/

mutual
/-- Pre-order listing of a subtree, each node given by its pointer and its kind: the node at
`p` first, then the subtrees of its children in document order. -/
def preorder : Ptr → Node → List (Ptr × NodeType)
  | p, Node.mk t _ _ _ cs => (p, t) :: preorderList p 0 cs
/-- Pre-order listing of the subtrees of the children of `p` from index `i` on. -/
def preorderList : Ptr → Nat → List Node → List (Ptr × NodeType)
  | _, _, [] => []
  | p, i, n :: ns => preorder (i :: p) n ++ preorderList p (i + 1) ns
end

mutual
/-- No EntityDeclaration occurs in the subtree and no EntityReference of it has children. -/
def noEntityContent : Node → Bool
  | Node.mk t _ _ _ cs =>
    t != NodeType.entityDecl && (t != NodeType.entityRef || cs.isEmpty) &&
      noEntityContentList cs
/-- All nodes of the list satisfy `noEntityContent`. -/
def noEntityContentList : List Node → Bool
  | [] => true
  | n :: ns => noEntityContent n && noEntityContentList ns
end

mutual
/-- Reference walk of a subtree without entity content, by recursion on the tree: the node at
pointer `p` is passed to `processNode`; when that collapses the node, the new Text child is
passed next; otherwise the children are walked in order.  The result is the subtree, `stdout`
and the trace after the walk. -/
def refNode (cfg : Config) (f : List Byte) (line : Int) :
    Ptr → Node → List Byte → List Visit → Node × List Byte × List Visit
  | p, Node.mk t nm c l cs, out, log =>
    let r := processNode cfg f line (Node.mk t nm c l cs) out
    if t = NodeType.element ∧ cs.isEmpty = false ∧ scanChildren cs = true then
      let tn := xmlNewDocText (nodesText cs)
      let r2 := processNode cfg f line tn r.2
      (r.1.setChildren [r2.1], r2.2,
        log ++ [⟨p, Node.mk t nm c l cs, line⟩] ++ [⟨0 :: p, tn, line⟩])
    else
      let rs := refList cfg f line p 0 cs r.2 (log ++ [⟨p, Node.mk t nm c l cs, line⟩])
      (r.1.setChildren rs.1, rs.2.1, rs.2.2)
/-- Reference walk of the children of `p` from index `i` on. -/
def refList (cfg : Config) (f : List Byte) (line : Int) :
    Ptr → Nat → List Node → List Byte → List Visit → List Node × List Byte × List Visit
  | _, _, [], out, log => ([], out, log)
  | p, i, n :: ns, out, log =>
    let r := refNode cfg f line (i :: p) n out log
    let rs := refList cfg f line p (i + 1) ns r.2.1 r.2.2
    (r.1 :: rs.1, rs.2.1, rs.2.2)
end

/-! ## Contexts (used in proofs only)

A context is the path from a node up to the document node: for each ancestor, the ancestor
itself and the siblings to the left and to the right of the path. -/

/-- One level of a context. -/
structure Frame where
  par : Node
  left : List Node
  right : List Node

/-- The document obtained by putting `n` into the hole of a context. -/
def plug : List Frame → Node → Node
  | [], n => n
  | fr :: up, n => plug up (fr.par.setChildren (fr.left ++ n :: fr.right))

/-- The pointer to the hole of a context. -/
def ctxPtr : List Frame → Ptr
  | [] => []
  | fr :: up => fr.left.length :: ctxPtr up

/-- The pointer `cur->next` for the hole of a context. -/
def ctxNext : List Frame → Option Ptr
  | [] => none
  | fr :: up =>
    match fr.right with
    | [] => none
    | _ :: _ => some ((fr.left.length + 1) :: ctxPtr up)

/-- The result of the climb from the hole of a context. -/
def ctxClimb (node : Ptr) : List Frame → Option Ptr
  | [] => none
  | _ :: up =>
    match ctxNext up with
    | some q => some q
    | none => if ctxPtr up = node then some (ctxPtr up) else ctxClimb node up

/-- The rest of the loop of `processSubtree` once `cur` has its new value `q`. -/
def finish (cfg : Config) (f : List Byte) (node : Ptr) (line : Int) (fuel : Nat)
    (q : Option Ptr) (st : State) : Option State :=
  match q with
  | none => some st
  | some q => if q = node then some st else walkLoop cfg f fuel node line q st

/-! ## The loop body in parts (used in proofs only) -/

/-- The value of `line` after the first statement of the loop body, `nd` being the node that
`node` points to. -/
def lineOf (nd : Node) (line : Int) : Int :=
  if nd.type = NodeType.element then nd.line else line

/-- The nested call of the loop body, `c` being the node that `cur` points to. -/
def nested (cfg : Config) (f : List Byte) (fuel : Nat) (c : Node) (cur : Ptr)
    (st1 : State) : Option State :=
  if c.type = NodeType.entityRef then processSubtree cfg f fuel (childrenPtr st1.doc cur) st1
  else some st1

/-- The rest of the loop after the "skip to next node" part has produced `a`. -/
def resume (cfg : Config) (f : List Byte) (node : Ptr) (line : Int) (fuel : Nat)
    (a : Advance) (st2 : State) : Option State :=
  match a with
  | Advance.ret => some st2
  | Advance.moveTo q => finish cfg f node line fuel q st2

/-- The value of `cur` after the node in the hole of a context, a node without children, has
been handled: the next sibling if there is one, else the result of the climb. -/
def ctxSucc (node : Ptr) (c : List Frame) : Option Ptr :=
  match ctxNext c with
  | some q => some q
  | none => ctxClimb node c

/-- The start pointer `node` lies on the path of the context `up` (at the node `par` or above),
and at every iteration below `par` the loop variable `line` keeps its value. -/
def Anchored (node : Ptr) (line : Int) (up : List Frame) (par : Node) : Prop :=
  node <:+ ctxPtr up ∧
  ∀ cs : List Node, ∃ nd, getNode (plug up (par.setChildren cs)) node = some nd ∧
    lineOf nd line = line

/-- The loop of `processSubtree`, entered with `cur` on the node `n` strictly below the start
node, handles the subtree of `n` as the reference walk does and goes on with the node that
follows the subtree. -/
def WalksAs (cfg : Config) (f : List Byte) (node : Ptr) (line : Int) (n : Node) : Prop :=
  ∀ (par : Node) (l r : List Node) (up : List Frame) (out : List Byte) (log : List Visit),
    Anchored node line up par →
    ∃ k, ∀ m st',
      finish cfg f node line m (ctxSucc node (⟨par, l, r⟩ :: up))
        ⟨plug (⟨par, l, r⟩ :: up) (refNode cfg f line (l.length :: ctxPtr up) n out log).1,
         (refNode cfg f line (l.length :: ctxPtr up) n out log).2.1,
         (refNode cfg f line (l.length :: ctxPtr up) n out log).2.2⟩ = some st' →
      walkLoop cfg f (k + m) node line (l.length :: ctxPtr up)
        ⟨plug (⟨par, l, r⟩ :: up) n, out, log⟩ = some st'

/-! ## Sizes and the order on contexts (used in the termination proof) -/

mutual
/-- Number of nodes of a subtree. -/
def nodeSize : Node → Nat
  | Node.mk _ _ _ _ cs => 1 + sizeList cs
/-- Number of nodes of the subtrees of a node list. -/
def sizeList : List Node → Nat
  | [] => 0
  | n :: ns => nodeSize n + sizeList ns
end

/-- Number of nodes that follow the hole of a context in document order and lie outside the
subtree in the hole. -/
def rightSize : List Frame → Nat
  | [] => 0
  | fr :: up => sizeList fr.right + rightSize up

/-- The frame `fr2` has the left siblings of `fr`, as many right siblings, and these are not
larger in total. -/
def FrameLe (fr fr2 : Frame) : Prop :=
  fr2.left = fr.left ∧ fr2.right.length = fr.right.length ∧
    sizeList fr2.right ≤ sizeList fr.right

/-- Frame by frame, `C2` is not larger than `C`. -/
def CtxLe : List Frame → List Frame → Prop
  | [], [] => True
  | fr :: up, fr2 :: up2 => FrameLe fr fr2 ∧ CtxLe up up2
  | _, _ => False

/-- The document `d` is what a walk that entered the loop with `cur` on the node `n` in the
context `C` can have made of the document: the part to the left of `cur` is as it was, the
subtree at `cur` and the subtrees to its right have not grown. -/
def Reaches (C : List Frame) (n : Node) (d : Node) : Prop :=
  ∃ (C2 : List Frame) (n2 : Node), CtxLe C C2 ∧ nodeSize n2 ≤ nodeSize n ∧ d = plug C2 n2

/-! ## A decoder for the escaping (used for the claim that escaping is lossless) -/

/-- Decoder for escaped text: `skip` bytes are dropped first; then, reading from the left, the
five bytes backslash, n, quote, line feed, quote stand for a line feed, the two bytes
backslash, quote stand for a quote, and any other byte stands for itself. -/
def unescape : Nat → List Byte → List Byte
  | _, [] => []
  | skip + 1, _ :: rest => unescape skip rest
  | 0, c :: rest =>
    if c = 92 ∧ rest.take 4 = [110, 34, 10, 34] then 10 :: unescape 4 rest
    else if c = 92 ∧ rest.take 1 = [34] then 34 :: unescape 1 rest
    else c :: unescape 0 rest

/-! ## The tree after the walk and the nodes visited, by recursion on the tree -/

/-- The text a Text node holds after its visit: the translation in Translate mode, the same
text in EmitTemplate mode. -/
def textAfter (cfg : Config) (c : List Byte) : List Byte :=
  if cfg.output_pot_file then c else cfg.gettext c

/-- The element qualifies for the collapse: it has a child and all its direct Element children
are presentational. -/
def collapsible (t : NodeType) (cs : List Node) : Prop :=
  t = NodeType.element ∧ cs.isEmpty = false ∧ scanChildren cs = true

instance (t : NodeType) (cs : List Node) : Decidable (collapsible t cs) := by
  unfold collapsible
  exact inferInstance

mutual
/-- The tree as it stands after the walk of a subtree without entity content: a collapsible
element holds the single Text child with the flattened content (as the visit of that child
leaves it), a Text node holds the text its visit leaves, every other node keeps its fields, and
the children of a node that is not collapsed are walked in turn. -/
def walked (cfg : Config) : Node → Node
  | Node.mk t nm c l cs =>
    if collapsible t cs then
      Node.mk t nm c l [Node.mk NodeType.text (lit "text") (textAfter cfg (nodesText cs)) 0 []]
    else if t = NodeType.text then Node.mk t nm (textAfter cfg c) l (walkedList cfg cs)
    else Node.mk t nm c l (walkedList cfg cs)
/-- The children after the walk. -/
def walkedList (cfg : Config) : List Node → List Node
  | [] => []
  | n :: ns => walked cfg n :: walkedList cfg ns
end

mutual
/-- The calls of `processNode` that the walk of a subtree without entity content makes, each
with the pointer and the node passed: the node itself, then, for a collapsible element, the
Text child its collapse creates, and for any other node its untouched children in order, each
followed by its own calls. -/
def visitsSpec : Ptr → Node → List (Ptr × Node)
  | p, Node.mk t nm c l cs =>
    (p, Node.mk t nm c l cs) ::
      (if collapsible t cs then [(0 :: p, xmlNewDocText (nodesText cs))]
       else visitsSpecList p 0 cs)
/-- The calls made for the children of `p` from index `i` on. -/
def visitsSpecList : Ptr → Nat → List Node → List (Ptr × Node)
  | _, _, [] => []
  | p, i, n :: ns => visitsSpec (i :: p) n ++ visitsSpecList p (i + 1) ns
end

mutual
/-- Every Text node of the subtree is without children. -/
def textLeaves : Node → Bool
  | Node.mk t _ _ _ cs => (t != NodeType.text || cs.isEmpty) && textLeavesList cs
/-- Every Text node of the subtrees of the list is without children. -/
def textLeavesList : List Node → Bool
  | [] => true
  | n :: ns => textLeaves n && textLeavesList ns
end

/-! ## Further sample documents -/

/-- A book with an EntityDeclaration without children followed by a paragraph with the
text y. -/
def docDeclThenText : Node :=
  sampleDoc [sampleElem "book" 1
    [Node.mk NodeType.entityDecl (lit "ent") [] 0 [],
     sampleElem "para" 9 [sampleText "y"]]]

/-- A book with an EntityReference whose only child is the text in, followed by a paragraph
with the text y. -/
def docRefSingle : Node :=
  sampleDoc [sampleElem "book" 1
    [Node.mk NodeType.entityRef (lit "ent") [] 0 [sampleText "in"],
     sampleElem "para" 9 [sampleText "y"]]]

/-- A document whose root element, a book with the text x, is followed by a comment. -/
def docRootThenComment : Node :=
  sampleDoc [sampleElem "book" 1 [sampleText "x"],
    Node.mk NodeType.other (lit "comment") (lit "c") 0 []]

/-! ## Lemmas on processString -/

theorem fillLoop_append (s buf : List Byte) : fillLoop s buf = buf ++ fillLoop s [] := by
  induction s generalizing buf with
  | nil => simp [fillLoop]
  | cons c s ih =>
    simp only [fillLoop]
    split
    · simp
    · split
      · rw [ih (buf ++ _), ih ([] ++ _)]; simp
      · split
        · rw [ih (buf ++ _), ih ([] ++ _)]; simp
        · rw [ih (buf ++ _), ih ([] ++ _)]; simp

theorem fillLoop_eq_escapeSpec (s : List Byte) (h : (0 : Byte) ∉ s) :
    fillLoop s [] = escapeSpec s := by
  induction s with
  | nil => simp [fillLoop, escapeSpec]
  | cons c s ih =>
    have hc : c ≠ 0 := fun e => h (by simp [e])
    have hs : (0 : Byte) ∉ s := fun e => h (by simp [e])
    have ih2 := ih hs
    simp only [escapeSpec] at ih2 ⊢
    simp only [fillLoop, hc, if_false, List.flatMap_cons, escByte]
    split
    · rw [fillLoop_append, ih2]; simp
    · split
      · rw [fillLoop_append, ih2]; simp
      · rw [fillLoop_append, ih2]; simp

theorem escByte_no_nul (c : Byte) (hc : c ≠ 0) : (0 : Byte) ∉ escByte c := by
  unfold escByte
  split
  · decide
  · split
    · decide
    · simpa using hc.symm

theorem escapeSpec_no_nul (s : List Byte) (h : (0 : Byte) ∉ s) : (0 : Byte) ∉ escapeSpec s := by
  unfold escapeSpec
  intro hm
  rw [List.mem_flatMap] at hm
  obtain ⟨c, hc, h0⟩ := hm
  exact escByte_no_nul c (fun e => h (e ▸ hc)) h0

theorem str_of_no_nul (s : List Byte) (h : (0 : Byte) ∉ s) : str s = s := by
  unfold str
  rw [List.takeWhile_eq_self_iff]
  intro c hc
  have : c ≠ 0 := fun e => h (e ▸ hc)
  simpa using this

theorem str_append_nul (s t : List Byte) (h : (0 : Byte) ∉ s) : str (s ++ 0 :: t) = s := by
  induction s with
  | nil => simp [str]
  | cons c s ih =>
    have hc : c ≠ 0 := fun e => h (by simp [e])
    have hs : (0 : Byte) ∉ s := fun e => h (by simp [e])
    have := ih hs
    simp only [str] at this ⊢
    rw [List.cons_append, List.takeWhile_cons, this]
    simp [hc]

theorem str_new_line (s : List Byte) (h : (0 : Byte) ∉ s) : str (new_line s) = escapeSpec s := by
  unfold new_line
  rw [fillLoop_eq_escapeSpec s h]
  exact str_append_nul _ [] (escapeSpec_no_nul s h)

theorem processString_pot (cfg : Config) (s f : List Byte) (n : Int) (out : List Byte)
    (hmode : cfg.output_pot_file = true) (hs : (0 : Byte) ∉ s)
    (hf : (0 : Byte) ∉ locationName cfg f) :
    processString cfg s f n out = (none, out ++ entrySpec (locationName cfg f) n s) := by
  unfold processString entrySpec
  rw [if_pos hmode]
  simp only [str_new_line s hs, str_of_no_nul _ hf]
  have h2 : lit "msgstr \"\"\n\n" = lit "msgstr \"\"\n" ++ lit "\n" := by decide
  rw [h2]
  simp only [List.append_assoc]

/-! ## Lemmas on processNode -/

theorem scanTable_iff (name : List Byte) (tbl : List (List Byte)) :
    scanTable name tbl = true ↔ name ∈ tbl := by
  induction tbl with
  | nil => simp [scanTable]
  | cons t tst ih =>
    unfold scanTable
    by_cases h : t = name
    · simp [h]
    · have h2 : ¬ name = t := fun e => h e.symm
      simp [h, h2, ih]

theorem scanChildren_iff (cs : List Node) :
    scanChildren cs = true ↔
      ∀ c ∈ cs, c.type = NodeType.element → c.name ∈ presentation_elements := by
  induction cs with
  | nil => simp [scanChildren]
  | cons c cs ih =>
    unfold scanChildren
    by_cases ht : c.type = NodeType.element
    · by_cases hn : scanTable c.name presentation_elements = true
      · have hm := (scanTable_iff _ _).1 hn
        simp [ht, hn, ih, hm]
      · have hm : c.name ∉ presentation_elements := fun e => hn ((scanTable_iff _ _).2 e)
        simp [ht, hn, hm]
    · simp [ht, ih]

theorem nodeText_of_not_text (n : Node) (h : n.type ≠ NodeType.text) :
    nodeText n = nodesText n.children := by
  cases n with
  | mk t nm c l cs =>
    have h2 : t ≠ NodeType.text := h
    simp [nodeText, Node.children, h2]

theorem nodeText_of_text (n : Node) (h : n.type = NodeType.text) :
    nodeText n = n.content ++ nodesText n.children := by
  cases n with
  | mk t nm c l cs =>
    have h2 : t = NodeType.text := h
    simp [nodeText, Node.children, Node.content, h2]

theorem nodeText_xmlNewDocText (c : List Byte) : nodeText (xmlNewDocText c) = c := by
  simp [xmlNewDocText, nodeText, nodesText]

theorem processNode_element_collapse (cfg : Config) (f : List Byte) (line : Int) (e : Node)
    (out : List Byte) (ht : e.type = NodeType.element) (hc : e.children ≠ [])
    (hp : scanChildren e.children = true) :
    processNode cfg f line e out =
      (e.setChildren [xmlNewDocText (xmlNodeGetContent e)], out) := by
  unfold processNode
  have h1 : e.type ≠ NodeType.text := by rw [ht]; decide
  rw [if_neg h1, if_pos ht]
  cases hcs : e.children with
  | nil => exact absurd hcs hc
  | cons c cs => simp only []; rw [← hcs, if_pos hp]

theorem processNode_element_keep (cfg : Config) (f : List Byte) (line : Int) (e : Node)
    (out : List Byte) (ht : e.type = NodeType.element)
    (hc : e.children = [] ∨ scanChildren e.children = false) :
    processNode cfg f line e out = (e, out) := by
  unfold processNode
  have h1 : e.type ≠ NodeType.text := by rw [ht]; decide
  rw [if_neg h1, if_pos ht]
  cases hcs : e.children with
  | nil => rfl
  | cons c cs =>
    simp only []
    rcases hc with hc | hc
    · rw [hcs] at hc; exact absurd hc (by simp)
    · rw [← hcs, hc]; simp

theorem processNode_other (cfg : Config) (f : List Byte) (line : Int) (n : Node)
    (out : List Byte) (h1 : n.type ≠ NodeType.text) (h2 : n.type ≠ NodeType.element) :
    processNode cfg f line n out = (n, out) := by
  unfold processNode
  rw [if_neg h1, if_neg h2]

/-! ## Lemmas on node pointers -/

theorem Node.setChildren_children (n : Node) : n.setChildren n.children = n := by
  cases n; rfl

theorem Node.children_setChildren (n : Node) (cs : List Node) :
    (n.setChildren cs).children = cs := by
  cases n; rfl

theorem Node.type_setChildren (n : Node) (cs : List Node) :
    (n.setChildren cs).type = n.type := by
  cases n; rfl

theorem Node.line_setChildren (n : Node) (cs : List Node) :
    (n.setChildren cs).line = n.line := by
  cases n; rfl

theorem Node.setChildren_setChildren (n : Node) (cs cs2 : List Node) :
    (n.setChildren cs).setChildren cs2 = n.setChildren cs2 := by
  cases n; rfl

theorem getNode_cons (d : Node) (i : Nat) (p : Ptr) (n : Node) :
    getNode d (i :: p) = some n ↔
      ∃ par, getNode d p = some par ∧ par.children[i]? = some n := by
  simp [getNode, Option.bind_eq_some]

theorem list_set_self {α : Type} (cs : List α) (i : Nat) (n : α) (h : cs[i]? = some n) :
    cs.set i n = cs := by
  induction cs generalizing i with
  | nil => simp
  | cons c cs ih =>
    cases i with
    | zero => simp at h; simp [h]
    | succ i => simp at h; simp [ih i h]

theorem setNode_getNode_self (d : Node) : ∀ (p : Ptr) (n : Node),
    getNode d p = some n → setNode d p n = d
  | [], n, h => by simp [getNode] at h; simp [setNode, h]
  | i :: p, n, h => by
    obtain ⟨par, hp, hi⟩ := (getNode_cons d i p n).1 h
    simp only [setNode, hp]
    have h2 : par.children.set i n = par.children := list_set_self _ i n hi
    rw [h2, Node.setChildren_children]
    exact setNode_getNode_self d p par hp

theorem nodesText_set (cs : List Node) (i : Nat) (n n2 : Node) (h : cs[i]? = some n)
    (ht : nodeText n2 = nodeText n) : nodesText (cs.set i n2) = nodesText cs := by
  induction cs generalizing i with
  | nil => simp at h
  | cons c cs ih =>
    cases i with
    | zero =>
      simp at h
      subst h
      simp [nodesText, ht]
    | succ i =>
      simp at h
      simp [nodesText, ih i h]

theorem nodeText_setChildren (par : Node) (cs : List Node)
    (h : nodesText cs = nodesText par.children) :
    nodeText (par.setChildren cs) = nodeText par := by
  cases par with
  | mk t nm c l cs0 =>
    simp only [Node.children] at h
    simp [Node.setChildren, nodeText, h]

theorem nodeText_setNode (d : Node) : ∀ (p : Ptr) (n n2 : Node),
    getNode d p = some n → nodeText n2 = nodeText n → nodeText (setNode d p n2) = nodeText d
  | [], n, n2, h, ht => by simp [getNode] at h; simp [setNode, ht, h]
  | i :: p, n, n2, h, ht => by
    obtain ⟨par, hp, hi⟩ := (getNode_cons d i p n).1 h
    simp only [setNode, hp]
    exact nodeText_setNode d p par _ hp
      (nodeText_setChildren par _ (nodesText_set _ i n n2 hi ht))

theorem mem_nodesText_of_getElem (cs : List Node) (i : Nat) (n : Node) (h : cs[i]? = some n)
    (b : Byte) (hb : b ∈ nodeText n) : b ∈ nodesText cs := by
  induction cs generalizing i with
  | nil => simp at h
  | cons c cs ih =>
    cases i with
    | zero =>
      simp at h
      subst h
      simp [nodesText, hb]
    | succ i =>
      simp at h
      simp [nodesText, ih i h]

theorem mem_nodeText_of_children (par : Node) (b : Byte) (hb : b ∈ nodesText par.children) :
    b ∈ nodeText par := by
  cases par with
  | mk t nm c l cs =>
    simp only [Node.children] at hb
    simp [nodeText, hb]

theorem mem_nodeText_of_getNode (d : Node) : ∀ (p : Ptr) (n : Node),
    getNode d p = some n → ∀ b, b ∈ nodeText n → b ∈ nodeText d
  | [], n, h, b, hb => by simp [getNode] at h; rw [h]; exact hb
  | i :: p, n, h, b, hb => by
    obtain ⟨par, hp, hi⟩ := (getNode_cons d i p n).1 h
    exact mem_nodeText_of_getNode d p par hp b
      (mem_nodeText_of_children par b (mem_nodesText_of_getElem _ i n hi b hb))

theorem mem_nodeText_of_content (n : Node) (ht : n.type = NodeType.text) (b : Byte)
    (hb : b ∈ n.content) : b ∈ nodeText n := by
  rw [nodeText_of_text n ht]
  simp [hb]

/-! ## Effect of processNode in each mode -/

theorem processNode_type (cfg : Config) (f : List Byte) (line : Int) (n : Node)
    (out : List Byte) : (processNode cfg f line n out).1.type = n.type := by
  unfold processNode
  split
  · split
    · cases n; rfl
    · rfl
  · split
    · split
      · rfl
      · split
        · exact Node.type_setChildren _ _
        · rfl
    · rfl

theorem processNode_line (cfg : Config) (f : List Byte) (line : Int) (n : Node)
    (out : List Byte) : (processNode cfg f line n out).1.line = n.line := by
  unfold processNode
  split
  · split
    · cases n; rfl
    · rfl
  · split
    · split
      · rfl
      · split
        · exact Node.line_setChildren _ _
        · rfl
    · rfl

theorem processNode_translate_out (cfg : Config) (f : List Byte) (line : Int) (n : Node)
    (out : List Byte) (hmode : cfg.output_pot_file = false) :
    (processNode cfg f line n out).2 = out := by
  unfold processNode
  split
  · simp [processString, hmode]
  · split
    · split
      · rfl
      · split <;> rfl
    · rfl

theorem processNode_pot_text (cfg : Config) (f : List Byte) (line : Int) (n : Node)
    (out : List Byte) (hmode : cfg.output_pot_file = true) :
    nodeText (processNode cfg f line n out).1 = nodeText n := by
  by_cases ht : n.type = NodeType.text
  · unfold processNode
    rw [if_pos ht]
    simp [processString, hmode]
  · by_cases he : n.type = NodeType.element
    · by_cases hcol : n.children ≠ [] ∧ scanChildren n.children = true
      · rw [processNode_element_collapse cfg f line n out he hcol.1 hcol.2]
        apply nodeText_setChildren
        simp [nodesText, nodeText_xmlNewDocText, xmlNodeGetContent]
      · have hk : n.children = [] ∨ scanChildren n.children = false := by
          by_cases h1 : n.children = []
          · exact Or.inl h1
          · right
            cases hs : scanChildren n.children with
            | false => rfl
            | true => exact absurd ⟨h1, hs⟩ hcol
        rw [processNode_element_keep cfg f line n out he hk]
    · rw [processNode_other cfg f line n out ht he]

theorem processNode_pot_out (cfg : Config) (f : List Byte) (line : Int) (n : Node)
    (out : List Byte) (hmode : cfg.output_pot_file = true)
    (hf : (0 : Byte) ∉ locationName cfg f) (hn : (0 : Byte) ∉ nodeText n) :
    (processNode cfg f line n out).2 =
      out ++ (if n.type = NodeType.text then entrySpec (locationName cfg f) line n.content
              else []) := by
  by_cases ht : n.type = NodeType.text
  · have hc : (0 : Byte) ∉ n.content := fun e => hn (mem_nodeText_of_content n ht 0 e)
    unfold processNode
    rw [if_pos ht, processString_pot cfg _ f line out hmode hc hf]
    simp [ht]
  · rw [if_neg ht]
    unfold processNode
    rw [if_neg ht]
    split
    · split
      · simp
      · split <;> simp
    · simp

/-! ## Invariants of the walk -/

theorem walk_preserves (cfg : Config) (f : List Byte) (Inv : State → Prop)
    (hstep : ∀ line cur st st1, Inv st → processNodeAt cfg f line cur st = some st1 → Inv st1) :
    ∀ fuel, (∀ start st st', Inv st → processSubtree cfg f fuel start st = some st' → Inv st') ∧
      (∀ node line cur st st', Inv st →
        walkLoop cfg f fuel node line cur st = some st' → Inv st') := by
  intro fuel
  induction fuel with
  | zero =>
    constructor
    · intro start st st' _ h; simp [processSubtree] at h
    · intro node line cur st st' _ h; simp [walkLoop] at h
  | succ k ih =>
    obtain ⟨ihS, ihL⟩ := ih
    constructor
    · intro start st st' hI h
      cases start with
      | none => simp [processSubtree] at h; subst h; exact hI
      | some node => simp only [processSubtree] at h; exact ihL _ _ _ _ _ hI h
    · intro node line cur st st' hI h
      simp only [walkLoop] at h
      split at h
      · simp at h
      · split at h
        · simp at h
        · rename_i st1 h1
          have hI1 := hstep _ _ _ _ hI h1
          split at h
          · simp at h
          · split at h
            · simp at h
            · rename_i c hc st2 h2
              have hI2 : Inv st2 := by
                split at h2
                · exact ihS _ _ _ hI1 h2
                · simp at h2; subst h2; exact hI1
              split at h
              · simp at h
              · simp at h; subst h; exact hI2
              · simp at h; subst h; exact hI2
              · split at h
                · simp at h; subst h; exact hI2
                · exact ihL _ _ _ _ _ hI2 h

/-! ## Lemmas on the template output -/

theorem output_pot_header_eq (cfg : Config) (f out : List Byte)
    (hf : (0 : Byte) ∉ locationName cfg f) :
    output_pot_header cfg f out = out ++ headerSpec (locationName cfg f) := by
  unfold output_pot_header headerSpec
  rw [str_of_no_nul _ hf]
  have h1 : lit "#\n# " = lit "#\n" ++ lit "# " := by decide
  have h2 : lit "\n\n" = lit "\n" ++ lit "\n" := by decide
  rw [h1, h2]
  simp only [List.append_assoc]

theorem entriesSpec_append (name : List Byte) (log : List Visit) (v : Visit) :
    entriesSpec name (log ++ [v]) =
      entriesSpec name log ++
        (if v.node.type = NodeType.text then entrySpec name v.line v.node.content else []) := by
  unfold entriesSpec
  by_cases h : v.node.type = NodeType.text
  · simp [List.filter_append, h]
  · simp [List.filter_append, h]

theorem processNodeAt_pot (cfg : Config) (f : List Byte) (line : Int) (cur : Ptr)
    (s s1 : State) (base : List Byte) (hmode : cfg.output_pot_file = true)
    (hf : (0 : Byte) ∉ locationName cfg f) (h0 : (0 : Byte) ∉ nodeText s.doc)
    (hout : s.out = base ++ entriesSpec (locationName cfg f) s.log)
    (h1 : processNodeAt cfg f line cur s = some s1) :
    nodeText s1.doc = nodeText s.doc ∧
      s1.out = base ++ entriesSpec (locationName cfg f) s1.log := by
  unfold processNodeAt at h1
  split at h1
  · simp at h1
  · rename_i n hn
    simp at h1
    subst h1
    have hn0 : (0 : Byte) ∉ nodeText n := fun e => h0 (mem_nodeText_of_getNode _ _ _ hn 0 e)
    refine ⟨nodeText_setNode s.doc cur n _ hn (processNode_pot_text cfg f line n s.out hmode), ?_⟩
    simp only []
    rw [processNode_pot_out cfg f line n s.out hmode hf hn0, entriesSpec_append, hout]
    simp only [List.append_assoc]

theorem processSubtree_pot_out (cfg : Config) (f : List Byte) (fuel : Nat)
    (start : Option Ptr) (st st' : State) (base : List Byte)
    (hmode : cfg.output_pot_file = true) (hf : (0 : Byte) ∉ locationName cfg f)
    (h0 : (0 : Byte) ∉ nodeText st.doc)
    (hout : st.out = base ++ entriesSpec (locationName cfg f) st.log)
    (h : processSubtree cfg f fuel start st = some st') :
    st'.out = base ++ entriesSpec (locationName cfg f) st'.log := by
  have key := (walk_preserves cfg f
    (fun s => nodeText s.doc = nodeText st.doc ∧
      s.out = base ++ entriesSpec (locationName cfg f) s.log) ?_ fuel).1 start st st'
      ⟨rfl, hout⟩ h
  · exact key.2
  · intro line cur s s1 hI h1
    have h0s : (0 : Byte) ∉ nodeText s.doc := by rw [hI.1]; exact h0
    have := processNodeAt_pot cfg f line cur s s1 base hmode hf h0s hI.2 h1
    exact ⟨this.1.trans hI.1, this.2⟩

/-! ## Lemmas on contexts -/

theorem list_getElem?_append_cons {α : Type} (l r : List α) (n : α) :
    (l ++ n :: r)[l.length]? = some n := by
  induction l with
  | nil => simp
  | cons a l ih => simpa using ih

theorem list_getElem?_append_cons_succ {α : Type} (l r : List α) (n : α) :
    (l ++ n :: r)[l.length + 1]? = r[0]? := by
  induction l with
  | nil => simp
  | cons a l ih => simpa using ih

theorem list_set_append_cons {α : Type} (l r : List α) (n n2 : α) :
    (l ++ n :: r).set l.length n2 = l ++ n2 :: r := by
  induction l with
  | nil => simp
  | cons a l ih => simp

theorem getNode_plug (c : List Frame) : ∀ n : Node, getNode (plug c n) (ctxPtr c) = some n := by
  induction c with
  | nil => intro n; rfl
  | cons fr up ih =>
    intro n
    simp only [plug, ctxPtr, getNode, ih, Option.some_bind, Node.children_setChildren]
    exact list_getElem?_append_cons _ _ _

theorem getNode_plug_child (c : List Frame) (n : Node) (i : Nat) :
    getNode (plug c n) (i :: ctxPtr c) = n.children[i]? := by
  simp [getNode, getNode_plug]

theorem setNode_plug (c : List Frame) : ∀ n n2 : Node,
    setNode (plug c n) (ctxPtr c) n2 = plug c n2 := by
  induction c with
  | nil => intro n n2; rfl
  | cons fr up ih =>
    intro n n2
    simp only [plug, ctxPtr, setNode, getNode_plug, Node.children_setChildren,
      list_set_append_cons, Node.setChildren_setChildren]
    exact ih _ _

theorem childrenPtr_plug (c : List Frame) (n : Node) :
    childrenPtr (plug c n) (ctxPtr c) =
      match n.children with
      | [] => none
      | _ :: _ => some (0 :: ctxPtr c) := by
  unfold childrenPtr
  rw [getNode_plug_child]
  cases n.children <;> simp

theorem nextPtr_plug (c : List Frame) (n : Node) :
    nextPtr (plug c n) (ctxPtr c) = ctxNext c := by
  cases c with
  | nil => rfl
  | cons fr up =>
    simp only [plug, ctxPtr, nextPtr, ctxNext, getNode, getNode_plug, Option.some_bind,
      Node.children_setChildren, list_getElem?_append_cons_succ]
    cases fr.right <;> simp

theorem climb_plug (node : Ptr) (c : List Frame) : ∀ n : Node,
    climb (plug c n) node (ctxPtr c) = ctxClimb node c := by
  induction c with
  | nil => intro n; rfl
  | cons fr up ih =>
    intro n
    simp only [plug, ctxPtr, climb, ctxClimb, nextPtr_plug, ih]

/-! ## Fuel -/

theorem walkLoop_succ (cfg : Config) (f : List Byte) (fuel : Nat) (node : Ptr) (line : Int)
    (cur : Ptr) (st : State) :
    walkLoop cfg f (fuel + 1) node line cur st =
      (getNode st.doc node).bind (fun nd =>
        (processNodeAt cfg f (lineOf nd line) cur st).bind (fun st1 =>
          (getNode st1.doc cur).bind (fun c =>
            (nested cfg f fuel c cur st1).bind (fun st2 =>
              (advance st2.doc node cur).bind (fun a =>
                resume cfg f node (lineOf nd line) fuel a st2))))) := by
  rw [walkLoop]
  cases getNode st.doc node with
  | none => rfl
  | some nd =>
    simp only [Option.some_bind]
    show (match processNodeAt cfg f (lineOf nd line) cur st with
      | none => none
      | some st1 => _) = _
    cases processNodeAt cfg f (lineOf nd line) cur st with
    | none => rfl
    | some st1 =>
      simp only [Option.some_bind]
      cases getNode st1.doc cur with
      | none => rfl
      | some c =>
        simp only [Option.some_bind]
        show (match nested cfg f fuel c cur st1 with
          | none => none
          | some st2 => _) = _
        cases nested cfg f fuel c cur st1 with
        | none => rfl
        | some st2 =>
          simp only [Option.some_bind]
          cases advance st2.doc node cur with
          | none => rfl
          | some a =>
            cases a with
            | ret => rfl
            | moveTo q =>
              cases q with
              | none => rfl
              | some q => rfl

theorem walkLoop_succ_eq_some (cfg : Config) (f : List Byte) (fuel : Nat) (node : Ptr)
    (line : Int) (cur : Ptr) (st st' : State) :
    walkLoop cfg f (fuel + 1) node line cur st = some st' ↔
      ∃ nd, getNode st.doc node = some nd ∧
        ∃ st1, processNodeAt cfg f (lineOf nd line) cur st = some st1 ∧
          ∃ c, getNode st1.doc cur = some c ∧
            ∃ st2, nested cfg f fuel c cur st1 = some st2 ∧
              ∃ a, advance st2.doc node cur = some a ∧
                resume cfg f node (lineOf nd line) fuel a st2 = some st' := by
  rw [walkLoop_succ]
  simp only [Option.bind_eq_some]

theorem fuel_mono (cfg : Config) (f : List Byte) : ∀ fuel,
    (∀ start st st', processSubtree cfg f fuel start st = some st' →
      processSubtree cfg f (fuel + 1) start st = some st') ∧
    (∀ node line cur st st', walkLoop cfg f fuel node line cur st = some st' →
      walkLoop cfg f (fuel + 1) node line cur st = some st') := by
  intro fuel
  induction fuel with
  | zero =>
    constructor
    · intro start st st' h; simp [processSubtree] at h
    · intro node line cur st st' h; simp [walkLoop] at h
  | succ k ih =>
    obtain ⟨ihS, ihL⟩ := ih
    constructor
    · intro start st st' h
      cases start with
      | none => simp only [processSubtree] at h ⊢; exact h
      | some node => simp only [processSubtree] at h ⊢; exact ihL _ _ _ _ _ h
    · intro node line cur st st' h
      rw [walkLoop_succ_eq_some] at h ⊢
      obtain ⟨nd, hnd, st1, h1, c, hc, st2, h2, a, ha, hr⟩ := h
      refine ⟨nd, hnd, st1, h1, c, hc, st2, ?_, a, ha, ?_⟩
      · unfold nested at h2 ⊢
        split
        · rename_i he; rw [if_pos he] at h2; exact ihS _ _ _ h2
        · rename_i he; rw [if_neg he] at h2; exact h2
      · unfold resume at hr ⊢
        cases a with
        | ret => exact hr
        | moveTo q =>
          simp only at hr ⊢
          unfold finish at hr ⊢
          cases q with
          | none => exact hr
          | some q =>
            simp only at hr ⊢
            split
            · rename_i he; rw [if_pos he] at hr; exact hr
            · rename_i he; rw [if_neg he] at hr; exact ihL _ _ _ _ _ hr

theorem walkLoop_mono (cfg : Config) (f : List Byte) (k : Nat) : ∀ (fuel : Nat) node line cur
    st st', walkLoop cfg f fuel node line cur st = some st' →
      walkLoop cfg f (fuel + k) node line cur st = some st' := by
  induction k with
  | zero => intro fuel node line cur st st' h; exact h
  | succ k ih =>
    intro fuel node line cur st st' h
    exact (fuel_mono cfg f (fuel + k)).2 _ _ _ _ _ (ih fuel _ _ _ _ _ h)

theorem walkLoop_mono_le (cfg : Config) (f : List Byte) (a b : Nat) (hab : a ≤ b) node line cur
    st st' (h : walkLoop cfg f a node line cur st = some st') :
    walkLoop cfg f b node line cur st = some st' := by
  obtain ⟨k, rfl⟩ := Nat.exists_eq_add_of_le hab
  exact walkLoop_mono cfg f k a _ _ _ _ _ h

theorem finish_mono_le (cfg : Config) (f : List Byte) (a b : Nat) (hab : a ≤ b) node line q
    st st' (h : finish cfg f node line a q st = some st') :
    finish cfg f node line b q st = some st' := by
  unfold finish at h ⊢
  cases q with
  | none => exact h
  | some q =>
    simp only at h ⊢
    split
    · rename_i he; rw [if_pos he] at h; exact h
    · rename_i he; rw [if_neg he] at h; exact walkLoop_mono_le cfg f a b hab _ _ _ _ _ h

/-! ## One iteration of the loop, in context -/

theorem processSubtree_null (cfg : Config) (f : List Byte) (fuel : Nat) (st : State) :
    processSubtree cfg f (fuel + 1) none st = some st := by
  simp [processSubtree]

theorem processNode_children_of_not_element (cfg : Config) (f : List Byte) (line : Int)
    (n : Node) (out : List Byte) (h : n.type ≠ NodeType.element) :
    (processNode cfg f line n out).1.children = n.children := by
  by_cases ht : n.type = NodeType.text
  · unfold processNode
    rw [if_pos ht]
    split
    · cases n; rfl
    · rfl
  · rw [processNode_other cfg f line n out ht h]

theorem walk_step (cfg : Config) (f : List Byte) (fuel : Nat) (node : Ptr) (line : Int)
    (C : List Frame) (n nd : Node) (out : List Byte) (log : List Visit)
    (hnd : getNode (plug C n) node = some nd)
    (hdecl : n.type ≠ NodeType.entityDecl)
    (href : n.type = NodeType.entityRef → n.children = []) :
    walkLoop cfg f (fuel + 2) node line (ctxPtr C) ⟨plug C n, out, log⟩ =
      finish cfg f node (lineOf nd line) (fuel + 1)
        (match (processNode cfg f (lineOf nd line) n out).1.children with
         | [] => ctxSucc node C
         | _ :: _ => some (0 :: ctxPtr C))
        ⟨plug C (processNode cfg f (lineOf nd line) n out).1,
         (processNode cfg f (lineOf nd line) n out).2,
         log ++ [⟨ctxPtr C, n, lineOf nd line⟩]⟩ := by
  rw [walkLoop_succ]
  simp only [hnd, Option.some_bind, processNodeAt, getNode_plug, setNode_plug]
  have htype := processNode_type cfg f (lineOf nd line) n out
  have hnest : nested cfg f (fuel + 1) (processNode cfg f (lineOf nd line) n out).1 (ctxPtr C)
      ⟨plug C (processNode cfg f (lineOf nd line) n out).1,
       (processNode cfg f (lineOf nd line) n out).2,
       log ++ [⟨ctxPtr C, n, lineOf nd line⟩]⟩ =
      some ⟨plug C (processNode cfg f (lineOf nd line) n out).1,
       (processNode cfg f (lineOf nd line) n out).2,
       log ++ [⟨ctxPtr C, n, lineOf nd line⟩]⟩ := by
    unfold nested
    split
    · rename_i he
      rw [htype] at he
      have hch : (processNode cfg f (lineOf nd line) n out).1.children = [] := by
        rw [processNode_children_of_not_element _ _ _ _ _ (by rw [he]; decide)]
        exact href he
      simp only [childrenPtr_plug, hch]
      exact processSubtree_null _ _ _ _
    · rfl
  rw [hnest]
  simp only [Option.some_bind, advance, getNode_plug, childrenPtr_plug, nextPtr_plug,
    climb_plug, htype]
  cases hch : (processNode cfg f (lineOf nd line) n out).1.children with
  | nil =>
    simp only [Option.isSome_none, Bool.false_eq_true, false_and, if_false, if_neg hdecl,
      ctxSucc]
    cases ctxNext C with
    | none => simp [resume]
    | some q => simp [resume]
  | cons c0 cs =>
    have hne : n.type ≠ NodeType.entityRef := by
      intro he
      rw [processNode_children_of_not_element _ _ _ _ _ (by rw [he]; decide), href he] at hch
      exact absurd hch (by simp)
    simp [resume, hne]

/-! ## The walk of a subtree without entity content -/

theorem Node.induct (P : Node → Prop)
    (h : ∀ t nm c l cs, (∀ x ∈ cs, P x) → P (Node.mk t nm c l cs)) (n : Node) : P n :=
  @Node.rec P (fun cs => ∀ x ∈ cs, P x)
    (fun t nm c l cs ih => h t nm c l cs ih)
    (fun x hx => absurd hx (List.not_mem_nil x))
    (fun _ _ ih1 ih2 x hx => by
      rcases List.mem_cons.1 hx with e | hx
      · rw [e]; exact ih1
      · exact ih2 x hx) n

theorem noEntityContentList_iff (cs : List Node) :
    noEntityContentList cs = true ↔ ∀ x ∈ cs, noEntityContent x = true := by
  induction cs with
  | nil => simp [noEntityContentList]
  | cons c cs ih => simp [noEntityContentList, ih]

theorem noEntityContent_mk (t : NodeType) (nm c : List Byte) (l : Int) (cs : List Node) :
    noEntityContent (Node.mk t nm c l cs) = true ↔
      t ≠ NodeType.entityDecl ∧ (t = NodeType.entityRef → cs = []) ∧
        ∀ x ∈ cs, noEntityContent x = true := by
  simp only [noEntityContent, Bool.and_eq_true, Bool.or_eq_true, bne_iff_ne, ne_eq,
    noEntityContentList_iff, List.isEmpty_iff]
  constructor
  · rintro ⟨⟨h1, h2⟩, h3⟩
    exact ⟨h1, fun e => h2.resolve_left (fun hn => hn e), h3⟩
  · rintro ⟨h1, h2, h3⟩
    refine ⟨⟨h1, ?_⟩, h3⟩
    by_cases e : t = NodeType.entityRef
    · exact Or.inr (h2 e)
    · exact Or.inl e

theorem ne_of_suffix_cons (node p : Ptr) (i : Nat) (h : node <:+ p) : i :: p ≠ node := by
  intro e
  have := h.length_le
  rw [← e] at this
  simp at this

theorem ctxClimb_cons_of_ne (node : Ptr) (fr : Frame) (C : List Frame) (h : ctxPtr C ≠ node) :
    ctxClimb node (fr :: C) = ctxSucc node C := by
  simp only [ctxClimb, ctxSucc, if_neg h]

theorem ctxClimb_cons_of_eq (node : Ptr) (fr : Frame) (C : List Frame) (h : ctxPtr C = node)
    (hn : ctxNext C = none) : ctxClimb node (fr :: C) = some node := by
  simp [ctxClimb, hn, h]

theorem Anchored_cons {node : Ptr} {line : Int} {up : List Frame} {par : Node}
    (h : Anchored node line up par) (l r : List Node) (par2 : Node) :
    Anchored node line (⟨par, l, r⟩ :: up) par2 := by
  refine ⟨?_, fun cs => ?_⟩
  · exact List.IsSuffix.trans h.1 (List.suffix_cons _ _)
  · exact h.2 _

theorem refList_cons (cfg : Config) (f : List Byte) (line : Int) (p : Ptr) (i : Nat)
    (n : Node) (ns : List Node) (out : List Byte) (log : List Visit) :
    refList cfg f line p i (n :: ns) out log =
      ((refNode cfg f line (i :: p) n out log).1 ::
        (refList cfg f line p (i + 1) ns (refNode cfg f line (i :: p) n out log).2.1
          (refNode cfg f line (i :: p) n out log).2.2).1,
       (refList cfg f line p (i + 1) ns (refNode cfg f line (i :: p) n out log).2.1
          (refNode cfg f line (i :: p) n out log).2.2).2.1,
       (refList cfg f line p (i + 1) ns (refNode cfg f line (i :: p) n out log).2.1
          (refNode cfg f line (i :: p) n out log).2.2).2.2) := by
  rw [refList]

theorem walk_children (cfg : Config) (f : List Byte) (node : Ptr) (line : Int) (par : Node)
    (up : List Frame) (hA : Anchored node line up par) :
    ∀ (r : List Node) (n : Node) (l : List Node) (out : List Byte) (log : List Visit),
      (∀ x ∈ n :: r, WalksAs cfg f node line x) →
      ∃ k, ∀ m st',
        finish cfg f node line m (ctxClimb node (⟨par, [], []⟩ :: up))
          ⟨plug up (par.setChildren
              (l ++ (refList cfg f line (ctxPtr up) l.length (n :: r) out log).1)),
           (refList cfg f line (ctxPtr up) l.length (n :: r) out log).2.1,
           (refList cfg f line (ctxPtr up) l.length (n :: r) out log).2.2⟩ = some st' →
        walkLoop cfg f (k + m) node line (l.length :: ctxPtr up)
          ⟨plug up (par.setChildren (l ++ n :: r)), out, log⟩ = some st' := by
  intro r
  induction r with
  | nil =>
    intro n l out log hW
    obtain ⟨k, hk⟩ := hW n (by simp) par l [] up out log hA
    refine ⟨k, fun m st' hfin => hk m st' ?_⟩
    rw [refList_cons] at hfin
    simp only [refList] at hfin
    exact hfin
  | cons n2 r ih =>
    intro n l out log hW
    obtain ⟨k1, hk1⟩ := hW n (by simp) par l (n2 :: r) up out log hA
    obtain ⟨k2, hk2⟩ := ih n2 (l ++ [(refNode cfg f line (l.length :: ctxPtr up) n out log).1])
      (refNode cfg f line (l.length :: ctxPtr up) n out log).2.1
      (refNode cfg f line (l.length :: ctxPtr up) n out log).2.2
      (fun x hx => hW x (List.mem_cons_of_mem _ hx))
    refine ⟨k1 + k2, fun m st' hfin => ?_⟩
    rw [Nat.add_assoc]
    apply hk1 (k2 + m) st'
    have hq : ctxSucc node (⟨par, l, n2 :: r⟩ :: up) = some ((l.length + 1) :: ctxPtr up) := by
      simp [ctxSucc, ctxNext]
    rw [hq]
    simp only [finish, if_neg (ne_of_suffix_cons node (ctxPtr up) (l.length + 1) hA.1)]
    rw [refList_cons] at hfin
    have h2 := hk2 m st'
    simp only [List.length_append, List.length_singleton, List.append_assoc,
      List.singleton_append] at h2
    exact h2 hfin

theorem refNode_collapse (cfg : Config) (f : List Byte) (line : Int) (p : Ptr) (t : NodeType)
    (nm c : List Byte) (l : Int) (cs : List Node) (out : List Byte) (log : List Visit)
    (h : t = NodeType.element ∧ cs.isEmpty = false ∧ scanChildren cs = true) :
    refNode cfg f line p (Node.mk t nm c l cs) out log =
      ((processNode cfg f line (Node.mk t nm c l cs) out).1.setChildren
          [(processNode cfg f line (xmlNewDocText (nodesText cs))
              (processNode cfg f line (Node.mk t nm c l cs) out).2).1],
        (processNode cfg f line (xmlNewDocText (nodesText cs))
              (processNode cfg f line (Node.mk t nm c l cs) out).2).2,
        log ++ [⟨p, Node.mk t nm c l cs, line⟩] ++
          [⟨0 :: p, xmlNewDocText (nodesText cs), line⟩]) := by
  rw [refNode, if_pos h]

theorem refNode_keep (cfg : Config) (f : List Byte) (line : Int) (p : Ptr) (t : NodeType)
    (nm c : List Byte) (l : Int) (cs : List Node) (out : List Byte) (log : List Visit)
    (h : ¬ (t = NodeType.element ∧ cs.isEmpty = false ∧ scanChildren cs = true)) :
    refNode cfg f line p (Node.mk t nm c l cs) out log =
      ((processNode cfg f line (Node.mk t nm c l cs) out).1.setChildren
          (refList cfg f line p 0 cs (processNode cfg f line (Node.mk t nm c l cs) out).2
            (log ++ [⟨p, Node.mk t nm c l cs, line⟩])).1,
        (refList cfg f line p 0 cs (processNode cfg f line (Node.mk t nm c l cs) out).2
            (log ++ [⟨p, Node.mk t nm c l cs, line⟩])).2.1,
        (refList cfg f line p 0 cs (processNode cfg f line (Node.mk t nm c l cs) out).2
            (log ++ [⟨p, Node.mk t nm c l cs, line⟩])).2.2) := by
  rw [refNode, if_neg h]

theorem processNode_children_keep (cfg : Config) (f : List Byte) (line : Int) (t : NodeType)
    (nm c : List Byte) (l : Int) (cs : List Node) (out : List Byte)
    (h : ¬ (t = NodeType.element ∧ cs.isEmpty = false ∧ scanChildren cs = true)) :
    (processNode cfg f line (Node.mk t nm c l cs) out).1.children = cs := by
  by_cases he : t = NodeType.element
  · have hk : (Node.mk t nm c l cs).children = [] ∨
        scanChildren (Node.mk t nm c l cs).children = false := by
      simp only [Node.children]
      by_cases h1 : cs = []
      · exact Or.inl h1
      · right
        cases hs : scanChildren cs with
        | false => rfl
        | true =>
          exact absurd ⟨he, by simpa using h1, hs⟩ h
    rw [processNode_element_keep cfg f line (Node.mk t nm c l cs) out he hk]
    rfl
  · exact processNode_children_of_not_element cfg f line _ out he

theorem Node.setChildren_eq_self (x : Node) (cs : List Node) (h : x.children = cs) :
    x.setChildren cs = x := by
  subst h
  exact Node.setChildren_children x

theorem xmlNewDocText_type (c : List Byte) : (xmlNewDocText c).type = NodeType.text := rfl

theorem walk_node (cfg : Config) (f : List Byte) (node : Ptr) (line : Int) (t : NodeType)
    (nm c : List Byte) (l : Int) (cs : List Node) (C : List Frame) (out : List Byte)
    (log : List Visit) (hsuf : node <:+ ctxPtr C)
    (hstab : ∀ n2 : Node, n2.type = t → n2.line = l →
      ∃ nd, getNode (plug C n2) node = some nd ∧ lineOf nd line = line)
    (hne : noEntityContent (Node.mk t nm c l cs) = true)
    (ih : ∀ x ∈ cs, WalksAs cfg f node line x) :
    ∃ k, ∀ m st',
      finish cfg f node line m
        (match (refNode cfg f line (ctxPtr C) (Node.mk t nm c l cs) out log).1.children with
         | [] => ctxSucc node C
         | _ :: _ => ctxClimb node (⟨Node.mk t nm c l cs, [], []⟩ :: C))
        ⟨plug C (refNode cfg f line (ctxPtr C) (Node.mk t nm c l cs) out log).1,
         (refNode cfg f line (ctxPtr C) (Node.mk t nm c l cs) out log).2.1,
         (refNode cfg f line (ctxPtr C) (Node.mk t nm c l cs) out log).2.2⟩ = some st' →
      walkLoop cfg f (k + m) node line (ctxPtr C)
        ⟨plug C (Node.mk t nm c l cs), out, log⟩ = some st' := by
  obtain ⟨hdecl, href, hcs⟩ := (noEntityContent_mk t nm c l cs).1 hne
  obtain ⟨nd, hnd, hline⟩ := hstab (Node.mk t nm c l cs) rfl rfl
  have hstep := fun fuel => walk_step cfg f fuel node line C (Node.mk t nm c l cs) nd out log
    hnd hdecl href
  rw [hline] at hstep
  by_cases hcol : t = NodeType.element ∧ cs.isEmpty = false ∧ scanChildren cs = true
  · -- the node is collapsed; its new Text child is handled next
    have hcne : (Node.mk t nm c l cs).children ≠ [] := by
      have := hcol.2.1
      simpa [Node.children] using this
    have hr := processNode_element_collapse cfg f line (Node.mk t nm c l cs) out hcol.1 hcne
      hcol.2.2
    have hgc : xmlNodeGetContent (Node.mk t nm c l cs) = nodesText cs := rfl
    rw [hgc] at hr
    rw [refNode_collapse cfg f line (ctxPtr C) t nm c l cs out log hcol, hr]
    simp only [Node.children_setChildren, Node.setChildren_setChildren]
    refine ⟨3, fun m st' hfin => ?_⟩
    have e : 3 + m = (m + 1) + 2 := by omega
    rw [e, hstep (m + 1), hr]
    simp only [Node.children_setChildren, finish,
      if_neg (ne_of_suffix_cons node (ctxPtr C) 0 hsuf)]
    obtain ⟨nd2, hnd2, hline2⟩ := hstab
      ((Node.mk t nm c l cs).setChildren [xmlNewDocText (nodesText cs)]) rfl rfl
    have hplug : plug C ((Node.mk t nm c l cs).setChildren [xmlNewDocText (nodesText cs)]) =
        plug (⟨Node.mk t nm c l cs, [], []⟩ :: C) (xmlNewDocText (nodesText cs)) := rfl
    rw [hplug] at hnd2 ⊢
    have hstep2 := walk_step cfg f m node line (⟨Node.mk t nm c l cs, [], []⟩ :: C)
      (xmlNewDocText (nodesText cs)) nd2 out
      (log ++ [⟨ctxPtr C, Node.mk t nm c l cs, line⟩]) hnd2
      (by rw [xmlNewDocText_type]; decide)
      (fun h => absurd h (by rw [xmlNewDocText_type]; decide))
    rw [hline2] at hstep2
    have hch2 : (processNode cfg f line (xmlNewDocText (nodesText cs)) out).1.children = [] :=
      processNode_children_of_not_element cfg f line _ out
        (by rw [xmlNewDocText_type]; decide)
    rw [hch2] at hstep2
    have hptr : ctxPtr (⟨Node.mk t nm c l cs, [], []⟩ :: C) = 0 :: ctxPtr C := rfl
    rw [hptr] at hstep2
    rw [hstep2]
    apply finish_mono_le cfg f m (m + 1) (Nat.le_succ m)
    exact hfin
  · -- the children stay and are walked in order
    have hch := processNode_children_keep cfg f line t nm c l cs out hcol
    rw [refNode_keep cfg f line (ctxPtr C) t nm c l cs out log hcol]
    simp only [Node.children_setChildren]
    cases cs with
    | nil =>
      refine ⟨2, fun m st' hfin => ?_⟩
      have e : 2 + m = m + 2 := by omega
      rw [e, hstep m, hch]
      simp only [refList] at hfin
      rw [Node.setChildren_eq_self _ _ hch] at hfin
      exact finish_mono_le cfg f m (m + 1) (Nat.le_succ m) _ _ _ _ _ hfin
    | cons c0 cs1 =>
      have hA : Anchored node line C (processNode cfg f line (Node.mk t nm c l (c0 :: cs1)) out).1 := by
        refine ⟨hsuf, fun cs2 => ?_⟩
        exact hstab _ (by rw [Node.type_setChildren, processNode_type]; rfl)
          (by rw [Node.line_setChildren, processNode_line]; rfl)
      obtain ⟨k, hk⟩ := walk_children cfg f node line _ C hA cs1 c0 []
        (processNode cfg f line (Node.mk t nm c l (c0 :: cs1)) out).2
        (log ++ [⟨ctxPtr C, Node.mk t nm c l (c0 :: cs1), line⟩]) ih
      refine ⟨k + 2, fun m st' hfin => ?_⟩
      have e : k + 2 + m = (k + m) + 2 := by omega
      rw [e, hstep (k + m), hch]
      simp only [finish, if_neg (ne_of_suffix_cons node (ctxPtr C) 0 hsuf)]
      apply walkLoop_mono_le cfg f (k + m) (k + m + 1) (Nat.le_succ _)
      have h3 := hk m st'
      simp only [List.nil_append, List.length_nil] at h3
      have hplug : plug C (processNode cfg f line (Node.mk t nm c l (c0 :: cs1)) out).1 =
          plug C ((processNode cfg f line (Node.mk t nm c l (c0 :: cs1)) out).1.setChildren
            (c0 :: cs1)) := by
        rw [Node.setChildren_eq_self _ _ hch]
      rw [hplug]
      apply h3
      rw [refList_cons] at hfin ⊢
      exact hfin

theorem walksAs_of_noEntityContent (cfg : Config) (f : List Byte) (node : Ptr) (line : Int)
    (n : Node) : noEntityContent n = true → WalksAs cfg f node line n := by
  induction n using Node.induct with
  | h t nm c l cs ih =>
    intro hne par lft r up out log hA
    have hcs := ((noEntityContent_mk t nm c l cs).1 hne).2.2
    have hsuf : node <:+ ctxPtr (⟨par, lft, r⟩ :: up) :=
      List.IsSuffix.trans hA.1 (List.suffix_cons _ _)
    have hneq : ctxPtr (⟨par, lft, r⟩ :: up) ≠ node := ne_of_suffix_cons node _ _ hA.1
    obtain ⟨k, hk⟩ := walk_node cfg f node line t nm c l cs (⟨par, lft, r⟩ :: up) out log hsuf
      (fun n2 _ _ => hA.2 _) hne (fun x hx => ih x hx (hcs x hx))
    refine ⟨k, fun m st' hfin => hk m st' ?_⟩
    rw [ctxClimb_cons_of_ne node _ _ hneq]
    have hptr : ctxPtr (⟨par, lft, r⟩ :: up) = lft.length :: ctxPtr up := rfl
    rw [hptr]
    split <;> exact hfin

theorem lineOf_idem (nd : Node) (line : Int) : lineOf nd (lineOf nd line) = lineOf nd line := by
  unfold lineOf
  split <;> rfl

theorem walkLoop_lineOf (cfg : Config) (f : List Byte) (fuel : Nat) (node : Ptr) (line : Int)
    (cur : Ptr) (st : State) (nd : Node) (hnd : getNode st.doc node = some nd) :
    walkLoop cfg f fuel node line cur st = walkLoop cfg f fuel node (lineOf nd line) cur st := by
  cases fuel with
  | zero => simp [walkLoop]
  | succ k =>
    rw [walkLoop_succ, walkLoop_succ]
    simp only [hnd, Option.some_bind, lineOf_idem]

/-- Refinement: on a document whose root element is the last child of the document node and
has no entity content, `processSubtree` started at the root returns, and what it returns is
what the reference walk of the root gives. -/
theorem processSubtree_refines (cfg : Config) (f : List Byte) (dn : Node) (l : List Node)
    (root : Node) (out : List Byte) (log : List Visit) (hne : noEntityContent root = true) :
    ∃ k, ∀ m, processSubtree cfg f (k + m) (some [l.length])
        ⟨dn.setChildren (l ++ [root]), out, log⟩ =
      some ⟨dn.setChildren
              (l ++ [(refNode cfg f (lineOf root 0) [l.length] root out log).1]),
            (refNode cfg f (lineOf root 0) [l.length] root out log).2.1,
            (refNode cfg f (lineOf root 0) [l.length] root out log).2.2⟩ := by
  cases root with
  | mk t nm c ln cs =>
    have hcs := ((noEntityContent_mk t nm c ln cs).1 hne).2.2
    have hplug : ∀ x : Node, dn.setChildren (l ++ [x]) = plug [⟨dn, l, []⟩] x := fun _ => rfl
    have hptr : ctxPtr [⟨dn, l, []⟩] = [l.length] := rfl
    have hstab : ∀ n2 : Node, n2.type = t → n2.line = ln →
        ∃ nd, getNode (plug [⟨dn, l, []⟩] n2) [l.length] = some nd ∧
          lineOf nd (lineOf (Node.mk t nm c ln cs) 0) = lineOf (Node.mk t nm c ln cs) 0 := by
      intro n2 h1 h2
      refine ⟨n2, by rw [← hptr]; exact getNode_plug _ _, ?_⟩
      have e1 : lineOf (Node.mk t nm c ln cs) 0 = if t = NodeType.element then ln else 0 := rfl
      rw [e1]
      unfold lineOf
      rw [h1, h2]
      by_cases he : t = NodeType.element
      · simp [he]
      · simp [he]
    obtain ⟨k, hk⟩ := walk_node cfg f [l.length] (lineOf (Node.mk t nm c ln cs) 0) t nm c ln cs
      [⟨dn, l, []⟩] out log (List.suffix_refl _) hstab hne
      (fun x hx => walksAs_of_noEntityContent cfg f _ _ x (hcs x hx))
    refine ⟨k + 1, fun m => ?_⟩
    have e : k + 1 + m = (k + m) + 1 := by omega
    rw [e]
    simp only [processSubtree]
    rw [walkLoop_lineOf cfg f (k + m) [l.length] 0 [l.length] _ (Node.mk t nm c ln cs)
      (by rw [hplug, ← hptr]; exact getNode_plug _ _)]
    rw [hplug, hplug]
    have h2 := hk m
    rw [hptr] at h2
    apply h2
    have hn0 : ctxNext [(⟨dn, l, []⟩ : Frame)] = none := rfl
    split
    · have : ctxSucc [l.length] [(⟨dn, l, []⟩ : Frame)] = none := by
        simp [ctxSucc, ctxNext, ctxClimb, ctxPtr]
      rw [this]
      rfl
    · rw [ctxClimb_cons_of_eq [l.length] _ [⟨dn, l, []⟩] hptr hn0]
      simp [finish]

/-! ## The trace of the reference walk -/

theorem preorder_setChildren (p : Ptr) (x : Node) (ys : List Node) :
    preorder p (x.setChildren ys) = (p, x.type) :: preorderList p 0 ys := by
  cases x; rfl

theorem preorder_leaf (p : Ptr) (x : Node) (h : x.children = []) :
    preorder p x = [(p, x.type)] := by
  cases x with
  | mk t nm c l cs =>
    simp only [Node.children] at h
    subst h
    rfl

theorem processNode_xmlNewDocText_children (cfg : Config) (f : List Byte) (line : Int)
    (c out : List Byte) : (processNode cfg f line (xmlNewDocText c) out).1.children = [] :=
  processNode_children_of_not_element cfg f line _ out (by rw [xmlNewDocText_type]; decide)

theorem refList_log (cfg : Config) (f : List Byte) (line : Int) (ns : List Node)
    (h : ∀ x ∈ ns, ∀ (p : Ptr) (out : List Byte) (log : List Visit),
      (refNode cfg f line p x out log).2.2.map (fun v => (v.ptr, v.node.type)) =
        log.map (fun v => (v.ptr, v.node.type)) ++
          preorder p (refNode cfg f line p x out log).1) :
    ∀ (p : Ptr) (i : Nat) (out : List Byte) (log : List Visit),
      (refList cfg f line p i ns out log).2.2.map (fun v => (v.ptr, v.node.type)) =
        log.map (fun v => (v.ptr, v.node.type)) ++
          preorderList p i (refList cfg f line p i ns out log).1 := by
  induction ns with
  | nil => intro p i out log; simp [refList, preorderList]
  | cons n ns ih =>
    intro p i out log
    rw [refList_cons]
    simp only [preorderList]
    rw [ih (fun x hx => h x (List.mem_cons_of_mem _ hx)), h n (List.mem_cons_self _ _)]
    simp only [List.append_assoc]

theorem refNode_log (cfg : Config) (f : List Byte) (line : Int) (n : Node) :
    ∀ (p : Ptr) (out : List Byte) (log : List Visit),
      (refNode cfg f line p n out log).2.2.map (fun v => (v.ptr, v.node.type)) =
        log.map (fun v => (v.ptr, v.node.type)) ++
          preorder p (refNode cfg f line p n out log).1 := by
  induction n using Node.induct with
  | h t nm c l cs ih =>
    intro p out log
    by_cases hcol : t = NodeType.element ∧ cs.isEmpty = false ∧ scanChildren cs = true
    · rw [refNode_collapse cfg f line p t nm c l cs out log hcol]
      simp only [preorder_setChildren, preorderList, processNode_type]
      rw [preorder_leaf _ _ (processNode_xmlNewDocText_children cfg f line _ _)]
      simp only [List.map_append, List.map_cons, List.map_nil, processNode_type,
        xmlNewDocText_type, List.append_assoc, List.append_nil]
      rfl
    · rw [refNode_keep cfg f line p t nm c l cs out log hcol]
      simp only [preorder_setChildren, processNode_type]
      rw [refList_log cfg f line cs ih]
      simp only [List.map_append, List.map_cons, List.map_nil, List.append_assoc]
      rfl

/-! ## Pre-order listings have no repetition -/

theorem mem_preorderList_suffix (ns : List Node)
    (h : ∀ x ∈ ns, ∀ (p : Ptr) (q : Ptr × NodeType), q ∈ preorder p x → p <:+ q.1) :
    ∀ (p : Ptr) (i : Nat) (q : Ptr × NodeType), q ∈ preorderList p i ns →
      ∃ j, i ≤ j ∧ (j :: p) <:+ q.1 := by
  induction ns with
  | nil => intro p i q hq; simp [preorderList] at hq
  | cons n ns ih =>
    intro p i q hq
    simp only [preorderList, List.mem_append] at hq
    rcases hq with hq | hq
    · exact ⟨i, Nat.le_refl i, h n (List.mem_cons_self _ _) _ _ hq⟩
    · obtain ⟨j, hj, hs⟩ := ih (fun x hx => h x (List.mem_cons_of_mem _ hx)) p (i + 1) q hq
      exact ⟨j, Nat.le_of_succ_le hj, hs⟩

theorem mem_preorder_suffix (n : Node) :
    ∀ (p : Ptr) (q : Ptr × NodeType), q ∈ preorder p n → p <:+ q.1 := by
  induction n using Node.induct with
  | h t nm c l cs ih =>
    intro p q hq
    simp only [preorder, List.mem_cons] at hq
    rcases hq with hq | hq
    · rw [hq]
    · obtain ⟨j, _, hs⟩ := mem_preorderList_suffix cs ih p 0 q hq
      exact List.IsSuffix.trans (List.suffix_cons j p) hs

theorem suffix_same_length {a b q : Ptr} (ha : a <:+ q) (hb : b <:+ q)
    (hl : a.length = b.length) : a = b := by
  have h1 : a <:+ b := List.suffix_of_suffix_length_le ha hb (Nat.le_of_eq hl)
  exact h1.eq_of_length hl

theorem nodup_preorderList (ns : List Node)
    (h : ∀ x ∈ ns, ∀ p : Ptr, ((preorder p x).map Prod.fst).Nodup) :
    ∀ (p : Ptr) (i : Nat), ((preorderList p i ns).map Prod.fst).Nodup := by
  induction ns with
  | nil => intro p i; simp [preorderList]
  | cons n ns ih =>
    intro p i
    simp only [preorderList, List.map_append]
    rw [List.nodup_append]
    refine ⟨h n (List.mem_cons_self _ _) _, ih (fun x hx => h x (List.mem_cons_of_mem _ hx)) _ _,
      ?_⟩
    intro a ha1 ha2
    rw [List.mem_map] at ha1 ha2
    obtain ⟨q1, hq1, e1⟩ := ha1
    obtain ⟨q2, hq2, e2⟩ := ha2
    have s1 := mem_preorder_suffix n (i :: p) q1 hq1
    obtain ⟨j, hj, s2⟩ := mem_preorderList_suffix ns (fun x _ => mem_preorder_suffix x)
      p (i + 1) q2 hq2
    rw [e1] at s1
    rw [e2] at s2
    have := suffix_same_length s1 s2 (by simp)
    simp at this
    omega

theorem nodup_preorder (n : Node) : ∀ p : Ptr, ((preorder p n).map Prod.fst).Nodup := by
  induction n using Node.induct with
  | h t nm c l cs ih =>
    intro p
    simp only [preorder, List.map_cons, List.nodup_cons]
    refine ⟨?_, nodup_preorderList cs ih p 0⟩
    intro hm
    rw [List.mem_map] at hm
    obtain ⟨q, hq, e⟩ := hm
    obtain ⟨j, _, hs⟩ := mem_preorderList_suffix cs (fun x _ => mem_preorder_suffix x) p 0 q hq
    rw [e] at hs
    have := hs.length_le
    simp at this

/-! ## Termination: sizes -/

theorem nodeSize_pos (n : Node) : 0 < nodeSize n := by
  cases n; simp [nodeSize]

theorem nodeSize_eq (n : Node) : nodeSize n = 1 + sizeList n.children := by
  cases n; rfl

theorem nodeSize_setChildren (x : Node) (cs : List Node) :
    nodeSize (x.setChildren cs) = 1 + sizeList cs := by
  cases x; rfl

theorem nodeSize_setContent (x : Node) (c : List Byte) :
    nodeSize (x.setContent c) = nodeSize x := by
  cases x; rfl

theorem sizeList_append (a b : List Node) : sizeList (a ++ b) = sizeList a + sizeList b := by
  induction a with
  | nil => simp [sizeList]
  | cons x a ih => simp [sizeList, ih]; omega

theorem processNode_size_le (cfg : Config) (f : List Byte) (line : Int) (n : Node)
    (out : List Byte) : nodeSize (processNode cfg f line n out).1 ≤ nodeSize n := by
  by_cases ht : n.type = NodeType.text
  · unfold processNode
    rw [if_pos ht]
    split
    · exact Nat.le_of_eq (nodeSize_setContent _ _)
    · exact Nat.le_refl _
  · by_cases he : n.type = NodeType.element
    · by_cases hcol : n.children ≠ [] ∧ scanChildren n.children = true
      · rw [processNode_element_collapse cfg f line n out he hcol.1 hcol.2,
          nodeSize_setChildren, nodeSize_eq n]
        cases hcs : n.children with
        | nil => exact absurd hcs hcol.1
        | cons c cs =>
          have := nodeSize_pos c
          simp only [sizeList, xmlNewDocText, nodeSize]
          omega
      · have hk : n.children = [] ∨ scanChildren n.children = false := by
          by_cases h1 : n.children = []
          · exact Or.inl h1
          · right
            cases hs : scanChildren n.children with
            | false => rfl
            | true => exact absurd ⟨h1, hs⟩ hcol
        rw [processNode_element_keep cfg f line n out he hk]
    · rw [processNode_other cfg f line n out ht he]

/-! ## Termination: the order on contexts -/

theorem FrameLe_refl (fr : Frame) : FrameLe fr fr := ⟨rfl, rfl, Nat.le_refl _⟩

theorem FrameLe_trans {a b c : Frame} (h1 : FrameLe a b) (h2 : FrameLe b c) : FrameLe a c :=
  ⟨h2.1.trans h1.1, h2.2.1.trans h1.2.1, Nat.le_trans h2.2.2 h1.2.2⟩

theorem CtxLe_refl : ∀ C : List Frame, CtxLe C C
  | [] => trivial
  | fr :: up => ⟨FrameLe_refl fr, CtxLe_refl up⟩

theorem CtxLe_trans : ∀ {a b c : List Frame}, CtxLe a b → CtxLe b c → CtxLe a c
  | [], [], [], _, _ => trivial
  | _ :: _, _ :: _, _ :: _, h1, h2 => ⟨FrameLe_trans h1.1 h2.1, CtxLe_trans h1.2 h2.2⟩
  | [], [], _ :: _, _, h2 => absurd h2 (by simp [CtxLe])
  | [], _ :: _, _, h1, _ => absurd h1 (by simp [CtxLe])
  | _ :: _, [], _, h1, _ => absurd h1 (by simp [CtxLe])
  | _ :: _, _ :: _, [], _, h2 => absurd h2 (by simp [CtxLe])

theorem CtxLe_nil_left {C : List Frame} (h : CtxLe [] C) : C = [] := by
  cases C with
  | nil => rfl
  | cons fr up => exact absurd h (by simp [CtxLe])

theorem CtxLe_cons_left {fr : Frame} {up C : List Frame} (h : CtxLe (fr :: up) C) :
    ∃ fr2 up2, C = fr2 :: up2 ∧ FrameLe fr fr2 ∧ CtxLe up up2 := by
  cases C with
  | nil => exact absurd h (by simp [CtxLe])
  | cons fr2 up2 => exact ⟨fr2, up2, rfl, h.1, h.2⟩

theorem ctxPtr_of_CtxLe : ∀ {C C2 : List Frame}, CtxLe C C2 → ctxPtr C2 = ctxPtr C
  | [], C2, h => by rw [CtxLe_nil_left h]
  | fr :: up, C2, h => by
    obtain ⟨fr2, up2, rfl, h1, h2⟩ := CtxLe_cons_left h
    simp only [ctxPtr, ctxPtr_of_CtxLe h2, h1.1]

theorem rightSize_of_CtxLe : ∀ {C C2 : List Frame}, CtxLe C C2 → rightSize C2 ≤ rightSize C
  | [], C2, h => by rw [CtxLe_nil_left h]
  | fr :: up, C2, h => by
    obtain ⟨fr2, up2, rfl, h1, h2⟩ := CtxLe_cons_left h
    have := rightSize_of_CtxLe h2
    have := h1.2.2
    simp only [rightSize]
    omega

theorem Reaches_refl (C : List Frame) (n : Node) : Reaches C n (plug C n) :=
  ⟨C, n, CtxLe_refl C, Nat.le_refl _, rfl⟩

theorem Reaches_shrink {C C2 : List Frame} {n n2 d : Node} (hC : CtxLe C C2)
    (hn : nodeSize n2 ≤ nodeSize n) (h : Reaches C2 n2 d) : Reaches C n d := by
  obtain ⟨C3, n3, h1, h2, h3⟩ := h
  exact ⟨C3, n3, CtxLe_trans hC h1, Nat.le_trans h2 hn, h3⟩

/-! ## Termination: the moves of the cursor -/

theorem child_reaches (C : List Frame) (n c0 : Node) (cs : List Node) (d : Node)
    (hch : n.children = c0 :: cs) (h : Reaches (⟨n, [], cs⟩ :: C) c0 d) : Reaches C n d := by
  obtain ⟨C1, c1, hC, hs, hd⟩ := h
  obtain ⟨fr2, up2, rfl, hfr, hup⟩ := CtxLe_cons_left hC
  refine ⟨up2, fr2.par.setChildren (fr2.left ++ c1 :: fr2.right), hup, ?_, hd⟩
  have h1 : fr2.left = [] := hfr.1
  have h2 : sizeList fr2.right ≤ sizeList cs := hfr.2.2
  rw [nodeSize_setChildren, nodeSize_eq n, hch, h1]
  simp only [List.nil_append, sizeList]
  omega

theorem next_reaches (par : Node) (l r : List Node) (up : List Frame) (n x d : Node)
    (h : Reaches (⟨par, l ++ [n], r⟩ :: up) x d) :
    ∃ C2, CtxLe (⟨par, l, x :: r⟩ :: up) C2 ∧ d = plug C2 n := by
  obtain ⟨C1, x1, hC, hs, hd⟩ := h
  obtain ⟨fr2, up2, rfl, hfr, hup⟩ := CtxLe_cons_left hC
  have h1 : fr2.left = l ++ [n] := hfr.1
  have h2 : fr2.right.length = r.length := hfr.2.1
  have h3 : sizeList fr2.right ≤ sizeList r := hfr.2.2
  refine ⟨⟨fr2.par, l, x1 :: fr2.right⟩ :: up2, ⟨⟨rfl, ?_, ?_⟩, hup⟩, ?_⟩
  · simp [h2]
  · simp only [sizeList]; omega
  · rw [hd]
    simp only [plug, h1, List.append_assoc, List.singleton_append]

theorem climb_reaches (node : Ptr) : ∀ (C : List Frame) (n : Node) (q : Ptr),
    ctxClimb node C = some q →
    q = node ∨ ∃ (Cq : List Frame) (nq : Node), ctxPtr Cq = q ∧ plug Cq nq = plug C n ∧
      nodeSize nq + rightSize Cq ≤ rightSize C ∧
      ∀ d, Reaches Cq nq d → ∃ C2, CtxLe C C2 ∧ d = plug C2 n
  | [], _, _, h => by simp [ctxClimb] at h
  | fr :: [], n, q, h => by
    simp only [ctxClimb, ctxNext, ctxPtr] at h
    split at h
    · rename_i he
      left
      simp at h
      rw [h, he]
    · simp at h
  | fr :: fr1 :: up1, n, q, h => by
    rw [ctxClimb] at h
    cases hr : fr1.right with
    | nil =>
      have hn : ctxNext (fr1 :: up1) = none := by simp [ctxNext, hr]
      rw [hn] at h
      simp only at h
      split at h
      · rename_i he
        left
        simp at h
        rw [← h, he]
      · rcases climb_reaches node (fr1 :: up1)
          (fr.par.setChildren (fr.left ++ n :: fr.right)) q h with hq | ⟨Cq, nq, h1, h2, h3, h4⟩
        · exact Or.inl hq
        · right
          refine ⟨Cq, nq, h1, h2, ?_, ?_⟩
          · simp only [rightSize] at h3 ⊢; omega
          · intro d hd
            obtain ⟨C2, hC2, hd2⟩ := h4 d hd
            exact ⟨fr :: C2, ⟨FrameLe_refl fr, hC2⟩, hd2⟩
    | cons x r =>
      have hn : ctxNext (fr1 :: up1) = some ((fr1.left.length + 1) :: ctxPtr up1) := by
        simp [ctxNext, hr]
      rw [hn] at h
      simp only [Option.some.injEq] at h
      right
      refine ⟨⟨fr1.par, fr1.left ++ [fr.par.setChildren (fr.left ++ n :: fr.right)], r⟩ :: up1,
        x, ?_, ?_, ?_, ?_⟩
      · rw [← h]; simp [ctxPtr]
      · simp only [plug, hr, List.append_assoc, List.singleton_append]
      · simp only [rightSize, hr, sizeList]; omega
      · intro d hd
        obtain ⟨C2, hC2, hd2⟩ := next_reaches fr1.par fr1.left r up1 _ x d hd
        refine ⟨fr :: C2, ⟨FrameLe_refl fr, ?_⟩, hd2⟩
        have e : fr1 = ⟨fr1.par, fr1.left, x :: r⟩ := by
          cases fr1
          simp only at hr
          rw [hr]
        rw [e]
        exact hC2

theorem advance_child (node : Ptr) (C : List Frame) (n c0 : Node) (cs : List Node)
    (hch : n.children = c0 :: cs) (href : n.type ≠ NodeType.entityRef) :
    advance (plug C n) node (ctxPtr C) = some (Advance.moveTo (some (0 :: ctxPtr C))) := by
  simp [advance, getNode_plug, childrenPtr_plug, hch, href]

theorem advance_rest (node : Ptr) (C : List Frame) (n : Node)
    (h : n.children = [] ∨ n.type = NodeType.entityRef) :
    advance (plug C n) node (ctxPtr C) =
      some (if n.type = NodeType.entityDecl then Advance.ret
            else match ctxNext C with
              | some q => Advance.moveTo (some q)
              | none => Advance.moveTo (ctxClimb node C)) := by
  have h1 : ¬ ((childrenPtr (plug C n) (ctxPtr C)).isSome = true ∧
      n.type ≠ NodeType.entityRef) := by
    rintro ⟨h2, h3⟩
    rcases h with h | h
    · rw [childrenPtr_plug, h] at h2
      simp at h2
    · exact h3 h
  simp only [advance, getNode_plug, if_neg h1, nextPtr_plug, climb_plug]
  by_cases hdecl : n.type = NodeType.entityDecl
  · simp [hdecl]
  · cases ctxNext C <;> simp [hdecl]

theorem advance_cases (node : Ptr) (C : List Frame) (n : Node) :
    ∃ a, advance (plug C n) node (ctxPtr C) = some a ∧
      (a = Advance.ret ∨ a = Advance.moveTo none ∨ a = Advance.moveTo (some node) ∨
        ∃ (q : Ptr) (Cq : List Frame) (nq : Node), a = Advance.moveTo (some q) ∧
          ctxPtr Cq = q ∧ plug Cq nq = plug C n ∧
          nodeSize nq + rightSize Cq < nodeSize n + rightSize C ∧
          ∀ d, Reaches Cq nq d → Reaches C n d) := by
  have hpos := nodeSize_pos n
  by_cases hdesc : n.children = [] ∨ n.type = NodeType.entityRef
  · rw [advance_rest node C n hdesc]
    by_cases hdecl : n.type = NodeType.entityDecl
    · rw [if_pos hdecl]
      exact ⟨_, rfl, Or.inl rfl⟩
    · rw [if_neg hdecl]
      cases C with
      | nil => exact ⟨Advance.moveTo none, rfl, Or.inr (Or.inl rfl)⟩
      | cons fr up =>
        cases hr : fr.right with
        | nil =>
          have hn : ctxNext (fr :: up) = none := by simp [ctxNext, hr]
          rw [hn]
          simp only
          cases hcl : ctxClimb node (fr :: up) with
          | none => exact ⟨_, rfl, Or.inr (Or.inl rfl)⟩
          | some q =>
            rcases climb_reaches node (fr :: up) n q hcl with hq | ⟨Cq, nq, h1, h2, h3, h4⟩
            · rw [hq]
              exact ⟨_, rfl, Or.inr (Or.inr (Or.inl rfl))⟩
            · refine ⟨_, rfl, Or.inr (Or.inr (Or.inr ⟨q, Cq, nq, rfl, h1, h2, by omega, ?_⟩))⟩
              intro d hd
              obtain ⟨C2, hC2, hd2⟩ := h4 d hd
              exact ⟨C2, n, hC2, Nat.le_refl _, hd2⟩
        | cons x r =>
          have hn : ctxNext (fr :: up) = some ((fr.left.length + 1) :: ctxPtr up) := by
            simp [ctxNext, hr]
          rw [hn]
          simp only
          have e : fr = ⟨fr.par, fr.left, x :: r⟩ := by
            cases fr
            simp only at hr
            rw [hr]
          refine ⟨_, rfl, Or.inr (Or.inr (Or.inr ⟨_, ⟨fr.par, fr.left ++ [n], r⟩ :: up, x, rfl,
            ?_, ?_, ?_, ?_⟩))⟩
          · simp [ctxPtr]
          · simp only [plug, hr, List.append_assoc, List.singleton_append]
          · simp only [rightSize, hr, sizeList]; omega
          · intro d hd
            obtain ⟨C2, hC2, hd2⟩ := next_reaches fr.par fr.left r up n x d hd
            rw [← e] at hC2
            exact ⟨C2, n, hC2, Nat.le_refl _, hd2⟩
  · have h1 : n.children ≠ [] := fun e => hdesc (Or.inl e)
    have h2 : n.type ≠ NodeType.entityRef := fun e => hdesc (Or.inr e)
    cases hch : n.children with
    | nil => exact absurd hch h1
    | cons c0 cs =>
      rw [advance_child node C n c0 cs hch h2]
      refine ⟨_, rfl, Or.inr (Or.inr (Or.inr ⟨0 :: ctxPtr C, ⟨n, [], cs⟩ :: C, c0, rfl, rfl, ?_,
        ?_, fun d hd => child_reaches C n c0 cs d hch hd⟩))⟩
      · show plug C (n.setChildren ([] ++ c0 :: cs)) = plug C n
        rw [List.nil_append, Node.setChildren_eq_self n _ hch]
      · rw [nodeSize_eq n, hch]
        simp only [rightSize, sizeList]
        omega

/-! ## Termination of the walk -/

theorem processSubtree_succ_some (cfg : Config) (f : List Byte) (k : Nat) (p : Ptr)
    (st : State) :
    processSubtree cfg f (k + 1) (some p) st = walkLoop cfg f k p 0 p st := by
  simp only [processSubtree]

theorem walkLoop_terminates (cfg : Config) (f : List Byte) : ∀ (N : Nat) (C : List Frame)
    (n : Node) (node : Ptr) (line : Int) (out : List Byte) (log : List Visit),
    nodeSize n + rightSize C ≤ N →
    (∀ d, Reaches C n d → (getNode d node).isSome = true) →
    ∃ st', walkLoop cfg f (2 * N + 1) node line (ctxPtr C) ⟨plug C n, out, log⟩ = some st' ∧
      Reaches C n st'.doc := by
  intro N
  induction N with
  | zero =>
    intro C n node line out log hN
    have := nodeSize_pos n
    omega
  | succ N ih =>
    intro C n node line out log hN hval
    have e : 2 * (N + 1) + 1 = (2 * N + 2) + 1 := by omega
    rw [e]
    simp only [walkLoop_succ_eq_some]
    -- the start node is there
    obtain ⟨nd, hnd⟩ := Option.isSome_iff_exists.1 (hval _ (Reaches_refl C n))
    -- processNode
    have hsz := processNode_size_le cfg f (lineOf nd line) n out
    have hpos := nodeSize_pos (processNode cfg f (lineOf nd line) n out).1
    -- the nested call
    have hnest : ∃ st2, nested cfg f (2 * N + 2) (processNode cfg f (lineOf nd line) n out).1
        (ctxPtr C) ⟨plug C (processNode cfg f (lineOf nd line) n out).1,
          (processNode cfg f (lineOf nd line) n out).2,
          log ++ [⟨ctxPtr C, n, lineOf nd line⟩]⟩ = some st2 ∧ Reaches C n st2.doc := by
      unfold nested
      split
      · cases hch : (processNode cfg f (lineOf nd line) n out).1.children with
        | nil =>
          dsimp only
          rw [childrenPtr_plug, hch]
          exact ⟨_, processSubtree_null _ _ _ _,
            Reaches_shrink (CtxLe_refl C) hsz (Reaches_refl _ _)⟩
        | cons c0 cs =>
          dsimp only
          rw [childrenPtr_plug, hch]
          dsimp only
          rw [processSubtree_succ_some cfg f (2 * N + 1)]
          have hplug : plug C (processNode cfg f (lineOf nd line) n out).1 =
              plug (⟨(processNode cfg f (lineOf nd line) n out).1, [], cs⟩ :: C) c0 := by
            show _ = plug C (Node.setChildren _ ([] ++ c0 :: cs))
            rw [List.nil_append, Node.setChildren_eq_self _ _ hch]
          rw [hplug]
          have hm : nodeSize c0 +
              rightSize (⟨(processNode cfg f (lineOf nd line) n out).1, [], cs⟩ :: C) ≤ N := by
            have := nodeSize_eq (processNode cfg f (lineOf nd line) n out).1
            rw [hch] at this
            simp only [sizeList] at this
            simp only [rightSize]
            omega
          obtain ⟨st2, h1, h2⟩ := ih
            (⟨(processNode cfg f (lineOf nd line) n out).1, [], cs⟩ :: C) c0
            (0 :: ctxPtr C) 0 (processNode cfg f (lineOf nd line) n out).2
            (log ++ [⟨ctxPtr C, n, lineOf nd line⟩]) hm
            (by
              rintro d ⟨C2, n2, hC2, _, rfl⟩
              have := ctxPtr_of_CtxLe hC2
              simp only [ctxPtr, List.length_nil] at this
              rw [← this, getNode_plug]
              rfl)
          exact ⟨st2, h1, Reaches_shrink (CtxLe_refl C) hsz (child_reaches C _ c0 cs _ hch h2)⟩
      · exact ⟨_, rfl, Reaches_shrink (CtxLe_refl C) hsz (Reaches_refl _ _)⟩
    obtain ⟨st2, hst2, hreach2⟩ := hnest
    obtain ⟨C2, n2, hC2, hn2, hdoc2⟩ := hreach2
    have hptr2 := ctxPtr_of_CtxLe hC2
    have hrs2 := rightSize_of_CtxLe hC2
    -- the move of the cursor
    obtain ⟨a, ha, hcases⟩ := advance_cases node C2 n2
    rw [hptr2, ← hdoc2] at ha
    have hdone : Reaches C n st2.doc := ⟨C2, n2, hC2, hn2, hdoc2⟩
    have key : ∃ st', resume cfg f node (lineOf nd line) (2 * N + 2) a st2 = some st' ∧
        Reaches C n st'.doc := by
      rcases hcases with h | h | h | ⟨q, Cq, nq, h, hq, hplug, hlt, hcov⟩
      · rw [h]; exact ⟨st2, rfl, hdone⟩
      · rw [h]; exact ⟨st2, rfl, hdone⟩
      · rw [h]; exact ⟨st2, by simp [resume, finish], hdone⟩
      · rw [h]
        simp only [resume, finish]
        by_cases hqn : q = node
        · rw [if_pos hqn]; exact ⟨st2, rfl, hdone⟩
        · rw [if_neg hqn]
          have hm : nodeSize nq + rightSize Cq ≤ N := by omega
          have hst : st2 = ⟨plug Cq nq, st2.out, st2.log⟩ := by
            cases st2
            simp only at hdoc2
            rw [hplug, ← hdoc2]
          rw [hst, ← hq]
          obtain ⟨st', h1, h2⟩ := ih Cq nq node (lineOf nd line) st2.out st2.log hm
            (fun d hd => hval d (Reaches_shrink hC2 hn2 (hcov d hd)))
          exact ⟨st',
            walkLoop_mono_le cfg f (2 * N + 1) (2 * N + 2) (Nat.le_succ _) _ _ _ _ _ h1,
            Reaches_shrink hC2 hn2 (hcov _ h2)⟩
    obtain ⟨st', hres, hreach⟩ := key
    exact ⟨st', ⟨nd, hnd, _, by simp only [processNodeAt, getNode_plug, setNode_plug],
      _, getNode_plug _ _, st2, hst2, a, ha, hres⟩, hreach⟩

theorem list_split_of_getElem? {α : Type} : ∀ (cs : List α) (i : Nat) (n : α),
    cs[i]? = some n → ∃ l r, cs = l ++ n :: r ∧ l.length = i
  | [], i, n, h => by simp at h
  | c :: cs, 0, n, h => by
    simp at h
    exact ⟨[], cs, by simp [h], rfl⟩
  | c :: cs, i + 1, n, h => by
    simp at h
    obtain ⟨l, r, h1, h2⟩ := list_split_of_getElem? cs i n h
    exact ⟨c :: l, r, by simp [h1], by simp [h2]⟩

theorem ctx_of_ptr (d : Node) : ∀ (p : Ptr) (n : Node), getNode d p = some n →
    ∃ C, plug C n = d ∧ ctxPtr C = p
  | [], n, h => by
    simp [getNode] at h
    exact ⟨[], h.symm, rfl⟩
  | i :: p, n, h => by
    obtain ⟨par, hp, hi⟩ := (getNode_cons d i p n).1 h
    obtain ⟨l, r, h1, h2⟩ := list_split_of_getElem? _ i n hi
    obtain ⟨C, hC1, hC2⟩ := ctx_of_ptr d p par hp
    refine ⟨⟨par, l, r⟩ :: C, ?_, ?_⟩
    · show plug C (par.setChildren (l ++ n :: r)) = d
      rw [Node.setChildren_eq_self par _ h1, hC1]
    · simp [ctxPtr, h2, hC2]

theorem processSubtree_mono_le (cfg : Config) (f : List Byte) (a b : Nat) (hab : a ≤ b)
    (start : Option Ptr) (st st' : State) (h : processSubtree cfg f a start st = some st') :
    processSubtree cfg f b start st = some st' := by
  obtain ⟨k, rfl⟩ := Nat.exists_eq_add_of_le hab
  induction k with
  | zero => exact h
  | succ k ih => exact (fuel_mono cfg f (a + k)).1 _ _ _ (ih (Nat.le_add_right _ _))

theorem processSubtree_fuel_unique (cfg : Config) (f : List Byte) (a b : Nat)
    (start : Option Ptr) (st s1 s2 : State) (h1 : processSubtree cfg f a start st = some s1)
    (h2 : processSubtree cfg f b start st = some s2) : s1 = s2 := by
  rcases Nat.le_total a b with hab | hab
  · have := processSubtree_mono_le cfg f a b hab start st s1 h1
    rw [h2] at this
    exact (Option.some.inj this).symm
  · have := processSubtree_mono_le cfg f b a hab start st s2 h2
    rw [h1] at this
    exact Option.some.inj this

theorem processSubtree_terminates (cfg : Config) (f : List Byte) (start : Option Ptr)
    (st : State) (hstart : ∀ p, start = some p → (getNode st.doc p).isSome = true) :
    ∃ k st', ∀ m, processSubtree cfg f (k + m) start st = some st' := by
  cases start with
  | none =>
    refine ⟨1, st, fun m => ?_⟩
    rw [Nat.add_comm]
    exact processSubtree_null cfg f m st
  | some p =>
    obtain ⟨n, hn⟩ := Option.isSome_iff_exists.1 (hstart p rfl)
    obtain ⟨C, hC1, hC2⟩ := ctx_of_ptr st.doc p n hn
    obtain ⟨st', h1, _⟩ := walkLoop_terminates cfg f (nodeSize n + rightSize C) C n p 0
      st.out st.log (Nat.le_refl _)
      (by
        rintro d ⟨C2, n2, hC, _, rfl⟩
        rw [← hC2, ← ctxPtr_of_CtxLe hC, getNode_plug]
        rfl)
    refine ⟨2 * (nodeSize n + rightSize C) + 1 + 1, st', fun m => ?_⟩
    apply processSubtree_mono_le cfg f (2 * (nodeSize n + rightSize C) + 1 + 1) _
      (Nat.le_add_right _ _)
    rw [processSubtree_succ_some]
    have hst : st = ⟨plug C n, st.out, st.log⟩ := by
      cases st
      simp only at hC1
      rw [hC1]
    rw [hst]
    rw [← hC2] at h1 ⊢
    exact h1

theorem rootIndex_spec : ∀ (cs : List Node) (j i : Nat), rootIndex cs j = some i →
    ∃ k, i = j + k ∧ (cs[k]?).isSome = true
  | [], j, i, h => by simp [rootIndex] at h
  | c :: cs, j, i, h => by
    simp only [rootIndex] at h
    split at h
    · simp at h
      exact ⟨0, by omega, by simp⟩
    · obtain ⟨k, h1, h2⟩ := rootIndex_spec cs (j + 1) i h
      exact ⟨k + 1, by omega, by simpa using h2⟩

theorem xmlDocGetRootElement_valid (d : Node) (p : Ptr) (h : xmlDocGetRootElement d = some p) :
    (getNode d p).isSome = true := by
  unfold xmlDocGetRootElement at h
  cases hr : rootIndex d.children 0 with
  | none => rw [hr] at h; simp at h
  | some i =>
    rw [hr] at h
    simp at h
    obtain ⟨k, h1, h2⟩ := rootIndex_spec _ _ _ hr
    rw [← h]
    have : i = k := by omega
    rw [this]
    simpa [getNode] using h2

theorem processDocument_terminates (cfg : Config) (doc : Option Node) (f out : List Byte) :
    ∃ k r, ∀ m, processDocument cfg (k + m) doc f out = some r := by
  cases doc with
  | none => exact ⟨0, _, fun _ => rfl⟩
  | some d =>
    obtain ⟨k, st', h⟩ := processSubtree_terminates cfg f (xmlDocGetRootElement d)
      ⟨d, if cfg.output_pot_file then output_pot_header cfg f out else out, []⟩
      (fun p hp => xmlDocGetRootElement_valid d p hp)
    refine ⟨k, (st'.out, st'.log, some st'.doc), fun m => ?_⟩
    simp only [processDocument, h m]

/-! ## The length computed by the first loop -/

theorem wrapInt_of_fits (x : Int) (h1 : -2 ^ 31 ≤ x) (h2 : x < 2 ^ 31) : wrapInt x = x := by
  unfold wrapInt
  omega

theorem wrapInt_add_wrapInt (a b : Int) : wrapInt (wrapInt a + b) = wrapInt (a + b) := by
  unfold wrapInt
  omega

theorem lenLoop_of_fits (s : List Byte) : ∀ n : Int, 0 ≤ n →
    n + ((fillLoop s []).length : Int) < 2 ^ 31 →
    lenLoop s n = n + ((fillLoop s []).length : Int) := by
  induction s with
  | nil => intro n _ _; simp [lenLoop, fillLoop]
  | cons c s ih =>
    intro n h0 h
    by_cases hc0 : c = 0
    · simp [lenLoop, fillLoop, hc0]
    · by_cases hc10 : c = 10
      · have e : fillLoop (c :: s) [] = [92, 110, 34, 10, 34] ++ fillLoop s [] := by
          simp only [fillLoop, if_neg hc0, if_pos hc10]
          rw [fillLoop_append]
          rfl
        rw [e] at h ⊢
        simp only [List.length_append, List.length_cons, List.length_nil] at h ⊢
        push_cast at h ⊢
        simp only [lenLoop, if_neg hc0, if_pos hc10]
        rw [wrapInt_of_fits (n + 5) (by omega) (by omega), ih (n + 5) (by omega) (by omega)]
        omega
      · by_cases hc34 : c = 34
        · have e : fillLoop (c :: s) [] = [92, 34] ++ fillLoop s [] := by
            simp only [fillLoop, if_neg hc0, if_neg hc10, if_pos hc34]
            rw [fillLoop_append]
            rfl
          rw [e] at h ⊢
          simp only [List.length_append, List.length_cons, List.length_nil] at h ⊢
          push_cast at h ⊢
          simp only [lenLoop, if_neg hc0, if_neg hc10, if_pos hc34]
          rw [wrapInt_of_fits (n + 2) (by omega) (by omega), ih (n + 2) (by omega) (by omega)]
          omega
        · have e : fillLoop (c :: s) [] = [c] ++ fillLoop s [] := by
            simp only [fillLoop, if_neg hc0, if_neg hc10, if_neg hc34]
            rw [fillLoop_append]
            rfl
          rw [e] at h ⊢
          simp only [List.length_append, List.length_cons, List.length_nil] at h ⊢
          push_cast at h ⊢
          simp only [lenLoop, if_neg hc0, if_neg hc10, if_neg hc34]
          rw [wrapInt_of_fits (n + 1) (by omega) (by omega), ih (n + 1) (by omega) (by omega)]
          omega

theorem lenLoop_replicate_lf (k : Nat) : ∀ n : Int,
    lenLoop (List.replicate k 10) (wrapInt n) = wrapInt (n + 5 * (k : Int)) := by
  induction k with
  | zero => intro n; simp [lenLoop]
  | succ k ih =>
    intro n
    simp only [List.replicate_succ, lenLoop]
    have e : n + 5 + 5 * (k : Int) = n + 5 * ((k + 1 : Nat) : Int) := by
      push_cast
      omega
    rw [if_pos True.intro, wrapInt_add_wrapInt, ih (n + 5), e, if_neg (by decide)]

theorem fillLoop_cons_of_ne (c : Byte) (s buf : List Byte) (hc : c ≠ 0) :
    fillLoop (c :: s) buf = fillLoop s (buf ++ escByte c) := by
  rw [fillLoop, if_neg hc]
  unfold escByte
  split
  · rfl
  · split <;> rfl

theorem fillLoop_prefix (a b : List Byte) (h : (0 : Byte) ∉ a) :
    fillLoop (a ++ b) [] = fillLoop a [] ++ fillLoop b [] := by
  induction a with
  | nil => simp [fillLoop]
  | cons c a ih =>
    have hc : c ≠ 0 := fun e => h (by simp [e])
    have ha : (0 : Byte) ∉ a := fun e => h (by simp [e])
    rw [List.cons_append, fillLoop_cons_of_ne c _ _ hc, fillLoop_cons_of_ne c _ _ hc,
      fillLoop_append (a ++ b), ih ha, fillLoop_append a ([] ++ escByte c)]
    simp only [List.append_assoc]

theorem length_escapeSpec (s : List Byte) :
    (escapeSpec s).length = s.length + 4 * s.count 10 + s.count 34 := by
  induction s with
  | nil => simp [escapeSpec]
  | cons c s ih =>
    simp only [escapeSpec] at ih
    simp only [escapeSpec, List.flatMap_cons, List.length_append, ih, List.length_cons,
      List.count_cons]
    by_cases h1 : c = 10
    · subst h1
      simp [escByte]
      omega
    · by_cases h2 : c = 34
      · subst h2
        simp [escByte]
        omega
      · have h3 : ¬ (c == 10) = true := by simpa using h1
        have h4 : ¬ (c == 34) = true := by simpa using h2
        simp [escByte, h1, h2]
        omega

/-! ## The escaping can be undone -/

theorem escapeSpec_cons (c : Byte) (s : List Byte) :
    escapeSpec (c :: s) = escByte c ++ escapeSpec s := by
  simp [escapeSpec]

theorem escapeSpec_take_one (s : List Byte) : (escapeSpec s).take 1 ≠ [34] := by
  cases s with
  | nil => simp [escapeSpec]
  | cons c s =>
    rw [escapeSpec_cons]
    unfold escByte
    split
    · simp
    · split
      · simp
      · rename_i h1 h2
        simp
        exact h2

theorem escapeSpec_take_four (s : List Byte) : (escapeSpec s).take 4 ≠ [110, 34, 10, 34] := by
  cases s with
  | nil => simp [escapeSpec]
  | cons c s =>
    rw [escapeSpec_cons]
    unfold escByte
    split
    · simp
    · split
      · simp
      · intro h
        have h2 := escapeSpec_take_one s
        simp only [List.singleton_append, List.take_succ_cons, List.cons.injEq] at h
        apply h2
        have h3 := congrArg (List.take 1) h.2
        simpa [List.take_take] using h3

theorem unescape_zero_cons (c : Byte) (rest : List Byte) :
    unescape 0 (c :: rest) =
      if c = 92 ∧ rest.take 4 = [110, 34, 10, 34] then 10 :: unescape 4 rest
      else if c = 92 ∧ rest.take 1 = [34] then 34 :: unescape 1 rest
      else c :: unescape 0 rest := by
  rw [unescape]

theorem unescape_succ_cons (k : Nat) (c : Byte) (rest : List Byte) :
    unescape (k + 1) (c :: rest) = unescape k rest := by
  rw [unescape]

theorem unescape_skip (pre x : List Byte) : unescape pre.length (pre ++ x) = unescape 0 x := by
  induction pre with
  | nil => rfl
  | cons c pre ih =>
    rw [List.length_cons, List.cons_append, unescape_succ_cons]
    exact ih

theorem unescape_escapeSpec (s : List Byte) : unescape 0 (escapeSpec s) = s := by
  induction s with
  | nil => rfl
  | cons c s ih =>
    rw [escapeSpec_cons]
    by_cases h1 : c = 10
    · subst h1
      have e : escByte 10 ++ escapeSpec s = 92 :: ([110, 34, 10, 34] ++ escapeSpec s) := rfl
      rw [e, unescape_zero_cons]
      have h : ((92 : Byte) = 92 ∧
          List.take 4 ([110, 34, 10, 34] ++ escapeSpec s) = [110, 34, 10, 34]) := by
        simp
      rw [if_pos h]
      have := unescape_skip [110, 34, 10, 34] (escapeSpec s)
      rw [show ([110, 34, 10, 34] : List Byte).length = 4 from rfl] at this
      rw [this, ih]
    · by_cases h2 : c = 34
      · subst h2
        have e : escByte 34 ++ escapeSpec s = 92 :: ([34] ++ escapeSpec s) := rfl
        rw [e, unescape_zero_cons]
        have hn : ¬ ((92 : Byte) = 92 ∧
            List.take 4 ([34] ++ escapeSpec s) = [110, 34, 10, 34]) := by
          simp
        have h : ((92 : Byte) = 92 ∧ List.take 1 ([34] ++ escapeSpec s) = [34]) := by
          simp
        rw [if_neg hn, if_pos h]
        have := unescape_skip [34] (escapeSpec s)
        rw [show ([34] : List Byte).length = 1 from rfl] at this
        rw [this, ih]
      · have e : escByte c = [c] := by simp [escByte, h1, h2]
        rw [e]
        rw [List.singleton_append, unescape_zero_cons]
        have hn1 : ¬ (c = 92 ∧ List.take 4 (escapeSpec s) = [110, 34, 10, 34]) :=
          fun h => escapeSpec_take_four s h.2
        have hn2 : ¬ (c = 92 ∧ List.take 1 (escapeSpec s) = [34]) :=
          fun h => escapeSpec_take_one s h.2
        rw [if_neg hn1, if_neg hn2, ih]

/-! ## Termination: a bound from the size of the document -/

theorem nodeSize_plug : ∀ (C : List Frame) (n : Node),
    nodeSize n + rightSize C ≤ nodeSize (plug C n)
  | [], n => by simp [plug, rightSize]
  | fr :: up, n => by
    have h := nodeSize_plug up (fr.par.setChildren (fr.left ++ n :: fr.right))
    rw [nodeSize_setChildren, sizeList_append] at h
    simp only [sizeList] at h
    simp only [plug, rightSize]
    omega

theorem processSubtree_bound (cfg : Config) (f : List Byte) (start : Option Ptr) (st : State)
    (hstart : ∀ p, start = some p → (getNode st.doc p).isSome = true) :
    ∃ st', ∀ m, processSubtree cfg f (2 * nodeSize st.doc + 2 + m) start st = some st' := by
  cases start with
  | none =>
    refine ⟨st, fun m => ?_⟩
    have e : 2 * nodeSize st.doc + 2 + m = (2 * nodeSize st.doc + 1 + m) + 1 := by omega
    rw [e]
    exact processSubtree_null cfg f _ st
  | some p =>
    obtain ⟨n, hn⟩ := Option.isSome_iff_exists.1 (hstart p rfl)
    obtain ⟨C, hC1, hC2⟩ := ctx_of_ptr st.doc p n hn
    have hsz := nodeSize_plug C n
    rw [hC1] at hsz
    obtain ⟨st', h1, _⟩ := walkLoop_terminates cfg f (nodeSize n + rightSize C) C n p 0
      st.out st.log (Nat.le_refl _)
      (by
        rintro d ⟨C2, n2, hC, _, rfl⟩
        rw [← hC2, ← ctxPtr_of_CtxLe hC, getNode_plug]
        rfl)
    refine ⟨st', fun m => ?_⟩
    apply processSubtree_mono_le cfg f (2 * (nodeSize n + rightSize C) + 1 + 1) _ (by omega)
    rw [processSubtree_succ_some]
    have hst : st = ⟨plug C n, st.out, st.log⟩ := by
      cases st
      simp only at hC1
      rw [hC1]
    rw [hst]
    rw [← hC2] at h1 ⊢
    exact h1

/-! ## The reference walk gives the walked tree -/

theorem Node.setContent_content (n : Node) : n.setContent n.content = n := by
  cases n; rfl

theorem processNode_text_fst (cfg : Config) (f : List Byte) (line : Int) (n : Node)
    (out : List Byte) (h : n.type = NodeType.text) :
    (processNode cfg f line n out).1 = n.setContent (textAfter cfg n.content) := by
  unfold processNode textAfter processString
  rw [if_pos h]
  cases hm : cfg.output_pot_file with
  | true => simp [Node.setContent_content]
  | false => simp

theorem processNode_keep_fst (cfg : Config) (f : List Byte) (line : Int) (t : NodeType)
    (nm c : List Byte) (l : Int) (cs : List Node) (out : List Byte)
    (hcol : ¬ collapsible t cs) (ht : t ≠ NodeType.text) :
    (processNode cfg f line (Node.mk t nm c l cs) out).1 = Node.mk t nm c l cs := by
  by_cases he : t = NodeType.element
  · have hk : (Node.mk t nm c l cs).children = [] ∨
        scanChildren (Node.mk t nm c l cs).children = false := by
      simp only [Node.children]
      by_cases h1 : cs = []
      · exact Or.inl h1
      · right
        cases hs : scanChildren cs with
        | false => rfl
        | true => exact absurd ⟨he, by simpa using h1, hs⟩ hcol
    rw [processNode_element_keep cfg f line (Node.mk t nm c l cs) out he hk]
  · rw [processNode_other cfg f line (Node.mk t nm c l cs) out ht he]

theorem refList_fst (cfg : Config) (f : List Byte) (line : Int) (ns : List Node)
    (h : ∀ x ∈ ns, ∀ (p : Ptr) (out : List Byte) (log : List Visit),
      (refNode cfg f line p x out log).1 = walked cfg x) :
    ∀ (p : Ptr) (i : Nat) (out : List Byte) (log : List Visit),
      (refList cfg f line p i ns out log).1 = walkedList cfg ns := by
  induction ns with
  | nil => intro p i out log; simp [refList, walkedList]
  | cons n ns ih =>
    intro p i out log
    rw [refList_cons]
    simp only [walkedList]
    rw [h n (List.mem_cons_self _ _), ih (fun x hx => h x (List.mem_cons_of_mem _ hx))]

theorem refNode_fst (cfg : Config) (f : List Byte) (line : Int) (n : Node) :
    ∀ (p : Ptr) (out : List Byte) (log : List Visit),
      (refNode cfg f line p n out log).1 = walked cfg n := by
  induction n using Node.induct with
  | h t nm c l cs ih =>
    intro p out log
    by_cases hcol : collapsible t cs
    · rw [refNode_collapse cfg f line p t nm c l cs out log hcol]
      have hcne : (Node.mk t nm c l cs).children ≠ [] := by
        have := hcol.2.1
        simpa [Node.children] using this
      rw [processNode_element_collapse cfg f line (Node.mk t nm c l cs) out hcol.1 hcne
        hcol.2.2, processNode_text_fst cfg f line _ _ (xmlNewDocText_type _)]
      simp only [walked, if_pos hcol]
      rfl
    · rw [refNode_keep cfg f line p t nm c l cs out log hcol, refList_fst cfg f line cs ih]
      simp only [walked, if_neg hcol]
      by_cases ht : t = NodeType.text
      · rw [if_pos ht, processNode_text_fst cfg f line (Node.mk t nm c l cs) out ht]
        rfl
      · rw [if_neg ht, processNode_keep_fst cfg f line t nm c l cs out hcol ht]
        rfl

/-! ## The trace of the reference walk, with the nodes passed -/

theorem refList_visits (cfg : Config) (f : List Byte) (line : Int) (ns : List Node)
    (h : ∀ x ∈ ns, ∀ (p : Ptr) (out : List Byte) (log : List Visit),
      (refNode cfg f line p x out log).2.2.map (fun v => (v.ptr, v.node)) =
        log.map (fun v => (v.ptr, v.node)) ++ visitsSpec p x) :
    ∀ (p : Ptr) (i : Nat) (out : List Byte) (log : List Visit),
      (refList cfg f line p i ns out log).2.2.map (fun v => (v.ptr, v.node)) =
        log.map (fun v => (v.ptr, v.node)) ++ visitsSpecList p i ns := by
  induction ns with
  | nil => intro p i out log; simp [refList, visitsSpecList]
  | cons n ns ih =>
    intro p i out log
    rw [refList_cons]
    simp only [visitsSpecList]
    rw [ih (fun x hx => h x (List.mem_cons_of_mem _ hx)), h n (List.mem_cons_self _ _)]
    simp only [List.append_assoc]

theorem refNode_visits (cfg : Config) (f : List Byte) (line : Int) (n : Node) :
    ∀ (p : Ptr) (out : List Byte) (log : List Visit),
      (refNode cfg f line p n out log).2.2.map (fun v => (v.ptr, v.node)) =
        log.map (fun v => (v.ptr, v.node)) ++ visitsSpec p n := by
  induction n using Node.induct with
  | h t nm c l cs ih =>
    intro p out log
    by_cases hcol : collapsible t cs
    · rw [refNode_collapse cfg f line p t nm c l cs out log hcol]
      simp only [visitsSpec, if_pos hcol, List.map_append, List.map_cons, List.map_nil,
        List.append_assoc, List.singleton_append]
    · rw [refNode_keep cfg f line p t nm c l cs out log hcol]
      simp only [visitsSpec, if_neg hcol]
      rw [refList_visits cfg f line cs ih]
      simp only [List.map_append, List.map_cons, List.map_nil, List.append_assoc,
        List.singleton_append]

/-! ## The walked tree, node by node -/

theorem length_walkedList (cfg : Config) (ns : List Node) :
    (walkedList cfg ns).length = ns.length := by
  induction ns with
  | nil => rfl
  | cons n ns ih => simp [walkedList, ih]

theorem walkedList_append (cfg : Config) (a b : List Node) :
    walkedList cfg (a ++ b) = walkedList cfg a ++ walkedList cfg b := by
  induction a with
  | nil => rfl
  | cons n a ih => simp [walkedList, ih]

theorem walked_xmlNewDocText (cfg : Config) (c : List Byte) :
    walked cfg (xmlNewDocText c) =
      Node.mk NodeType.text (lit "text") (textAfter cfg c) 0 [] := by
  have hn : ¬ collapsible NodeType.text [] := by
    intro h
    exact absurd h.1 (by decide)
  simp only [xmlNewDocText, walked, if_neg hn, if_true, walkedList]

theorem visitsSpec_mk (p : Ptr) (t : NodeType) (nm c : List Byte) (l : Int) (cs : List Node) :
    visitsSpec p (Node.mk t nm c l cs) =
      (p, Node.mk t nm c l cs) ::
        (if collapsible t cs then [(0 :: p, xmlNewDocText (nodesText cs))]
         else visitsSpecList p 0 cs) := by
  rw [visitsSpec]

theorem walked_keep (cfg : Config) (t : NodeType) (nm c : List Byte) (l : Int)
    (cs : List Node) (h : ¬ collapsible t cs) :
    walked cfg (Node.mk t nm c l cs) =
      (walked cfg (Node.mk t nm c l cs)).setChildren (walkedList cfg cs) := by
  simp only [walked, if_neg h]
  split <;> rfl

theorem getNode_walkedList (cfg : Config) (X : Node) (C : List Frame) (post : List Node)
    (h : ∀ x ∈ post, ∀ (C2 : List Frame), ∀ y ∈ visitsSpec (ctxPtr C2) x,
      getNode (plug C2 (walked cfg x)) y.1 = some (walked cfg y.2)) :
    ∀ pre : List Node, ∀ y ∈ visitsSpecList (ctxPtr C) pre.length post,
      getNode (plug C (X.setChildren (walkedList cfg pre ++ walkedList cfg post))) y.1 =
        some (walked cfg y.2) := by
  induction post with
  | nil => intro pre y hy; simp [visitsSpecList] at hy
  | cons c post ih =>
    intro pre y hy
    simp only [visitsSpecList, List.mem_append] at hy
    rcases hy with hy | hy
    · have h1 := h c (List.mem_cons_self _ _)
        (⟨X, walkedList cfg pre, walkedList cfg post⟩ :: C) y
        (by simpa [ctxPtr, length_walkedList] using hy)
      simpa [plug, walkedList] using h1
    · have h2 := ih (fun x hx => h x (List.mem_cons_of_mem _ hx)) (pre ++ [c]) y
        (by simpa using hy)
      simpa [walkedList_append, walkedList] using h2

theorem getNode_walked (cfg : Config) (n : Node) :
    ∀ (C : List Frame), ∀ y ∈ visitsSpec (ctxPtr C) n,
      getNode (plug C (walked cfg n)) y.1 = some (walked cfg y.2) := by
  induction n using Node.induct with
  | h t nm c l cs ih =>
    intro C y hy
    rw [visitsSpec_mk, List.mem_cons] at hy
    rcases hy with hy | hy
    · rw [hy]
      exact getNode_plug _ _
    · by_cases hcol : collapsible t cs
      · rw [if_pos hcol, List.mem_singleton] at hy
        rw [hy]
        simp only
        rw [getNode_plug_child, walked_xmlNewDocText]
        simp only [walked, if_pos hcol, Node.children]
        rfl
      · rw [if_neg hcol] at hy
        rw [walked_keep cfg t nm c l cs hcol]
        have := getNode_walkedList cfg (walked cfg (Node.mk t nm c l cs)) C cs ih [] y
          (by simpa using hy)
        simpa [walkedList] using this

/-! ## The visits and the pre-order listing of the walked tree -/

theorem visitsSpec_preorder (cfg : Config) (n : Node) (p : Ptr) :
    (visitsSpec p n).map (fun x => (x.1, x.2.type)) = preorder p (walked cfg n) := by
  have h1 := refNode_log cfg [] 0 n p [] []
  have h2 := refNode_visits cfg [] 0 n p [] []
  rw [refNode_fst] at h1
  simp only [List.map_nil, List.nil_append] at h1 h2
  rw [← h1, ← h2, List.map_map]
  rfl

theorem mem_visitsSpec_suffix (n : Node) (p : Ptr) (y : Ptr × Node)
    (h : y ∈ visitsSpec p n) : p <:+ y.1 := by
  have h1 : (y.1, y.2.type) ∈ (visitsSpec p n).map (fun x => (x.1, x.2.type)) :=
    List.mem_map.2 ⟨y, h, rfl⟩
  rw [visitsSpec_preorder potConfig] at h1
  exact mem_preorder_suffix _ p _ h1

theorem mem_visitsSpecList_suffix (ns : List Node) : ∀ (p : Ptr) (i : Nat) (y : Ptr × Node),
    y ∈ visitsSpecList p i ns → ∃ j, i ≤ j ∧ (j :: p) <:+ y.1 := by
  induction ns with
  | nil => intro p i y hy; simp [visitsSpecList] at hy
  | cons n ns ih =>
    intro p i y hy
    simp only [visitsSpecList, List.mem_append] at hy
    rcases hy with hy | hy
    · exact ⟨i, Nat.le_refl i, mem_visitsSpec_suffix n _ y hy⟩
    · obtain ⟨j, hj, hs⟩ := ih p (i + 1) y hy
      exact ⟨j, Nat.le_of_succ_le hj, hs⟩

theorem nodup_visitsSpec (n : Node) (p : Ptr) : ((visitsSpec p n).map Prod.fst).Nodup := by
  have h := nodup_preorder (walked potConfig n) p
  rw [← visitsSpec_preorder, List.map_map] at h
  exact h

/-! ## Text nodes stay without children -/

theorem isEmpty_walkedList (cfg : Config) (cs : List Node) :
    (walkedList cfg cs).isEmpty = cs.isEmpty := by
  cases cs <;> rfl

theorem textLeavesList_walked (cfg : Config) (ns : List Node)
    (ih : ∀ x ∈ ns, textLeaves x = true → textLeaves (walked cfg x) = true)
    (h : textLeavesList ns = true) : textLeavesList (walkedList cfg ns) = true := by
  induction ns with
  | nil => rfl
  | cons n ns ihl =>
    simp only [textLeavesList, Bool.and_eq_true] at h
    simp only [walkedList, textLeavesList, Bool.and_eq_true]
    exact ⟨ih n (List.mem_cons_self _ _) h.1,
      ihl (fun x hx => ih x (List.mem_cons_of_mem _ hx)) h.2⟩

theorem textLeaves_walked (cfg : Config) (n : Node) (h : textLeaves n = true) :
    textLeaves (walked cfg n) = true := by
  induction n using Node.induct with
  | h t nm c l cs ih =>
    simp only [textLeaves, Bool.and_eq_true] at h
    by_cases hcol : collapsible t cs
    · simp only [walked, if_pos hcol, textLeaves, textLeavesList]
      rw [hcol.1]
      rfl
    · have hl := textLeavesList_walked cfg cs ih h.2
      simp only [walked, if_neg hcol]
      split
      · simp only [textLeaves, Bool.and_eq_true, isEmpty_walkedList]
        exact ⟨h.1, hl⟩
      · simp only [textLeaves, Bool.and_eq_true, isEmpty_walkedList]
        exact ⟨h.1, hl⟩

/-! ## Nothing is visited below a collapsed element but the Text child it received -/

theorem not_collapsible_text (cs : List Node) : ¬ collapsible NodeType.text cs := by
  intro h
  exact absurd h.1 (by decide)

theorem suffix_cons_ne {i j : Nat} {p a b : Ptr} (hij : i ≠ j) (h1 : (i :: p) <:+ a)
    (h2 : a <:+ b) (h3 : (j :: p) <:+ b) : False := by
  have := suffix_same_length (h1.trans h2) h3 (by simp)
  exact hij (List.cons.inj this).1

theorem visitsSpecList_below (ns : List Node)
    (ih : ∀ x ∈ ns, ∀ (p : Ptr), ∀ y1 ∈ visitsSpec p x, collapsible y1.2.type y1.2.children →
      ∀ y2 ∈ visitsSpec p x, y1.1 <:+ y2.1 →
        y2.1 = y1.1 ∨ (y2.1 = 0 :: y1.1 ∧ y2.2 = xmlNewDocText (nodesText y1.2.children))) :
    ∀ (p : Ptr) (i : Nat), ∀ y1 ∈ visitsSpecList p i ns,
      collapsible y1.2.type y1.2.children →
      ∀ y2 ∈ visitsSpecList p i ns, y1.1 <:+ y2.1 →
        y2.1 = y1.1 ∨ (y2.1 = 0 :: y1.1 ∧ y2.2 = xmlNewDocText (nodesText y1.2.children)) := by
  induction ns with
  | nil => intro p i y1 h1; simp [visitsSpecList] at h1
  | cons n ns ihl =>
    intro p i y1 h1 hc y2 h2 hs
    simp only [visitsSpecList, List.mem_append] at h1 h2
    rcases h1 with h1 | h1 <;> rcases h2 with h2 | h2
    · exact ih n (List.mem_cons_self _ _) _ y1 h1 hc y2 h2 hs
    · exfalso
      obtain ⟨j, hj, hjs⟩ := mem_visitsSpecList_suffix ns p (i + 1) y2 h2
      exact suffix_cons_ne (by omega : i ≠ j) (mem_visitsSpec_suffix n _ y1 h1) hs hjs
    · exfalso
      obtain ⟨j, hj, hjs⟩ := mem_visitsSpecList_suffix ns p (i + 1) y1 h1
      exact suffix_cons_ne (by omega : j ≠ i) hjs hs (mem_visitsSpec_suffix n _ y2 h2)
    · exact ihl (fun x hx => ih x (List.mem_cons_of_mem _ hx)) p (i + 1) y1 h1 hc y2 h2 hs

theorem visitsSpec_below (n : Node) :
    ∀ (p : Ptr), ∀ y1 ∈ visitsSpec p n, collapsible y1.2.type y1.2.children →
      ∀ y2 ∈ visitsSpec p n, y1.1 <:+ y2.1 →
        y2.1 = y1.1 ∨ (y2.1 = 0 :: y1.1 ∧ y2.2 = xmlNewDocText (nodesText y1.2.children)) := by
  induction n using Node.induct with
  | h t nm c l cs ih =>
    intro p y1 h1 hc y2 h2 hs
    rw [visitsSpec_mk, List.mem_cons] at h1 h2
    rcases h1 with h1 | h1
    · rw [h1] at hc ⊢
      simp only [Node.type, Node.children] at hc ⊢
      rw [if_pos hc, List.mem_singleton] at h2
      rcases h2 with h2 | h2
      · left; rw [h2]
      · right; rw [h2]; exact ⟨rfl, rfl⟩
    · by_cases hcol : collapsible t cs
      · rw [if_pos hcol, List.mem_singleton] at h1
        rw [h1] at hc
        exact absurd hc (not_collapsible_text _)
      · rw [if_neg hcol] at h1 h2
        rcases h2 with h2 | h2
        · exfalso
          obtain ⟨j, _, hjs⟩ := mem_visitsSpecList_suffix cs p 0 y1 h1
          rw [h2] at hs
          have := (hjs.trans hs).length_le
          simp at this
        · exact visitsSpecList_below cs ih p 0 y1 h1 hc y2 h2 hs

/-! ## The walk of a subtree without entity content, summed up -/

theorem walk_summary (cfg : Config) (f : List Byte) (dn : Node) (l : List Node)
    (root : Node) (out : List Byte) (h : noEntityContent root = true) :
    ∃ k st', (∀ m, processSubtree cfg f (k + m) (some [l.length])
        ⟨dn.setChildren (l ++ [root]), out, []⟩ = some st') ∧
      st'.doc = dn.setChildren (l ++ [walked cfg root]) ∧
      st'.log.map (fun v => (v.ptr, v.node)) = visitsSpec [l.length] root := by
  obtain ⟨k, hk⟩ := processSubtree_refines cfg f dn l root out [] h
  refine ⟨k, _, hk, ?_, ?_⟩
  · simp only [refNode_fst]
  · have := refNode_visits cfg f (lineOf root 0) root [l.length] out []
    simpa using this

theorem getNode_walked_doc (cfg : Config) (dn : Node) (l : List Node) (root : Node)
    (y : Ptr × Node) (hy : y ∈ visitsSpec [l.length] root) :
    getNode (dn.setChildren (l ++ [walked cfg root])) y.1 = some (walked cfg y.2) := by
  have := getNode_walked cfg root [⟨dn, l, []⟩] y (by simpa [ctxPtr] using hy)
  simpa [plug] using this

theorem mem_visitsSpec_of_log (log : List Visit) (p : Ptr) (n : Node)
    (h : log.map (fun v => (v.ptr, v.node)) = visitsSpec p n) (v : Visit) (hv : v ∈ log) :
    (v.ptr, v.node) ∈ visitsSpec p n := by
  rw [← h]
  exact List.mem_map.2 ⟨v, hv, rfl⟩

/-! ## The nodes of the walked tree, by kind -/

theorem walked_type (cfg : Config) (n : Node) : (walked cfg n).type = n.type := by
  cases n with
  | mk t nm c l cs =>
    simp only [walked]
    split
    · rfl
    · split <;> rfl

theorem walked_text_content (cfg : Config) (n : Node) (h : n.type = NodeType.text) :
    (walked cfg n).content = textAfter cfg n.content := by
  cases n with
  | mk t nm c l cs =>
    simp only [Node.type] at h
    subst h
    simp only [walked, if_neg (not_collapsible_text cs), if_true, Node.content]

theorem walked_element_children (cfg : Config) (n : Node) (h : n.type = NodeType.element)
    (hs : scanChildren n.children = true) :
    (n.children = [] ∧ (walked cfg n).children = []) ∨
    (n.children ≠ [] ∧ (walked cfg n).children =
      [Node.mk NodeType.text (lit "text") (textAfter cfg (nodesText n.children)) 0 []]) := by
  cases n with
  | mk t nm c l cs =>
    simp only [Node.type, Node.children] at h hs ⊢
    subst h
    cases cs with
    | nil =>
      left
      refine ⟨rfl, ?_⟩
      have hn : ¬ collapsible NodeType.element [] := by
        intro hc
        exact absurd hc.2.1 (by decide)
      simp only [walked, if_neg hn]
      rfl
    | cons x xs =>
      right
      refine ⟨by simp, ?_⟩
      have hc : collapsible NodeType.element (x :: xs) := ⟨rfl, rfl, hs⟩
      simp only [walked, if_pos hc, Node.children]

theorem visitsSpecList_collapse_child (ns : List Node)
    (ih : ∀ x ∈ ns, ∀ (p : Ptr), ∀ y ∈ visitsSpec p x, collapsible y.2.type y.2.children →
      (0 :: y.1, xmlNewDocText (nodesText y.2.children)) ∈ visitsSpec p x) :
    ∀ (p : Ptr) (i : Nat), ∀ y ∈ visitsSpecList p i ns, collapsible y.2.type y.2.children →
      (0 :: y.1, xmlNewDocText (nodesText y.2.children)) ∈ visitsSpecList p i ns := by
  induction ns with
  | nil => intro p i y h; simp [visitsSpecList] at h
  | cons n ns ihl =>
    intro p i y h hc
    simp only [visitsSpecList, List.mem_append] at h ⊢
    rcases h with h | h
    · exact Or.inl (ih n (List.mem_cons_self _ _) _ y h hc)
    · exact Or.inr (ihl (fun x hx => ih x (List.mem_cons_of_mem _ hx)) p (i + 1) y h hc)

theorem visitsSpec_collapse_child (n : Node) :
    ∀ (p : Ptr), ∀ y ∈ visitsSpec p n, collapsible y.2.type y.2.children →
      (0 :: y.1, xmlNewDocText (nodesText y.2.children)) ∈ visitsSpec p n := by
  induction n using Node.induct with
  | h t nm c l cs ih =>
    intro p y h hc
    rw [visitsSpec_mk, List.mem_cons] at h
    rw [visitsSpec_mk]
    rcases h with h | h
    · rw [h] at hc ⊢
      simp only [Node.type, Node.children] at hc ⊢
      rw [if_pos hc]
      simp
    · by_cases hcol : collapsible t cs
      · rw [if_pos hcol, List.mem_singleton] at h
        rw [h] at hc
        exact absurd hc (not_collapsible_text _)
      · rw [if_neg hcol] at h ⊢
        exact List.mem_cons_of_mem _ (visitsSpecList_collapse_child cs ih p 0 y h hc)

theorem mem_log_of_visitsSpec (log : List Visit) (p : Ptr) (n : Node)
    (h : log.map (fun v => (v.ptr, v.node)) = visitsSpec p n) (y : Ptr × Node)
    (hy : y ∈ visitsSpec p n) : ∃ v ∈ log, v.ptr = y.1 ∧ v.node = y.2 := by
  rw [← h] at hy
  obtain ⟨v, hv, e⟩ := List.mem_map.1 hy
  exact ⟨v, hv, by rw [← e], by rw [← e]⟩

theorem log_typed_of_visitsSpec (cfg : Config) (log : List Visit) (p : Ptr) (n : Node)
    (h : log.map (fun v => (v.ptr, v.node)) = visitsSpec p n) :
    log.map (fun v => (v.ptr, v.node.type)) = preorder p (walked cfg n) := by
  rw [← visitsSpec_preorder cfg n p, ← h, List.map_map]
  rfl

theorem log_nodup_of_visitsSpec (log : List Visit) (p : Ptr) (n : Node)
    (h : log.map (fun v => (v.ptr, v.node)) = visitsSpec p n) :
    (log.map Visit.ptr).Nodup := by
  have h2 := nodup_visitsSpec n p
  rw [← h, List.map_map] at h2
  exact h2

theorem getNode_last_child (dn : Node) (l : List Node) (x : Node) :
    getNode (dn.setChildren (l ++ [x])) [l.length] = some x := by
  have := getNode_plug [⟨dn, l, []⟩] x
  simpa [plug, ctxPtr] using this

/-! ## The loop at an EntityDeclaration and at an EntityReference -/

theorem walkLoop_entityDecl_leaf (cfg : Config) (f : List Byte) (fuel : Nat) (node : Ptr)
    (line : Int) (cur : Ptr) (st : State) (nd c : Node)
    (hn : getNode st.doc node = some nd) (hc : getNode st.doc cur = some c)
    (ht : c.type = NodeType.entityDecl) (hch : c.children = []) :
    walkLoop cfg f (fuel + 1) node line cur st =
      some { doc := st.doc, out := st.out,
             log := st.log ++ [⟨cur, c, if nd.type = NodeType.element then nd.line else line⟩] } := by
  have h1 : c.type ≠ NodeType.text := by rw [ht]; decide
  have h2 : c.type ≠ NodeType.element := by rw [ht]; decide
  have h3 : c.type ≠ NodeType.entityRef := by rw [ht]; decide
  have hch0 : getNode st.doc (0 :: cur) = none := by
    simp [getNode, hc, hch]
  have hadv : advance st.doc node cur = some Advance.ret := by
    simp [advance, hc, childrenPtr, hch0, ht]
  simp only [walkLoop, hn, processNodeAt, hc, processNode_other cfg f _ c st.out h1 h2,
    setNode_getNode_self st.doc cur c hc, if_neg h3, hadv]

theorem walkLoop_entityDecl_descend (cfg : Config) (f : List Byte) (fuel : Nat) (node : Ptr)
    (line : Int) (cur : Ptr) (st : State) (nd c : Node)
    (hn : getNode st.doc node = some nd) (hc : getNode st.doc cur = some c)
    (ht : c.type = NodeType.entityDecl) (hch : c.children ≠ []) :
    walkLoop cfg f (fuel + 1) node line cur st =
      if 0 :: cur = node then
        some { doc := st.doc, out := st.out,
               log := st.log ++
                 [⟨cur, c, if nd.type = NodeType.element then nd.line else line⟩] }
      else
        walkLoop cfg f fuel node (if nd.type = NodeType.element then nd.line else line)
          (0 :: cur)
          { doc := st.doc, out := st.out,
            log := st.log ++
              [⟨cur, c, if nd.type = NodeType.element then nd.line else line⟩] } := by
  have h1 : c.type ≠ NodeType.text := by rw [ht]; decide
  have h2 : c.type ≠ NodeType.element := by rw [ht]; decide
  have h3 : c.type ≠ NodeType.entityRef := by rw [ht]; decide
  obtain ⟨x, xs, hxs⟩ := List.exists_cons_of_ne_nil hch
  have hch0 : getNode st.doc (0 :: cur) = some x := by
    simp [getNode, hc, hxs]
  have hadv : advance st.doc node cur = some (Advance.moveTo (some (0 :: cur))) := by
    simp [advance, hc, childrenPtr, hch0, ht]
  simp only [walkLoop, hn, processNodeAt, hc, processNode_other cfg f _ c st.out h1 h2,
    setNode_getNode_self st.doc cur c hc, if_neg h3, hadv]

theorem advance_entityRef (d : Node) (node cur : Ptr) (c : Node)
    (hc : getNode d cur = some c) (ht : c.type = NodeType.entityRef) :
    advance d node cur =
      some (Advance.moveTo
        (if (nextPtr d cur).isSome then nextPtr d cur else climb d node cur)) := by
  simp only [advance, hc, ht]
  rw [if_neg (by simp), if_neg (by decide)]
  split <;> rfl

theorem walkLoop_entityRef (cfg : Config) (f : List Byte) (fuel : Nat) (node : Ptr)
    (line : Int) (cur : Ptr) (st st2 : State) (nd c c2 : Node)
    (hn : getNode st.doc node = some nd) (hc : getNode st.doc cur = some c)
    (ht : c.type = NodeType.entityRef)
    (hnest : processSubtree cfg f fuel (childrenPtr st.doc cur)
      { doc := st.doc, out := st.out,
        log := st.log ++
          [⟨cur, c, if nd.type = NodeType.element then nd.line else line⟩] } = some st2)
    (hc2 : getNode st2.doc cur = some c2) (ht2 : c2.type = NodeType.entityRef) :
    walkLoop cfg f (fuel + 1) node line cur st =
      match (if (nextPtr st2.doc cur).isSome then nextPtr st2.doc cur
             else climb st2.doc node cur) with
      | none => some st2
      | some q =>
        if q = node then some st2
        else walkLoop cfg f fuel node (if nd.type = NodeType.element then nd.line else line)
          q st2 := by
  have h1 : c.type ≠ NodeType.text := by rw [ht]; decide
  have h2 : c.type ≠ NodeType.element := by rw [ht]; decide
  simp only [walkLoop, hn, processNodeAt, hc, processNode_other cfg f _ c st.out h1 h2,
    setNode_getNode_self st.doc cur c hc, if_pos ht, hnest,
    advance_entityRef st2.doc node cur c2 hc2 ht2]
  split <;> simp_all

theorem walkLoop_entityRef_decl (cfg : Config) (f : List Byte) (fuel : Nat) (node : Ptr)
    (line : Int) (cur : Ptr) (st : State) (nd c d : Node) (rest : List Node)
    (hn : getNode st.doc node = some nd) (hc : getNode st.doc cur = some c)
    (ht : c.type = NodeType.entityRef) (hch : c.children = d :: rest)
    (hd : d.type = NodeType.entityDecl) (hdc : d.children = []) :
    walkLoop cfg f (fuel + 3) node line cur st =
      match (if (nextPtr st.doc cur).isSome then nextPtr st.doc cur
             else climb st.doc node cur) with
      | none =>
        some { doc := st.doc, out := st.out,
               log := st.log ++
                 [⟨cur, c, if nd.type = NodeType.element then nd.line else line⟩] ++
                 [⟨0 :: cur, d, 0⟩] }
      | some q =>
        if q = node then
          some { doc := st.doc, out := st.out,
                 log := st.log ++
                   [⟨cur, c, if nd.type = NodeType.element then nd.line else line⟩] ++
                   [⟨0 :: cur, d, 0⟩] }
        else
          walkLoop cfg f (fuel + 2) node (if nd.type = NodeType.element then nd.line else line)
            q
            { doc := st.doc, out := st.out,
              log := st.log ++
                [⟨cur, c, if nd.type = NodeType.element then nd.line else line⟩] ++
                [⟨0 :: cur, d, 0⟩] } := by
  have hch0 : getNode st.doc (0 :: cur) = some d := by
    simp [getNode, hc, hch]
  have hcp : childrenPtr st.doc cur = some (0 :: cur) := by
    simp [childrenPtr, hch0]
  have hdl : (if d.type = NodeType.element then d.line else (0 : Int)) = 0 := by
    rw [if_neg (by rw [hd]; decide)]
  have hnest : processSubtree cfg f (fuel + 2) (childrenPtr st.doc cur)
      { doc := st.doc, out := st.out,
        log := st.log ++
          [⟨cur, c, if nd.type = NodeType.element then nd.line else line⟩] } =
      some { doc := st.doc, out := st.out,
             log := st.log ++
               [⟨cur, c, if nd.type = NodeType.element then nd.line else line⟩] ++
               [⟨0 :: cur, d, 0⟩] } := by
    rw [hcp, processSubtree_succ_some]
    have := walkLoop_entityDecl_leaf cfg f fuel (0 :: cur) 0 (0 :: cur)
      { doc := st.doc, out := st.out,
        log := st.log ++
          [⟨cur, c, if nd.type = NodeType.element then nd.line else line⟩] } d d hch0 hch0 hd hdc
    rw [this, hdl]
  exact walkLoop_entityRef cfg f (fuel + 2) node line cur st _ nd c c hn hc ht hnest hc ht

/-! ## The first loop on a text of line feeds -/

theorem wrapInt_zero : wrapInt 0 = 0 := by
  unfold wrapInt
  omega

theorem not_mem_replicate_lf (k : Nat) : (0 : Byte) ∉ List.replicate k (10 : Byte) := by
  intro h
  exact absurd (List.eq_of_mem_replicate h) (by decide)

theorem length_fillLoop_replicate_lf (k : Nat) :
    (fillLoop (List.replicate k 10) []).length = 5 * k := by
  rw [fillLoop_eq_escapeSpec _ (not_mem_replicate_lf k), length_escapeSpec]
  simp only [List.length_replicate, List.count_replicate]
  rw [if_pos (by decide), if_neg (by decide)]
  omega

theorem new_len_replicate_lf (k : Nat) :
    new_len (List.replicate k 10) = wrapInt (5 * (k : Int)) := by
  have h := lenLoop_replicate_lf k 0
  rw [wrapInt_zero, Int.zero_add] at h
  exact h

/-! ## Claims on processString -/

/-- C1: in template mode the text printed between the msgid quotes (the buffer `new_line` as
printed by `%s`) is, for every raw text without NUL, the in-order concatenation over its bytes
of backslash-n-quote-LF-quote for a line feed, backslash-quote for a double quote, and the byte
itself otherwise. -/
theorem C1_escaping_rule (s : List Byte) (h : (0 : Byte) ∉ s) :
    str (new_line s) = escapeSpec s :=
  str_new_line s h

/-- C1 witness: the text He said "hi" LF Bye. -/
theorem C1_escaping_rule_witness :
    (0 : Byte) ∉ lit "He said \"hi\"\nBye" ∧
    str (new_line (lit "He said \"hi\"\nBye")) = escapeSpec (lit "He said \"hi\"\nBye") ∧
    escapeSpec (lit "He said \"hi\"\nBye") = lit "He said \\\"hi\\\"\\n\"\n\"Bye" :=
  ⟨by decide, C1_escaping_rule _ (by decide), by decide⟩

/-- C2: in EmitTemplate mode `processString` returns NULL and appends exactly one entry: the
location comment with the alternate file name when configured (else the file name passed) and
the decimal line, the msgid line with the escaped text, the empty msgstr line and a blank line;
this for every raw text, the empty one included. -/
theorem C2_template_entry (cfg : Config) (s f : List Byte) (n : Int) (out : List Byte)
    (hmode : cfg.output_pot_file = true) (hs : (0 : Byte) ∉ s)
    (hf : (0 : Byte) ∉ locationName cfg f) :
    processString cfg s f n out =
      (none, out ++ (lit "#: " ++ (match cfg.alternate_file_name with
                                    | some a => a
                                    | none => f) ++ lit ":" ++ fmtInt n ++ lit "\n" ++
                     lit "msgid \"" ++ escapeSpec s ++ lit "\"\n" ++
                     lit "msgstr \"\"\n" ++ lit "\n")) :=
  processString_pot cfg s f n out hmode hs hf

/-- C2 witness: the empty text and a whitespace-only text, with and without an alternate file
name. -/
theorem C2_template_entry_witness :
    processString ⟨true, some (lit "alt.xml"), id⟩ [] (lit "doc.xml") 12 (lit "X") =
      (none, lit "X#: alt.xml:12\nmsgid \"\"\nmsgstr \"\"\n\n") ∧
    processString ⟨true, none, id⟩ (lit " \n") (lit "doc.xml") 3 [] =
      (none, lit "#: doc.xml:3\nmsgid \" \\n\"\n\"\"\nmsgstr \"\"\n\n") :=
  ⟨(C2_template_entry ⟨true, some (lit "alt.xml"), id⟩ [] (lit "doc.xml") 12 (lit "X") rfl
      (by decide) (by decide)).trans (by decide),
   (C2_template_entry ⟨true, none, id⟩ (lit " \n") (lit "doc.xml") 3 [] rfl
      (by decide) (by decide)).trans (by decide)⟩

/-! ## Claims on processNode -/

/-- C3: on an Element that has at least one child and whose every direct Element child is named
in the presentation element set, `processNode` leaves the element with exactly one child, a Text
node without children whose content is the concatenation, in document order, of the contents of
all Text nodes that were descendants of the element; nothing else of the element changes and
nothing is printed. -/
theorem C3_collapse_correct (cfg : Config) (f : List Byte) (line : Int) (e : Node)
    (out : List Byte) (ht : e.type = NodeType.element) (hc : e.children ≠ [])
    (hp : ∀ c ∈ e.children, c.type = NodeType.element → c.name ∈ presentation_elements) :
    ∃ t : Node, (processNode cfg f line e out).1.children = [t] ∧
      t.type = NodeType.text ∧ t.content = nodesText e.children ∧ t.children = [] ∧
      (processNode cfg f line e out).1 = e.setChildren [t] ∧
      (processNode cfg f line e out).2 = out := by
  refine ⟨xmlNewDocText (nodesText e.children), ?_⟩
  rw [processNode_element_collapse cfg f line e out ht hc ((scanChildren_iff _).2 hp)]
  cases e with
  | mk t nm c l cs => simp [Node.setChildren, Node.children, xmlNodeGetContent, xmlNewDocText,
      Node.type, Node.content]

/-- C3 witness: children Text "a ", Element accel with Text "K", Text " done" become the single
child Text "a K done". -/
theorem C3_collapse_correct_witness :
    ∃ t : Node, (processNode ⟨false, none, id⟩ (lit "doc.xml") 4
        (Node.mk NodeType.element (lit "para") [] 4
          [Node.mk NodeType.text (lit "text") (lit "a ") 0 [],
           Node.mk NodeType.element (lit "accel") [] 4
             [Node.mk NodeType.text (lit "text") (lit "K") 0 []],
           Node.mk NodeType.text (lit "text") (lit " done") 0 []]) []).1.children = [t] ∧
      t.type = NodeType.text ∧ t.content = lit "a K done" ∧ t.children = [] := by
  obtain ⟨t, h1, h2, h3, h4, _, _⟩ := C3_collapse_correct ⟨false, none, id⟩ (lit "doc.xml") 4
    (Node.mk NodeType.element (lit "para") [] 4
      [Node.mk NodeType.text (lit "text") (lit "a ") 0 [],
       Node.mk NodeType.element (lit "accel") [] 4
         [Node.mk NodeType.text (lit "text") (lit "K") 0 []],
       Node.mk NodeType.text (lit "text") (lit " done") 0 []]) [] rfl
    (by simp [Node.children]) (by decide)
  exact ⟨t, h1, h2, h3.trans (by decide), h4⟩

/-- C4: on an Element that has no children, or that has a direct Element child whose name is not
in the presentation element set, `processNode` changes nothing: the element, with its whole
subtree, and `stdout` are as before. -/
theorem C4_non_collapsible_guard (cfg : Config) (f : List Byte) (line : Int) (e : Node)
    (out : List Byte) (ht : e.type = NodeType.element)
    (hc : e.children = [] ∨
      ∃ c ∈ e.children, c.type = NodeType.element ∧ c.name ∉ presentation_elements) :
    processNode cfg f line e out = (e, out) := by
  apply processNode_element_keep cfg f line e out ht
  rcases hc with hc | ⟨c, hm, hct, hcn⟩
  · exact Or.inl hc
  · right
    cases hs : scanChildren e.children with
    | false => rfl
    | true => exact absurd ((scanChildren_iff _).1 hs c hm hct) hcn

/-- C4 witness: an element with one non-presentational Element child and one Text child, and an
element without children. -/
theorem C4_non_collapsible_guard_witness :
    processNode ⟨true, none, id⟩ (lit "doc.xml") 2
        (Node.mk NodeType.element (lit "sect") [] 2
          [Node.mk NodeType.element (lit "para") [] 3 [],
           Node.mk NodeType.text (lit "text") (lit "tail") 0 []]) (lit "X") =
      (Node.mk NodeType.element (lit "sect") [] 2
          [Node.mk NodeType.element (lit "para") [] 3 [],
           Node.mk NodeType.text (lit "text") (lit "tail") 0 []], lit "X") ∧
    processNode ⟨true, none, id⟩ (lit "doc.xml") 2
        (Node.mk NodeType.element (lit "para") [] 3 []) [] =
      (Node.mk NodeType.element (lit "para") [] 3 [], []) :=
  ⟨C4_non_collapsible_guard _ _ _ _ _ rfl
      (Or.inr ⟨Node.mk NodeType.element (lit "para") [] 3 [], by simp [Node.children],
        rfl, by decide⟩),
   C4_non_collapsible_guard _ _ _ _ _ rfl (Or.inl rfl)⟩

/-- C5: for every Element, running the element branch of `processNode` twice gives the same
node as running it once; on an element whose only child is a Text node (without children) the
element ends with one Text child of identical content, and on an already collapsed element
(whose only child is the Text node a collapse creates) nothing changes at all. -/
theorem C5_collapse_idempotent (cfg : Config) (f : List Byte) (line : Int) (e : Node)
    (out : List Byte) (ht : e.type = NodeType.element) :
    processNode cfg f line (processNode cfg f line e out).1 out = processNode cfg f line e out ∧
    (∀ t : Node, e.children = [t] → t.type = NodeType.text → t.children = [] →
      ∃ u : Node, (processNode cfg f line e out).1.children = [u] ∧
        u.type = NodeType.text ∧ u.content = t.content ∧ u.children = []) ∧
    (∀ c : List Byte, e.children = [xmlNewDocText c] →
      processNode cfg f line e out = (e, out)) := by
  have key : ∀ c : List Byte, ∀ e2 : Node, e2.type = NodeType.element →
      e2.children = [xmlNewDocText c] → processNode cfg f line e2 out = (e2, out) := by
    intro c e2 ht2 hc2
    rw [processNode_element_collapse cfg f line e2 out ht2 (by simp [hc2])
      (by rw [hc2]; rfl)]
    cases e2 with
    | mk t nm c2 l cs =>
      simp only [Node.children] at hc2
      subst hc2
      simp [Node.setChildren, xmlNodeGetContent, Node.children, nodesText,
        nodeText_xmlNewDocText]
  refine ⟨?_, ?_, fun c hc => key c e ht hc⟩
  · by_cases hcol : e.children ≠ [] ∧ scanChildren e.children = true
    · rw [processNode_element_collapse cfg f line e out ht hcol.1 hcol.2]
      apply key (xmlNodeGetContent e)
      · cases e with
        | mk t nm c l cs => exact ht
      · cases e with
        | mk t nm c l cs => rfl
    · have hk : e.children = [] ∨ scanChildren e.children = false := by
        by_cases h1 : e.children = []
        · exact Or.inl h1
        · right
          cases hs : scanChildren e.children with
          | false => rfl
          | true => exact absurd ⟨h1, hs⟩ hcol
      rw [processNode_element_keep cfg f line e out ht hk]
      exact processNode_element_keep cfg f line e out ht hk
  · intro t hc htt htc
    refine ⟨xmlNewDocText t.content, ?_, rfl, rfl, rfl⟩
    rw [processNode_element_collapse cfg f line e out ht (by simp [hc])
      (by rw [hc]; simp [scanChildren, htt])]
    cases e with
    | mk t0 nm c l cs =>
      simp only [Node.children] at hc
      subst hc
      have h1 : nodesText [t] = t.content := by
        simp [nodesText, nodeText_of_text t htt, htc]
      show [xmlNewDocText (nodesText [t])] = [xmlNewDocText t.content]
      rw [h1]

/-- C5 witness: an element whose only child is a Text node. -/
theorem C5_collapse_idempotent_witness :
    processNode ⟨true, none, id⟩ (lit "doc.xml") 2
      (processNode ⟨true, none, id⟩ (lit "doc.xml") 2
        (Node.mk NodeType.element (lit "para") [] 3
          [Node.mk NodeType.text (lit "text") (lit "tail") 7 []]) []).1 [] =
    processNode ⟨true, none, id⟩ (lit "doc.xml") 2
        (Node.mk NodeType.element (lit "para") [] 3
          [Node.mk NodeType.text (lit "text") (lit "tail") 7 []]) [] :=
  (C5_collapse_idempotent ⟨true, none, id⟩ (lit "doc.xml") 2
    (Node.mk NodeType.element (lit "para") [] 3
      [Node.mk NodeType.text (lit "text") (lit "tail") 7 []]) [] rfl).1

/-! ## Claims on processSubtree and processDocument -/

/-- C6 (as stated, refuted): in the sample document, which has no EntityDeclaration, the
paragraph after the EntityReference and its Text child are each passed to `processNode`
twice (once by the sub-traversal of the EntityReference, which runs on into the siblings of
the EntityReference, once by the outer traversal), and the children of the first paragraph
(the Text "a ", the accel element and its Text "K") are never passed: the collapse has
replaced them by the new Text "a K".  So no run visits every node once, and no run visits the
nodes of the tree in pre-order. -/
theorem C6_counterexample :
    (processSubtree potConfig (lit "doc.xml") 20 (some [0]) ⟨docRefWithText, [], []⟩).map
        (fun st => st.log.map (fun v => (v.ptr, v.node.type, v.node.content))) =
      some [([0], NodeType.element, []), ([0, 0], NodeType.element, []),
            ([0, 0, 0], NodeType.text, lit "a K"), ([1, 0], NodeType.entityRef, []),
            ([0, 1, 0], NodeType.text, lit "in1"), ([1, 1, 0], NodeType.text, lit "in2"),
            ([2, 0], NodeType.element, []), ([0, 2, 0], NodeType.text, lit "y"),
            ([2, 0], NodeType.element, []), ([0, 2, 0], NodeType.text, lit "y")] ∧
    (¬ ∃ fuel st', processSubtree potConfig (lit "doc.xml") fuel (some [0])
        ⟨docRefWithText, [], []⟩ = some st' ∧ (st'.log.map Visit.ptr).Nodup) ∧
    (¬ ∃ fuel st', processSubtree potConfig (lit "doc.xml") fuel (some [0])
        ⟨docRefWithText, [], []⟩ = some st' ∧
        st'.log.map (fun v => (v.ptr, v.node.type)) =
          preorder [0] rootRefWithText) := by
  have hs : (processSubtree potConfig (lit "doc.xml") 20 (some [0])
      ⟨docRefWithText, [], []⟩).isSome = true := by decide!
  obtain ⟨s, hs⟩ := Option.isSome_iff_exists.1 hs
  have hev : (processSubtree potConfig (lit "doc.xml") 20 (some [0])
      ⟨docRefWithText, [], []⟩).map (fun st => st.log.map (fun v => (v.ptr, v.node.type))) =
      some [([0], NodeType.element), ([0, 0], NodeType.element), ([0, 0, 0], NodeType.text),
            ([1, 0], NodeType.entityRef), ([0, 1, 0], NodeType.text),
            ([1, 1, 0], NodeType.text), ([2, 0], NodeType.element), ([0, 2, 0], NodeType.text),
            ([2, 0], NodeType.element), ([0, 2, 0], NodeType.text)] := by decide!
  rw [hs] at hev
  simp only [Option.map_some', Option.some.injEq] at hev
  refine ⟨by decide!, ?_, ?_⟩
  · rintro ⟨fuel, st', h, hnd⟩
    have e := processSubtree_fuel_unique _ _ _ _ _ _ _ _ h hs
    subst e
    have h2 : st'.log.map Visit.ptr =
        (st'.log.map (fun v => (v.ptr, v.node.type))).map Prod.fst := by
      rw [List.map_map]; rfl
    rw [h2, hev] at hnd
    revert hnd
    decide
  · rintro ⟨fuel, st', h, heq⟩
    have e := processSubtree_fuel_unique _ _ _ _ _ _ _ _ h hs
    subst e
    rw [hev] at heq
    revert heq
    decide

/-- C6 (amended): for every tree without EntityDeclaration and without EntityReference that
has children, whose root has no next sibling, `processSubtree` started at the root returns
(with any fuel above some bound, and the same state), and the sequence of nodes passed to
`processNode` is exactly the pre-order listing of the tree as the collapses have left it: each
node of that tree once, none twice, a parent before its children, siblings in document
order. -/
theorem C6_traversal_complete (cfg : Config) (f : List Byte) (dn : Node) (l : List Node)
    (root : Node) (out : List Byte) (hne : noEntityContent root = true) :
    ∃ (k : Nat) (st' : State) (root' : Node),
      (∀ m, processSubtree cfg f (k + m) (some [l.length])
        ⟨dn.setChildren (l ++ [root]), out, []⟩ = some st') ∧
      st'.doc = dn.setChildren (l ++ [root']) ∧
      st'.log.map (fun v => (v.ptr, v.node.type)) = preorder [l.length] root' ∧
      (st'.log.map Visit.ptr).Nodup := by
  obtain ⟨k, hk⟩ := processSubtree_refines cfg f dn l root out [] hne
  refine ⟨k, _, (refNode cfg f (lineOf root 0) [l.length] root out []).1, hk, rfl, ?_, ?_⟩
  · have := refNode_log cfg f (lineOf root 0) root [l.length] out []
    simpa using this
  · have h1 := refNode_log cfg f (lineOf root 0) root [l.length] out []
    have h2 := nodup_preorder (refNode cfg f (lineOf root 0) [l.length] root out []).1
      [l.length]
    simp only [List.map_nil, List.nil_append] at h1
    rw [← h1, List.map_map] at h2
    exact h2

/-- C6 witness: the sample document with empty and whitespace-only texts and a collapsible
paragraph. -/
theorem C6_traversal_complete_witness :
    (∃ (k : Nat) (st' : State) (root' : Node),
      (∀ m, processSubtree potConfig (lit "doc.xml") (k + m) (some [0])
        ⟨docEmptyTexts, [], []⟩ = some st') ∧
      st'.doc = sampleDoc [root'] ∧
      st'.log.map (fun v => (v.ptr, v.node.type)) = preorder [0] root' ∧
      (st'.log.map Visit.ptr).Nodup) ∧
    (processSubtree potConfig (lit "doc.xml") 20 (some [0]) ⟨docEmptyTexts, [], []⟩).map
        (fun st => (st.log.map (fun v => (v.ptr, v.node.type)),
                    (getNode st.doc [0]).map (preorder [0]))) =
      some ([([0], NodeType.element), ([0, 0], NodeType.text), ([1, 0], NodeType.element),
             ([0, 1, 0], NodeType.element), ([1, 1, 0], NodeType.text),
             ([2, 0], NodeType.element), ([0, 2, 0], NodeType.text)],
            some [([0], NodeType.element), ([0, 0], NodeType.text), ([1, 0], NodeType.element),
             ([0, 1, 0], NodeType.element), ([1, 1, 0], NodeType.text),
             ([2, 0], NodeType.element), ([0, 2, 0], NodeType.text)]) :=
  ⟨C6_traversal_complete potConfig (lit "doc.xml") (sampleDoc []) []
      (sampleElem "book" 1
        [sampleText "", sampleElem "sect" 2 [sampleElem "hr" 3 [], sampleText " \n"],
         sampleElem "para" 4 [sampleText "Press ", sampleElem "accel" 4 [sampleText "K"]]])
      [] (by decide), by decide!⟩

/-- C7 (as stated, refuted): an EntityDeclaration that has a child is descended into and the
later sibling of the declaration is visited afterwards; an EntityDeclaration without children
that is reached by the sub-traversal of an EntityReference ends only that sub-traversal, and the
later sibling of the EntityReference is visited afterwards.  In neither document does a run end
with the visit of the EntityDeclaration. -/
theorem C7_counterexample :
    (processSubtree potConfig (lit "doc.xml") 20 (some [0]) ⟨docDeclWithChild, [], []⟩).map
        (fun st => st.log.map (fun v => (v.ptr, v.node.type))) =
      some [([0], NodeType.element), ([0, 0], NodeType.entityDecl), ([0, 0, 0], NodeType.text),
            ([1, 0], NodeType.element), ([0, 1, 0], NodeType.text)] ∧
    (processSubtree potConfig (lit "doc.xml") 20 (some [0]) ⟨docRefToDecl, [], []⟩).map
        (fun st => st.log.map (fun v => (v.ptr, v.node.type))) =
      some [([0], NodeType.element), ([0, 0], NodeType.entityRef),
            ([0, 0, 0], NodeType.entityDecl),
            ([1, 0], NodeType.element), ([0, 1, 0], NodeType.text)] ∧
    (¬ ∃ fuel st', processSubtree potConfig (lit "doc.xml") fuel (some [0])
        ⟨docDeclWithChild, [], []⟩ = some st' ∧
        st'.log.getLast?.map (fun v => v.node.type) = some NodeType.entityDecl) ∧
    (¬ ∃ fuel st', processSubtree potConfig (lit "doc.xml") fuel (some [0])
        ⟨docRefToDecl, [], []⟩ = some st' ∧
        st'.log.getLast?.map (fun v => v.node.type) = some NodeType.entityDecl) := by
  have h1 : (processSubtree potConfig (lit "doc.xml") 20 (some [0])
      ⟨docDeclWithChild, [], []⟩).isSome = true := by decide!
  obtain ⟨s1, h1⟩ := Option.isSome_iff_exists.1 h1
  have e1 : (processSubtree potConfig (lit "doc.xml") 20 (some [0])
      ⟨docDeclWithChild, [], []⟩).map
        (fun st => st.log.getLast?.map (fun v => v.node.type)) = some (some NodeType.text) := by
    decide!
  have h2 : (processSubtree potConfig (lit "doc.xml") 20 (some [0])
      ⟨docRefToDecl, [], []⟩).isSome = true := by decide!
  obtain ⟨s2, h2⟩ := Option.isSome_iff_exists.1 h2
  have e2 : (processSubtree potConfig (lit "doc.xml") 20 (some [0])
      ⟨docRefToDecl, [], []⟩).map
        (fun st => st.log.getLast?.map (fun v => v.node.type)) = some (some NodeType.text) := by
    decide!
  rw [h1] at e1
  rw [h2] at e2
  simp only [Option.map_some', Option.some.injEq] at e1 e2
  refine ⟨by decide!, by decide!, ?_, ?_⟩
  · rintro ⟨fuel, st', h, hl⟩
    have e := processSubtree_fuel_unique _ _ _ _ _ _ _ _ h h1
    subst e
    rw [e1] at hl
    exact absurd hl (by decide)
  · rintro ⟨fuel, st', h, hl⟩
    have e := processSubtree_fuel_unique _ _ _ _ _ _ _ _ h h2
    subst e
    rw [e2] at hl
    exact absurd hl (by decide)

/-- C7 (amended): with the cursor `cur` of an invocation of `processSubtree` (started on
`node`) on the node `c`: (1) if `c` is an EntityDeclaration without children, the invocation
returns from that iteration: the node is passed to `processNode`, which changes nothing, and
the invocation visits nothing afterwards; (2) if `c` is an EntityDeclaration with children, the
node is passed to `processNode` and the loop goes on with the cursor on its first child, as for
any other node; (3) if `c` is an EntityReference and its sub-traversal returns, for whatever
reason, the invocation does not return with it: its loop goes on with the next sibling of the
reference, or with the node the climb finds; (4) in particular, if the first child of the
EntityReference is an EntityDeclaration without children, the sub-traversal passes that
declaration and returns, and the outer loop goes on after the reference. -/
theorem C7_entity_decl_returns (cfg : Config) (f : List Byte) (fuel : Nat) (node : Ptr)
    (line : Int) (cur : Ptr) (st : State) (nd c : Node)
    (hn : getNode st.doc node = some nd) (hc : getNode st.doc cur = some c) :
    (c.type = NodeType.entityDecl → c.children = [] →
      walkLoop cfg f (fuel + 1) node line cur st =
        some { doc := st.doc, out := st.out,
               log := st.log ++
                 [⟨cur, c, if nd.type = NodeType.element then nd.line else line⟩] }) ∧
    (c.type = NodeType.entityDecl → c.children ≠ [] →
      walkLoop cfg f (fuel + 1) node line cur st =
        if 0 :: cur = node then
          some { doc := st.doc, out := st.out,
                 log := st.log ++
                   [⟨cur, c, if nd.type = NodeType.element then nd.line else line⟩] }
        else
          walkLoop cfg f fuel node (if nd.type = NodeType.element then nd.line else line)
            (0 :: cur)
            { doc := st.doc, out := st.out,
              log := st.log ++
                [⟨cur, c, if nd.type = NodeType.element then nd.line else line⟩] }) ∧
    (c.type = NodeType.entityRef → ∀ (st2 : State) (c2 : Node),
      processSubtree cfg f fuel (childrenPtr st.doc cur)
        { doc := st.doc, out := st.out,
          log := st.log ++
            [⟨cur, c, if nd.type = NodeType.element then nd.line else line⟩] } = some st2 →
      getNode st2.doc cur = some c2 → c2.type = NodeType.entityRef →
      walkLoop cfg f (fuel + 1) node line cur st =
        match (if (nextPtr st2.doc cur).isSome then nextPtr st2.doc cur
               else climb st2.doc node cur) with
        | none => some st2
        | some q =>
          if q = node then some st2
          else walkLoop cfg f fuel node (if nd.type = NodeType.element then nd.line else line)
            q st2) ∧
    (c.type = NodeType.entityRef → ∀ (d : Node) (rest : List Node),
      c.children = d :: rest → d.type = NodeType.entityDecl → d.children = [] →
      walkLoop cfg f (fuel + 3) node line cur st =
        match (if (nextPtr st.doc cur).isSome then nextPtr st.doc cur
               else climb st.doc node cur) with
        | none =>
          some { doc := st.doc, out := st.out,
                 log := st.log ++
                   [⟨cur, c, if nd.type = NodeType.element then nd.line else line⟩] ++
                   [⟨0 :: cur, d, 0⟩] }
        | some q =>
          if q = node then
            some { doc := st.doc, out := st.out,
                   log := st.log ++
                     [⟨cur, c, if nd.type = NodeType.element then nd.line else line⟩] ++
                     [⟨0 :: cur, d, 0⟩] }
          else
            walkLoop cfg f (fuel + 2) node
              (if nd.type = NodeType.element then nd.line else line) q
              { doc := st.doc, out := st.out,
                log := st.log ++
                  [⟨cur, c, if nd.type = NodeType.element then nd.line else line⟩] ++
                  [⟨0 :: cur, d, 0⟩] }) :=
  ⟨fun ht hch => walkLoop_entityDecl_leaf cfg f fuel node line cur st nd c hn hc ht hch,
   fun ht hch => walkLoop_entityDecl_descend cfg f fuel node line cur st nd c hn hc ht hch,
   fun ht st2 c2 hnest hc2 ht2 =>
     walkLoop_entityRef cfg f fuel node line cur st st2 nd c c2 hn hc ht hnest hc2 ht2,
   fun ht d rest hch hd hdc =>
     walkLoop_entityRef_decl cfg f fuel node line cur st nd c d rest hn hc ht hch hd hdc⟩

/-- C7 witness: the EntityDeclaration below the EntityReference of the sample document ends
the invocation whose cursor is on it; the EntityDeclaration with a Text child is left for that
child; and after the EntityReference over a childless declaration the loop started on the book
goes on with the paragraph after the reference. -/
theorem C7_entity_decl_returns_witness :
    walkLoop potConfig (lit "doc.xml") 1 [0, 0, 0] 0 [0, 0, 0] ⟨docRefToDecl, [], []⟩ =
      some { doc := docRefToDecl, out := [],
             log := [⟨[0, 0, 0], Node.mk NodeType.entityDecl (lit "ent") [] 0 [], 0⟩] } ∧
    walkLoop potConfig (lit "doc.xml") 5 [0] 1 [0, 0] ⟨docDeclWithChild, [], []⟩ =
      walkLoop potConfig (lit "doc.xml") 4 [0] 1 [0, 0, 0]
        { doc := docDeclWithChild, out := [],
          log := [⟨[0, 0],
            Node.mk NodeType.entityDecl (lit "ent") [] 0 [sampleText "in"], 1⟩] } ∧
    walkLoop potConfig (lit "doc.xml") 5 [0] 1 [0, 0] ⟨docRefToDecl, [], []⟩ =
      walkLoop potConfig (lit "doc.xml") 4 [0] 1 [1, 0]
        { doc := docRefToDecl, out := [],
          log := [⟨[0, 0], Node.mk NodeType.entityRef (lit "ent") [] 0
                     [Node.mk NodeType.entityDecl (lit "ent") [] 0 []], 1⟩,
                  ⟨[0, 0, 0], Node.mk NodeType.entityDecl (lit "ent") [] 0 [], 0⟩] } ∧
    walkLoop potConfig (lit "doc.xml") 3 [0] 1 [0, 0] ⟨docRefToDecl, [], []⟩ =
      walkLoop potConfig (lit "doc.xml") 2 [0] 1 [1, 0]
        { doc := docRefToDecl, out := [],
          log := [⟨[0, 0], Node.mk NodeType.entityRef (lit "ent") [] 0
                     [Node.mk NodeType.entityDecl (lit "ent") [] 0 []], 1⟩,
                  ⟨[0, 0, 0], Node.mk NodeType.entityDecl (lit "ent") [] 0 [], 0⟩] } :=
  ⟨(C7_entity_decl_returns potConfig (lit "doc.xml") 0 [0, 0, 0] 0 [0, 0, 0]
      ⟨docRefToDecl, [], []⟩ (Node.mk NodeType.entityDecl (lit "ent") [] 0 [])
      (Node.mk NodeType.entityDecl (lit "ent") [] 0 []) rfl rfl).1 rfl rfl,
   (C7_entity_decl_returns potConfig (lit "doc.xml") 4 [0] 1 [0, 0]
      ⟨docDeclWithChild, [], []⟩
      (sampleElem "book" 1
        [Node.mk NodeType.entityDecl (lit "ent") [] 0 [sampleText "in"],
         sampleElem "para" 9 [sampleText "y"]])
      (Node.mk NodeType.entityDecl (lit "ent") [] 0 [sampleText "in"]) rfl rfl).2.1 rfl
      (List.cons_ne_nil _ _),
   (C7_entity_decl_returns potConfig (lit "doc.xml") 2 [0] 1 [0, 0]
      ⟨docRefToDecl, [], []⟩
      (sampleElem "book" 1
        [Node.mk NodeType.entityRef (lit "ent") [] 0
           [Node.mk NodeType.entityDecl (lit "ent") [] 0 []],
         sampleElem "para" 9 [sampleText "y"]])
      (Node.mk NodeType.entityRef (lit "ent") [] 0
        [Node.mk NodeType.entityDecl (lit "ent") [] 0 []]) rfl rfl).2.2.2 rfl
      (Node.mk NodeType.entityDecl (lit "ent") [] 0 []) [] rfl rfl rfl,
   (C7_entity_decl_returns potConfig (lit "doc.xml") 2 [0] 1 [0, 0]
      ⟨docRefToDecl, [], []⟩
      (sampleElem "book" 1
        [Node.mk NodeType.entityRef (lit "ent") [] 0
           [Node.mk NodeType.entityDecl (lit "ent") [] 0 []],
         sampleElem "para" 9 [sampleText "y"]])
      (Node.mk NodeType.entityRef (lit "ent") [] 0
        [Node.mk NodeType.entityDecl (lit "ent") [] 0 []]) rfl rfl).2.2.1 rfl
      { doc := docRefToDecl, out := [],
        log := [⟨[0, 0], Node.mk NodeType.entityRef (lit "ent") [] 0
                   [Node.mk NodeType.entityDecl (lit "ent") [] 0 []], 1⟩,
                ⟨[0, 0, 0], Node.mk NodeType.entityDecl (lit "ent") [] 0 [], 0⟩] }
      (Node.mk NodeType.entityRef (lit "ent") [] 0
        [Node.mk NodeType.entityDecl (lit "ent") [] 0 []])
      ((processSubtree_succ_some potConfig (lit "doc.xml") 1 [0, 0, 0] _).trans
        (walkLoop_entityDecl_leaf potConfig (lit "doc.xml") 0 [0, 0, 0] 0 [0, 0, 0] _
          (Node.mk NodeType.entityDecl (lit "ent") [] 0 [])
          (Node.mk NodeType.entityDecl (lit "ent") [] 0 []) rfl rfl rfl rfl))
      rfl rfl⟩

/-- C8: a walk started on a node of the document returns, and (a) in Translate mode it leaves
the output stream as it was; (b) in EmitTemplate mode the document-order concatenation of the
contents of all Text nodes of the tree is the same after the walk as before. -/
theorem C8_mode_exclusivity (cfg : Config) (f : List Byte) (start : Option Ptr) (st : State)
    (hstart : ∀ p, start = some p → (getNode st.doc p).isSome = true) :
    (∃ k st', ∀ m, processSubtree cfg f (k + m) start st = some st') ∧
    ∀ fuel st', processSubtree cfg f fuel start st = some st' →
      (cfg.output_pot_file = false → st'.out = st.out) ∧
      (cfg.output_pot_file = true → nodeText st'.doc = nodeText st.doc) := by
  refine ⟨processSubtree_terminates cfg f start st hstart, fun fuel st' h => ⟨?_, ?_⟩⟩
  · intro hmode
    refine (walk_preserves cfg f (fun s => s.out = st.out) ?_ fuel).1 start st st' rfl h
    intro line cur s s1 hI h1
    unfold processNodeAt at h1
    split at h1
    · simp at h1
    · simp at h1
      subst h1
      simp only []
      rw [processNode_translate_out cfg f line _ s.out hmode]
      exact hI
  · intro hmode
    refine (walk_preserves cfg f (fun s => nodeText s.doc = nodeText st.doc) ?_ fuel).1
      start st st' rfl h
    intro line cur s s1 hI h1
    unfold processNodeAt at h1
    split at h1
    · simp at h1
    · rename_i n hn
      simp at h1
      subst h1
      simp only []
      rw [nodeText_setNode s.doc cur n _ hn (processNode_pot_text cfg f line n s.out hmode)]
      exact hI

/-- C8 witness: the sample document with an EntityReference, walked in Translate mode and in
EmitTemplate mode. -/
theorem C8_mode_exclusivity_witness :
    (∃ k st', (∀ m, processSubtree trConfig (lit "doc.xml") (k + m) (some [0])
        ⟨docRefWithText, lit "X", []⟩ = some st') ∧ st'.out = lit "X") ∧
    (∃ k st', (∀ m, processSubtree potConfig (lit "doc.xml") (k + m) (some [0])
        ⟨docRefWithText, lit "X", []⟩ = some st') ∧
        nodeText st'.doc = lit "a Kin1in2y") := by
  have hv : ∀ p, some [0] = some p →
      (getNode (State.mk docRefWithText (lit "X") []).doc p).isSome = true := by
    intro p hp
    cases hp
    rfl
  constructor
  · obtain ⟨⟨k, st', h⟩, hall⟩ := C8_mode_exclusivity trConfig (lit "doc.xml") (some [0])
      ⟨docRefWithText, lit "X", []⟩ hv
    exact ⟨k, st', h, (hall (k + 0) st' (h 0)).1 rfl⟩
  · obtain ⟨⟨k, st', h⟩, hall⟩ := C8_mode_exclusivity potConfig (lit "doc.xml") (some [0])
      ⟨docRefWithText, lit "X", []⟩ hv
    exact ⟨k, st', h, ((hall (k + 0) st' (h 0)).2 rfl).trans (by decide)⟩

/-- C9 (code at the failing input): in the sample document the Text node x lies in the
paragraph of line 6, inside the section of line 5, inside the book of line 1 where the walk
starts; every call of `processNode` receives line 1 and the entry reads line 1. -/
theorem C9_line_of_start_node :
    (processDocument potConfig 20 (some docNestedLines) (lit "doc.xml") []).map
        (fun r => (r.1, r.2.1.map (fun v => (v.ptr, v.line)))) =
      some (headerSpec (lit "doc.xml") ++ lit "#: doc.xml:1\nmsgid \"x\"\nmsgstr \"\"\n\n",
            [([0], 1), ([0, 0], 1), ([0, 0, 0], 1), ([0, 0, 0, 0], 1)]) := by
  decide!

/-- C10: in EmitTemplate mode, for a document that is present, `processDocument` returns and
writes exactly the header block (with the alternate file name when configured, else the file
name), once and first, followed by one entry per call of `processNode` on a Text node, in the
order of the calls, with the line passed to the call and the text the node held; no such call
lacks its entry, whatever the text, and nothing else is written. -/
theorem C10_template_output (cfg : Config) (d : Node) (f out : List Byte)
    (hmode : cfg.output_pot_file = true) (hf : (0 : Byte) ∉ locationName cfg f)
    (hd : (0 : Byte) ∉ nodeText d) :
    (∃ k r, ∀ m, processDocument cfg (k + m) (some d) f out = some r) ∧
    ∀ fuel r, processDocument cfg fuel (some d) f out = some r →
      r.1 = out ++ headerSpec (locationName cfg f) ++
        (r.2.1.filter (fun v => v.node.type = NodeType.text)).flatMap
          (fun v => entrySpec (locationName cfg f) v.line v.node.content) := by
  refine ⟨processDocument_terminates cfg (some d) f out, fun fuel r h => ?_⟩
  unfold processDocument at h
  simp only [hmode, if_true] at h
  split at h
  · simp at h
  · rename_i st hst
    simp at h
    subst h
    have := processSubtree_pot_out cfg f fuel _ _ st (out ++ headerSpec (locationName cfg f))
      hmode hf hd (by simp [output_pot_header_eq cfg f out hf, entriesSpec]) hst
    exact this

/-- C10 witness: a document with an empty Text node, a whitespace-only Text node and a
collapsible paragraph. -/
theorem C10_template_output_witness :
    (∃ k r, (∀ m, processDocument potConfig (k + m) (some docEmptyTexts) (lit "doc.xml") [] =
        some r) ∧
      r.1 = [] ++ headerSpec (lit "doc.xml") ++
        (r.2.1.filter (fun v => v.node.type = NodeType.text)).flatMap
          (fun v => entrySpec (lit "doc.xml") v.line v.node.content)) ∧
    (processDocument potConfig 20 (some docEmptyTexts) (lit "doc.xml") []).map (fun r => r.1) =
      some (headerSpec (lit "doc.xml") ++
        lit "#: doc.xml:1\nmsgid \"\"\nmsgstr \"\"\n\n" ++
        lit "#: doc.xml:1\nmsgid \" \\n\"\n\"\"\nmsgstr \"\"\n\n" ++
        lit "#: doc.xml:1\nmsgid \"Press K\"\nmsgstr \"\"\n\n") := by
  constructor
  · obtain ⟨⟨k, r, h⟩, hall⟩ := C10_template_output potConfig docEmptyTexts (lit "doc.xml") []
      rfl (by decide) (by decide)
    exact ⟨k, r, h, hall (k + 0) r (h 0)⟩
  · decide!

/-! ## Claims on the walk as a whole -/

/-- C11 (as stated, refuted): in Translate mode with the lookup that brackets its argument,
the walk of the book with a childless EntityDeclaration before a paragraph stops at the
declaration, so the text y of the paragraph is never passed to `processNode` and stays y (the
lookup applied zero times); and in the book with an EntityReference that has a child, the text
y after the reference ends as the lookup of the lookup of y, which differs from the lookup
of y. -/
theorem C11_counterexample :
    (processSubtree trConfig (lit "doc.xml") 20 (some [0]) ⟨docDeclThenText, [], []⟩).map
        (fun st => (st.log.map (fun v => (v.ptr, v.node.type)),
                    (getNode st.doc [0, 1, 0]).map (fun n => (n.type, n.content)))) =
      some ([([0], NodeType.element), ([0, 0], NodeType.entityDecl)],
            some (NodeType.text, lit "y")) ∧
    trConfig.gettext (lit "y") ≠ lit "y" ∧
    (processSubtree trConfig (lit "doc.xml") 20 (some [0]) ⟨docRefSingle, [], []⟩).map
        (fun st => (getNode st.doc [0, 1, 0]).map (fun n => (n.type, n.content))) =
      some (some (NodeType.text, trConfig.gettext (trConfig.gettext (lit "y")))) ∧
    trConfig.gettext (trConfig.gettext (lit "y")) ≠ trConfig.gettext (lit "y") := by
  refine ⟨by decide!, by decide, by decide!, by decide⟩

/-- C11 (amended): in Translate mode, for every tree without EntityDeclaration and without
EntityReference that has children, whose root has no next sibling, `processSubtree` started at
the root returns, the nodes passed to `processNode` are the nodes of the resulting tree, each
passed once, and every Text node among them holds in the resulting tree the lookup of the text
it held when it was passed, the lookup applied once; for the Text child created by a collapse
that text is the flattened content of the collapsed element. -/
theorem C11_translation_once (cfg : Config) (f : List Byte) (dn : Node) (l : List Node)
    (root : Node) (out : List Byte) (hmode : cfg.output_pot_file = false)
    (hne : noEntityContent root = true) :
    ∃ (k : Nat) (st' : State),
      (∀ m, processSubtree cfg f (k + m) (some [l.length])
        ⟨dn.setChildren (l ++ [root]), out, []⟩ = some st') ∧
      (∃ root', getNode st'.doc [l.length] = some root' ∧
        st'.log.map (fun v => (v.ptr, v.node.type)) = preorder [l.length] root') ∧
      (st'.log.map Visit.ptr).Nodup ∧
      (∀ v ∈ st'.log, v.node.type = NodeType.text →
        ∃ fn, getNode st'.doc v.ptr = some fn ∧ fn.type = NodeType.text ∧
          fn.content = cfg.gettext v.node.content) ∧
      (∀ v ∈ st'.log, v.node.type = NodeType.element → v.node.children ≠ [] →
        scanChildren v.node.children = true →
        ∃ w ∈ st'.log, w.ptr = 0 :: v.ptr ∧ w.node.type = NodeType.text ∧
          w.node.content = xmlNodeGetContent v.node) := by
  obtain ⟨k, st', hrun, hdoc, hlog⟩ := walk_summary cfg f dn l root out hne
  refine ⟨k, st', hrun, ⟨walked cfg root, ?_, log_typed_of_visitsSpec cfg _ _ _ hlog⟩,
    log_nodup_of_visitsSpec _ _ _ hlog, ?_, ?_⟩
  · rw [hdoc]
    exact getNode_last_child dn l _
  · intro v hv ht
    have hm := mem_visitsSpec_of_log _ _ _ hlog v hv
    refine ⟨walked cfg v.node, ?_, ?_, ?_⟩
    · rw [hdoc]
      exact getNode_walked_doc cfg dn l root _ hm
    · rw [walked_type, ht]
    · rw [walked_text_content cfg _ ht]
      simp [textAfter, hmode]
  · intro v hv ht hc hs
    have hm := mem_visitsSpec_of_log _ _ _ hlog v hv
    have hcol : collapsible v.node.type v.node.children := by
      refine ⟨ht, ?_, hs⟩
      cases hcs : v.node.children with
      | nil => exact absurd hcs hc
      | cons x xs => rfl
    obtain ⟨w, hw, hp, hn⟩ := mem_log_of_visitsSpec _ _ _ hlog _
      (visitsSpec_collapse_child root _ (v.ptr, v.node) hm hcol)
    refine ⟨w, hw, hp, ?_, ?_⟩
    · rw [hn]; rfl
    · rw [hn]; rfl

/-- C11 witness: the sample document with empty and whitespace-only texts and a collapsible
paragraph, in Translate mode with the lookup that brackets its argument; the three Text nodes
of the resulting tree hold the bracketed texts. -/
theorem C11_translation_once_witness :
    (∃ (k : Nat) (st' : State),
      (∀ m, processSubtree trConfig (lit "doc.xml") (k + m) (some [0])
        ⟨docEmptyTexts, [], []⟩ = some st') ∧
      (∀ v ∈ st'.log, v.node.type = NodeType.text →
        ∃ fn, getNode st'.doc v.ptr = some fn ∧ fn.type = NodeType.text ∧
          fn.content = trConfig.gettext v.node.content)) ∧
    (processSubtree trConfig (lit "doc.xml") 20 (some [0]) ⟨docEmptyTexts, [], []⟩).map
        (fun st => ([[0, 0], [1, 1, 0], [0, 2, 0]].map
          (fun q => (getNode st.doc q).map Node.content))) =
      some [some (lit "[]"), some (lit "[ \n]"), some (lit "[Press K]")] := by
  refine ⟨?_, by decide!⟩
  obtain ⟨k, st', h1, _, _, h4, _⟩ :=
    C11_translation_once trConfig (lit "doc.xml") (sampleDoc []) []
      (sampleElem "book" 1
        [sampleText "", sampleElem "sect" 2 [sampleElem "hr" 3 [], sampleText " \n"],
         sampleElem "para" 4 [sampleText "Press ", sampleElem "accel" 4 [sampleText "K"]]])
      [] rfl (by decide)
  exact ⟨k, st', h1, h4⟩

/-- C12 (the code leaves the starting subtree): started on a root element that is followed by
a comment, `processSubtree` passes the comment to `processNode` after the root and its text;
started on the only child of an EntityReference, as the nested sub-traversal is, it goes on
with the paragraph after the reference and the text of that paragraph; in the walk of the
whole document that paragraph and its text are therefore passed twice, and in Translate mode
the text ends as the lookup of its lookup. -/
theorem C12_walk_leaves_subtree :
    (processSubtree trConfig (lit "doc.xml") 20 (some [0]) ⟨docRootThenComment, [], []⟩).map
        (fun st => st.log.map (fun v => (v.ptr, v.node.type, v.node.content))) =
      some [([0], NodeType.element, []), ([0, 0], NodeType.text, lit "x"),
            ([1], NodeType.other, lit "c")] ∧
    (processSubtree trConfig (lit "doc.xml") 20 (some [0, 0, 0]) ⟨docRefSingle, [], []⟩).map
        (fun st => st.log.map (fun v => (v.ptr, v.node.type, v.node.content))) =
      some [([0, 0, 0], NodeType.text, lit "in"), ([1, 0], NodeType.element, []),
            ([0, 1, 0], NodeType.text, lit "y")] ∧
    (processSubtree trConfig (lit "doc.xml") 20 (some [0]) ⟨docRefSingle, [], []⟩).map
        (fun st => (st.log.map (fun v => (v.ptr, v.node.type, v.node.content)),
                    (getNode st.doc [0, 1, 0]).map Node.content)) =
      some ([([0], NodeType.element, []), ([0, 0], NodeType.entityRef, []),
             ([0, 0, 0], NodeType.text, lit "in"), ([1, 0], NodeType.element, []),
             ([0, 1, 0], NodeType.text, lit "y"), ([1, 0], NodeType.element, []),
             ([0, 1, 0], NodeType.text, lit "[y]")],
            some (lit "[[y]]")) := by
  refine ⟨by decide!, by decide!, by decide!⟩

/-- C13: for every document, every mix of node kinds and every starting node of the document
(or NULL), `processSubtree` returns: with any fuel from twice the number of nodes of the
document plus two on, the embedded walker gives a result, and the same one.  The measure that
decreases is the size of the node under the cursor plus the sizes of the later siblings of the
cursor and of its ancestors: a step of the cursor ends the loop or moves to a place of smaller
measure in the same document, and `processNode` never makes a node larger. -/
theorem C13_termination (cfg : Config) (f : List Byte) (start : Option Ptr) (st : State)
    (hstart : ∀ p, start = some p → (getNode st.doc p).isSome = true) :
    (∃ st', ∀ m, processSubtree cfg f (2 * nodeSize st.doc + 2 + m) start st = some st') ∧
    (∀ (node : Ptr) (C : List Frame) (n : Node),
      ∃ a, advance (plug C n) node (ctxPtr C) = some a ∧
        (a = Advance.ret ∨ a = Advance.moveTo none ∨ a = Advance.moveTo (some node) ∨
          ∃ (q : Ptr) (Cq : List Frame) (nq : Node), a = Advance.moveTo (some q) ∧
            ctxPtr Cq = q ∧ plug Cq nq = plug C n ∧
            nodeSize nq + rightSize Cq < nodeSize n + rightSize C)) ∧
    (∀ (line : Int) (n : Node) (out : List Byte),
      nodeSize (processNode cfg f line n out).1 ≤ nodeSize n) := by
  refine ⟨processSubtree_bound cfg f start st hstart, ?_, processNode_size_le cfg f⟩
  intro node C n
  obtain ⟨a, ha, hcases⟩ := advance_cases node C n
  refine ⟨a, ha, ?_⟩
  rcases hcases with h | h | h | ⟨q, Cq, nq, h1, h2, h3, h4, _⟩
  · exact Or.inl h
  · exact Or.inr (Or.inl h)
  · exact Or.inr (Or.inr (Or.inl h))
  · exact Or.inr (Or.inr (Or.inr ⟨q, Cq, nq, h1, h2, h3, h4⟩))

/-- C13 witness: the document with an EntityReference that has two Text children and later
siblings, walked from the root element and from the first child of the reference. -/
theorem C13_termination_witness :
    (∃ st', ∀ m, processSubtree trConfig (lit "doc.xml") (2 * nodeSize docRefWithText + 2 + m)
      (some [0]) ⟨docRefWithText, [], []⟩ = some st') ∧
    (∃ st', ∀ m, processSubtree potConfig (lit "doc.xml") (2 * nodeSize docRefWithText + 2 + m)
      (some [0, 1, 0]) ⟨docRefWithText, [], []⟩ = some st') ∧
    nodeSize docRefWithText = 11 :=
  ⟨(C13_termination trConfig (lit "doc.xml") (some [0]) ⟨docRefWithText, [], []⟩
      (by intro p hp; cases hp; decide)).1,
   (C13_termination potConfig (lit "doc.xml") (some [0, 1, 0]) ⟨docRefWithText, [], []⟩
      (by intro p hp; cases hp; decide)).1,
   by decide⟩

/-- C14: for every tree without EntityDeclaration and without EntityReference that has
children, whose root has no next sibling, `processSubtree` started at the root returns, the
nodes passed to `processNode` are the nodes of the resulting tree, and every Element among them
whose direct Element children were all presentational when it was passed has in the resulting
tree no child, if it had none, and else exactly one child, a Text node without children (so no
presentational Element remains below it); and if no Text node of the tree had children, no
Text node of the resulting tree has. -/
theorem C14_collapse_invariant (cfg : Config) (f : List Byte) (dn : Node) (l : List Node)
    (root : Node) (out : List Byte) (hne : noEntityContent root = true) :
    ∃ (k : Nat) (st' : State) (root' : Node),
      (∀ m, processSubtree cfg f (k + m) (some [l.length])
        ⟨dn.setChildren (l ++ [root]), out, []⟩ = some st') ∧
      st'.doc = dn.setChildren (l ++ [root']) ∧
      st'.log.map (fun v => (v.ptr, v.node.type)) = preorder [l.length] root' ∧
      (∀ v ∈ st'.log, v.node.type = NodeType.element →
        scanChildren v.node.children = true →
        ∃ fn, getNode st'.doc v.ptr = some fn ∧ fn.type = NodeType.element ∧
          ((v.node.children = [] ∧ fn.children = []) ∨
           (v.node.children ≠ [] ∧
             ∃ c, fn.children = [Node.mk NodeType.text (lit "text") c 0 []]))) ∧
      (textLeaves root = true → textLeaves root' = true) := by
  obtain ⟨k, st', hrun, hdoc, hlog⟩ := walk_summary cfg f dn l root out hne
  refine ⟨k, st', walked cfg root, hrun, hdoc, log_typed_of_visitsSpec cfg _ _ _ hlog, ?_,
    textLeaves_walked cfg root⟩
  intro v hv ht hs
  have hm := mem_visitsSpec_of_log _ _ _ hlog v hv
  refine ⟨walked cfg v.node, ?_, ?_, ?_⟩
  · rw [hdoc]
    exact getNode_walked_doc cfg dn l root _ hm
  · rw [walked_type, ht]
  · rcases walked_element_children cfg v.node ht hs with h | h
    · exact Or.inl h
    · exact Or.inr ⟨h.1, _, h.2⟩

/-- C14 witness: the sample document with an empty element, a section that is not collapsed
and a collapsible paragraph with an accel element; after the walk the paragraph holds one Text
child and the empty element none. -/
theorem C14_collapse_invariant_witness :
    (∃ (k : Nat) (st' : State) (root' : Node),
      (∀ m, processSubtree potConfig (lit "doc.xml") (k + m) (some [0])
        ⟨docEmptyTexts, [], []⟩ = some st') ∧
      st'.doc = sampleDoc [root'] ∧
      (∀ v ∈ st'.log, v.node.type = NodeType.element →
        scanChildren v.node.children = true →
        ∃ fn, getNode st'.doc v.ptr = some fn ∧ fn.type = NodeType.element ∧
          ((v.node.children = [] ∧ fn.children = []) ∨
           (v.node.children ≠ [] ∧
             ∃ c, fn.children = [Node.mk NodeType.text (lit "text") c 0 []]))) ∧
      textLeaves root' = true) ∧
    (processSubtree potConfig (lit "doc.xml") 20 (some [0]) ⟨docEmptyTexts, [], []⟩).map
        (fun st => (getNode st.doc [2, 0]).map
          (fun n => n.children.map (fun c => (c.type, c.content, c.children.length)))) =
      some (some [(NodeType.text, lit "Press K", 0)]) ∧
    (processSubtree potConfig (lit "doc.xml") 20 (some [0]) ⟨docEmptyTexts, [], []⟩).map
        (fun st => (getNode st.doc [0, 1, 0]).map (fun n => n.children.length)) =
      some (some 0) := by
  refine ⟨?_, by decide!, by decide!⟩
  obtain ⟨k, st', root', h1, h2, _, h4, h5⟩ :=
    C14_collapse_invariant potConfig (lit "doc.xml") (sampleDoc []) []
      (sampleElem "book" 1
        [sampleText "", sampleElem "sect" 2 [sampleElem "hr" 3 [], sampleText " \n"],
         sampleElem "para" 4 [sampleText "Press ", sampleElem "accel" 4 [sampleText "K"]]])
      [] (by decide)
  exact ⟨k, st', root', h1, h2, h4, h5 (by decide)⟩

/-- C15: for every tree without EntityDeclaration and without EntityReference that has
children, whose root has no next sibling, `processSubtree` started at the root returns and the
sequence of nodes passed to `processNode` is the pre-order listing of the tree as it stands
after the walk: each node followed by the single Text child its collapse creates when it is
collapsible, and by its untouched children, each with its own listing, when it is not; no place
of the tree is passed twice, and below a collapsed element nothing is passed but the created
Text child, so the children the collapse discards are never passed. -/
theorem C15_visit_order (cfg : Config) (f : List Byte) (dn : Node) (l : List Node)
    (root : Node) (out : List Byte) (hne : noEntityContent root = true) :
    ∃ (k : Nat) (st' : State),
      (∀ m, processSubtree cfg f (k + m) (some [l.length])
        ⟨dn.setChildren (l ++ [root]), out, []⟩ = some st') ∧
      st'.doc = dn.setChildren (l ++ [walked cfg root]) ∧
      st'.log.map (fun v => (v.ptr, v.node)) = visitsSpec [l.length] root ∧
      st'.log.map (fun v => (v.ptr, v.node.type)) = preorder [l.length] (walked cfg root) ∧
      (st'.log.map Visit.ptr).Nodup ∧
      (∀ v ∈ st'.log, collapsible v.node.type v.node.children →
        ∀ w ∈ st'.log, v.ptr <:+ w.ptr →
          w.ptr = v.ptr ∨
          (w.ptr = 0 :: v.ptr ∧ w.node = xmlNewDocText (xmlNodeGetContent v.node))) := by
  obtain ⟨k, st', hrun, hdoc, hlog⟩ := walk_summary cfg f dn l root out hne
  refine ⟨k, st', hrun, hdoc, hlog, log_typed_of_visitsSpec cfg _ _ _ hlog,
    log_nodup_of_visitsSpec _ _ _ hlog, ?_⟩
  intro v hv hc w hw hs
  exact visitsSpec_below root [l.length] (v.ptr, v.node)
    (mem_visitsSpec_of_log _ _ _ hlog v hv) hc (w.ptr, w.node)
    (mem_visitsSpec_of_log _ _ _ hlog w hw) hs

/-- C15 witness: the sample document with a collapsible paragraph that holds an accel element;
the walk passes the paragraph and then the created Text child, and neither the old Text child
nor the accel element nor its text. -/
theorem C15_visit_order_witness :
    (∃ (k : Nat) (st' : State),
      (∀ m, processSubtree potConfig (lit "doc.xml") (k + m) (some [0])
        ⟨docEmptyTexts, [], []⟩ = some st') ∧
      st'.log.map (fun v => (v.ptr, v.node.type)) =
        preorder [0] (walked potConfig (sampleElem "book" 1
          [sampleText "", sampleElem "sect" 2 [sampleElem "hr" 3 [], sampleText " \n"],
           sampleElem "para" 4
             [sampleText "Press ", sampleElem "accel" 4 [sampleText "K"]]])) ∧
      (st'.log.map Visit.ptr).Nodup) ∧
    (processSubtree potConfig (lit "doc.xml") 20 (some [0]) ⟨docEmptyTexts, [], []⟩).map
        (fun st => st.log.map (fun v => (v.ptr, v.node.type, v.node.content))) =
      some [([0], NodeType.element, []), ([0, 0], NodeType.text, []),
            ([1, 0], NodeType.element, []), ([0, 1, 0], NodeType.element, []),
            ([1, 1, 0], NodeType.text, lit " \n"), ([2, 0], NodeType.element, []),
            ([0, 2, 0], NodeType.text, lit "Press K")] := by
  refine ⟨?_, by decide!⟩
  obtain ⟨k, st', h1, _, _, h4, h5, _⟩ :=
    C15_visit_order potConfig (lit "doc.xml") (sampleDoc []) []
      (sampleElem "book" 1
        [sampleText "", sampleElem "sect" 2 [sampleElem "hr" 3 [], sampleText " \n"],
         sampleElem "para" 4 [sampleText "Press ", sampleElem "accel" 4 [sampleText "K"]]])
      [] (by decide)
  exact ⟨k, st', h1, h4, h5⟩

/-! ## Further claims on processString -/

/-- C16 (as stated, refuted): for the text of 429496730 line feeds the second loop writes
2147483650 bytes, more than an `int` holds: the accumulator `new_len` of the first loop has
wrapped to -2147483646 and is not the number of bytes written. -/
theorem C16_counterexample :
    (0 : Byte) ∉ List.replicate 429496730 (10 : Byte) ∧
    (fillLoop (List.replicate 429496730 10) []).length = 2147483650 ∧
    new_len (List.replicate 429496730 10) = -2147483646 ∧
    new_len (List.replicate 429496730 10) ≠
      ((fillLoop (List.replicate 429496730 10) []).length : Int) := by
  have h1 : (fillLoop (List.replicate 429496730 10) []).length = 2147483650 :=
    length_fillLoop_replicate_lf 429496730
  have h2 : new_len (List.replicate 429496730 10) = -2147483646 := by
    rw [new_len_replicate_lf]
    unfold wrapInt
    omega
  refine ⟨not_mem_replicate_lf _, h1, h2, ?_⟩
  rw [h1, h2]
  omega

/-- C16 (amended): for every raw text (without NUL) whose escaped length, the length of the
text plus four per line feed plus one per double quote, is below `2 ^ 31 - 1`, so that
`new_len` and `new_len + 1` fit the `int`, the length `new_len` computed by the first loop of
`processString` is the number of bytes the second loop writes, namely that escaped length; the
write index (the number of bytes written once a prefix of the text has been read) never
exceeds `new_len`, and the buffer of `new_len + 1` bytes is exactly filled, the NUL standing at
index `new_len`. -/
theorem C16_buffer_sizing (s : List Byte) (h : (0 : Byte) ∉ s)
    (hfit : s.length + 4 * s.count 10 + s.count 34 + 1 < 2 ^ 31) :
    new_len s = ((fillLoop s []).length : Int) ∧
    new_len s = ((s.length + 4 * s.count 10 + s.count 34 : Nat) : Int) ∧
    (∀ a b, s = a ++ b → ((fillLoop a []).length : Int) ≤ new_len s) ∧
    alloc_len s = ((new_line s).length : Int) ∧
    (new_line s)[(new_len s).toNat]? = some 0 := by
  have hlen : (fillLoop s []).length = s.length + 4 * s.count 10 + s.count 34 := by
    rw [fillLoop_eq_escapeSpec s h, length_escapeSpec]
  have hlt : ((fillLoop s []).length : Int) + 1 < 2 ^ 31 := by
    rw [hlen]
    exact_mod_cast hfit
  have h1 : new_len s = ((fillLoop s []).length : Int) := by
    unfold new_len
    rw [lenLoop_of_fits s 0 (Int.le_refl 0) (by omega)]
    omega
  refine ⟨h1, ?_, ?_, ?_, ?_⟩
  · rw [h1, hlen]
  · intro a b hab
    subst hab
    have ha : (0 : Byte) ∉ a := fun e => h (List.mem_append_left _ e)
    rw [h1, fillLoop_prefix a b ha, List.length_append]
    push_cast
    omega
  · unfold alloc_len
    rw [h1, wrapInt_of_fits _ (by omega) (by omega)]
    simp [new_line]
  · rw [h1, Int.toNat_ofNat]
    exact list_getElem?_append_cons _ [] 0

/-- C16 witness: the text He said "hi" LF Bye, of 16 bytes with one line feed and two quotes. -/
theorem C16_buffer_sizing_witness :
    new_len (lit "He said \"hi\"\nBye") = 22 ∧
    new_len (lit "He said \"hi\"\nBye") =
      (((lit "He said \"hi\"\nBye").length + 4 * (lit "He said \"hi\"\nBye").count 10 +
        (lit "He said \"hi\"\nBye").count 34 : Nat) : Int) ∧
    alloc_len (lit "He said \"hi\"\nBye") = 23 ∧
    (new_line (lit "He said \"hi\"\nBye")).length = 23 ∧
    (new_line (lit "He said \"hi\"\nBye"))[22]? = some 0 :=
  ⟨(C16_buffer_sizing (lit "He said \"hi\"\nBye") (by decide) (by decide)).2.1.trans
      (by decide),
    (C16_buffer_sizing (lit "He said \"hi\"\nBye") (by decide) (by decide)).2.1,
    (C16_buffer_sizing (lit "He said \"hi\"\nBye") (by decide) (by decide)).2.2.2.1.trans
      (by decide),
    by decide, by decide⟩

/-- C17: the escaping of `processString` is lossless on raw texts (without NUL): two texts with
the same escaped text are equal, and the decoder `unescape` gives the text back from its
escaped text, although backslashes are passed through unescaped. -/
theorem C17_escaping_lossless (s t : List Byte) (hs : (0 : Byte) ∉ s) (ht : (0 : Byte) ∉ t) :
    (str (new_line s) = str (new_line t) → s = t) ∧ unescape 0 (str (new_line s)) = s := by
  rw [str_new_line s hs, str_new_line t ht]
  refine ⟨fun h => ?_, unescape_escapeSpec s⟩
  rw [← unescape_escapeSpec s, ← unescape_escapeSpec t, h]

/-- C17 witness: a text with a backslash followed by n and a quote, next to a line feed, and the
text that reads like the escape of a line feed. -/
theorem C17_escaping_lossless_witness :
    unescape 0 (str (new_line (lit "a\\n\"\nb\\"))) = lit "a\\n\"\nb\\" ∧
    str (new_line (lit "a\\n\"\nb\\")) = lit "a\\n\\\"\\n\"\n\"b\\" ∧
    str (new_line (lit "\\n")) ≠ str (new_line (lit "\n")) :=
  ⟨(C17_escaping_lossless (lit "a\\n\"\nb\\") (lit "\\n") (by decide) (by decide)).2,
    by decide, by decide⟩

end DocI18n
